import Mathlib

/-!
# Segmented byte buffer (buffer.c, buffer.h)

A shallow embedding of the chain buffer and the properties proved about it.

Conventions of the embedding.

* A segment (`struct buffer_chain`) keeps its storage region `head[0 .. end - head)` as a list of
  bytes; the pointers `data`, `tail` and `end` are integer offsets from `head`, so `head` itself is
  offset `0`.  `malloc` hands out storage whose bytes are indeterminate; they are taken to be `0`.
* A buffer keeps the chain rooted at `b->head` (linked through `next`) as a list of segments.
  `b->tail` points to the last node of that chain, and a store through `b->tail` rewrites the last
  element of the list.
* `size_t` is 64 bits wide and `int` is 32 bits wide (LP64).  Values of both types are integers;
  a conversion to `int` wraps around (`int_of`), a conversion to `size_t` reduces modulo `2 ^ 64`
  (`size_t_of`).  Pointer differences (`ptrdiff_t`) are exact integers.
* `malloc`, `vasprintf` and `read` are oracles: their outcome is a parameter of the operation.
* A result `none` means that the embedding has no result for the call: a loop that never ends, a
  read script that is too short for the call, a loop that is cut off at its bound of rounds, or
  a `memcpy` out of a segment whose bytes do not all lie in the storage of the segment (the
  behaviour of that call is undefined, and it does not return when it leaves the mapped memory).
  The theorems prove the result `some ...` wherever they state what a call returns.
* The calls of `read` that `buffer_add_fd` makes, and the statement at which its loop ends, are
  recorded by a second form of the loop that goes round by round (`buffer_add_fd_run`); it is
  proved to have the result of `buffer_add_fd_loop`.
-/

/-! ## Machine integers and memory -/

/-- Largest value of the C type `int`. -/
def INT_MAX : Int := 2147483647

/-- Conversion to the C type `int`: wrap-around to 32 bits, two's complement. -/
def int_of (x : Int) : Int := (x + 2147483648) % 4294967296 - 2147483648

/-- Conversion to the C type `size_t`: reduction modulo `2 ^ 64`. -/
def size_t_of (x : Int) : Int := x % 18446744073709551616

/-- The `n` bytes of the region `m` that start at offset `off`; `n` is a `size_t` count. -/
def mem_read (m : List UInt8) (off : Int) (n : Int) : List UInt8 :=
  (m.drop off.toNat).take n.toNat

/-- The bytes `memcpy` copies out of the region `m` from offset `off` on, for the `size_t` count
`n`.  There is no result when these bytes do not all lie inside the region. -/
def mem_copy (m : List UInt8) (off : Int) (n : Int) : Option (List UInt8) :=
  if 0 ≤ off ∧ 0 ≤ n ∧ off + n ≤ m.length then some (mem_read m off n) else none

/-- The region `m` after the bytes `src` have been stored at offset `off`. -/
def mem_write (m : List UInt8) (off : Int) (src : List UInt8) : List UInt8 :=
  m.take off.toNat ++ src ++ m.drop (off.toNat + src.length)

/-- The number of bytes of a byte string as a `size_t` value. -/
def byte_len : List UInt8 → Int
  | [] => 0
  | _ :: s => byte_len s + 1

/-! ## Data model -/

/-- One segment, `struct buffer_chain`.  The field `next` is the list structure of the buffer. -/
structure buffer_chain where
  /-- Offset of the first unconsumed byte. -/
  data : Int
  /-- Offset one past the last written byte. -/
  tail : Int
  /-- Offset one past the end of the storage region. -/
  end_ : Int
  /-- The storage region. -/
  head : List UInt8
deriving DecidableEq

/-- The buffer, `struct buffer`: `head` is the chain of segments in order, `b->tail` is its last
node, `data_len` is the length counter. -/
structure buffer where
  /-- The chain rooted at `b->head`. -/
  head : List buffer_chain
  /-- The counter `b->data_len`. -/
  data_len : Nat
deriving DecidableEq

/-- The segment `b->tail` points to, if any. -/
def buffer_tail (b : buffer) : Option buffer_chain := b.head.getLast?

/-- A store through the pointer `b->tail`: the last segment becomes `chain`. -/
def buffer_set_tail (b : buffer) (chain : buffer_chain) : buffer :=
  { b with head := b.head.dropLast ++ [chain] }

/-- The accessor `buffer_data_len` of buffer.h. -/
def buffer_data_len (b : buffer) : Nat := b.data_len

/-! ## Segment allocation and compaction -/

/-- The function `buffer_chain_should_align`; `len` is its `int` argument. -/
def buffer_chain_should_align (chain : buffer_chain) (len : Int) : Bool :=
  if chain.data = 0 then false
  else
    let maxlen := int_of (chain.end_ - 0)
    let offset := int_of (chain.data - 0)
    if offset > Int.tdiv maxlen 2 then true
    else if chain.tail - chain.data < 32 ∧ offset > Int.tdiv maxlen 4 then true
    else decide (chain.end_ - chain.tail < len)

/-- The function `buffer_chain_align`: `memmove` of the content to the start of the storage.
`memmove` takes `datlen` as a `size_t` count; on the segments that `buffer_add` and
`buffer_add_fd` pass, those for which `buffer_chain_should_align` has returned true, the count
is the size of the content (`buffer_chain_should_align_small`). -/
def buffer_chain_align (chain : buffer_chain) : buffer_chain :=
  let datlen := int_of (chain.tail - chain.data)
  { chain with
    head := mem_write chain.head 0 (mem_read chain.head chain.data (size_t_of datlen))
    data := 0
    tail := 0 + datlen }

/-- The loop `while (buf_len < len) buf_len <<= 1;` of `buffer_chain_new`, on `size_t` values.
Starting from 512 the value is `0` after 55 doublings and stays `0`, so a run that has not ended
within 64 rounds never ends. -/
def buffer_chain_new_loop : Nat → Nat → Nat → Option Nat
  | 0, _, _ => none
  | fuel + 1, buf_len, len =>
    if buf_len < len then
      buffer_chain_new_loop fuel ((buf_len <<< 1) % 18446744073709551616) len
    else some buf_len

/-- The function `buffer_chain_new`; `len` is its `size_t` argument.  The outer `none` is a loop
that never ends, the inner `none` is the `NULL` returned when `malloc` fails. -/
def buffer_chain_new (len : Int) (malloc_ok : Bool) : Option (Option buffer_chain) :=
  match buffer_chain_new_loop 64 512 len.toNat with
  | none => none
  | some buf_len =>
    if malloc_ok then
      some (some { data := 0, tail := 0, end_ := buf_len, head := List.replicate buf_len 0 })
    else some none

/-- The function `buffer_add_chain`: link `chain` behind `b->tail` and make it the tail. -/
def buffer_add_chain (b : buffer) (chain : buffer_chain) : buffer :=
  { b with head := b.head ++ [chain] }

/-- The function `buffer_del_chain`, called by `buffer_drain` on the segment `b->head`: the head
moves to `chain->next`, and `b->tail` is cleared with it when that segment was also the tail. -/
def buffer_del_chain (b : buffer) : buffer :=
  { b with head := b.head.drop 1 }

/-- The function `buffer_expand`; `len` is its `int` argument.  It returns the buffer with the new
segment linked, together with that segment. -/
def buffer_expand (b : buffer) (len : Int) (malloc_ok : Bool) :
    Option (Option (buffer × buffer_chain)) :=
  match buffer_chain_new (size_t_of len) malloc_ok with
  | none => none
  | some none => some none
  | some (some chain) => some (some (buffer_add_chain b chain, chain))

/-- The function `buffer_free`. -/
def buffer_free (b : buffer) : buffer := { b with head := [] }

/-! ## Append -/

/-- The statements at the label `copy` of `buffer_add`, on the segment `chain`. -/
def buffer_add_copy (chain : buffer_chain) (source : List UInt8) (len : Int) : buffer_chain :=
  { chain with
    head := mem_write chain.head chain.tail (source.take len.toNat)
    tail := chain.tail + len }

/-- The part of `buffer_add` from the call of `buffer_expand` on. -/
def buffer_add_expand (b : buffer) (source : List UInt8) (len : Int) (malloc_ok : Bool) :
    Option (Int × buffer) :=
  match buffer_expand b (int_of len) malloc_ok with
  | none => none
  | some none => some (int_of len, b)
  | some (some (b1, chain)) => some (0, buffer_set_tail b1 (buffer_add_copy chain source len))

/-- The function `buffer_add`.  `source` holds the bytes behind the pointer, `len` is the `size_t`
argument, `malloc_ok` tells whether the one allocation the call may make succeeds.  The result is
the returned `int` and the buffer afterwards. -/
def buffer_add (b : buffer) (source : List UInt8) (len : Int) (malloc_ok : Bool) :
    Option (Int × buffer) :=
  match buffer_tail b with
  | some chain0 =>
    let chain :=
      if buffer_chain_should_align chain0 (int_of len) then buffer_chain_align chain0 else chain0
    let remain := int_of (chain.end_ - chain.tail)
    if len ≤ size_t_of remain then
      some (0, buffer_set_tail b (buffer_add_copy chain source len))
    else if 0 < remain then
      let chain1 : buffer_chain :=
        { chain with
          head := mem_write chain.head chain.tail (source.take (size_t_of remain).toNat)
          tail := chain.tail + remain }
      buffer_add_expand (buffer_set_tail b chain1) (source.drop remain.toNat)
        (size_t_of (len - remain)) malloc_ok
    else
      buffer_add_expand (buffer_set_tail b chain) source len malloc_ok
  | none => buffer_add_expand b source len malloc_ok

/-! ## Drain and extract -/

/-- A store through the pointer `chain` of `buffer_drain`, which is `b->head` in every round:
the first segment becomes `chain`. -/
def buffer_set_head (b : buffer) (chain : buffer_chain) : buffer :=
  { b with head := chain :: b.head.drop 1 }

/-- The `do ... while (len)` loop of `buffer_drain`.  The first argument is the chain the local
pointer `chain` walks (it starts at `b->head`, and every round that goes on unlinks the segment it
stands on). -/
def buffer_drain_loop : List buffer_chain → buffer → Int → buffer
  | [], b, _ => b
  | chain :: next, b, len =>
    let datlen := int_of (chain.tail - chain.data)
    if len < size_t_of datlen then
      buffer_set_head b { chain with data := chain.data + len }
    else
      let len1 := size_t_of (len - datlen)
      let b1 := buffer_del_chain b
      if len1 ≠ 0 then buffer_drain_loop next b1 len1 else b1

/-- The function `buffer_drain`; `len` is the `size_t` argument. -/
def buffer_drain (b : buffer) (len : Int) : buffer :=
  if len = 0 then b else buffer_drain_loop b.head b len

/-- The `do ... while (remain)` loop of `buffer_remove`.  `dest` collects the bytes stored behind
the destination pointer so far.  `memcpy` takes `datlen` as a `size_t` count; the loop has no
result when that many bytes from `chain->data` on are not inside the storage of the segment. -/
def buffer_remove_loop : Nat → buffer → List UInt8 → Int → Option (buffer × List UInt8 × Int)
  | 0, _, _, _ => none
  | fuel + 1, b, dest, remain =>
    match b.head.head? with
    | none => some (b, dest, remain)
    | some chain =>
      let datlen := int_of (chain.tail - chain.data)
      if datlen = 0 then some (b, dest, remain)
      else
        let datlen := if datlen > remain then remain else datlen
        match mem_copy chain.head chain.data (size_t_of datlen) with
        | none => none
        | some bytes =>
          let dest1 := dest ++ bytes
          let remain1 := int_of (remain - datlen)
          let b1 := buffer_drain b (size_t_of datlen)
          if remain1 ≠ 0 then buffer_remove_loop fuel b1 dest1 remain1
          else some (b1, dest1, remain1)

/-- The function `buffer_remove`; `len` is the `size_t` argument.  The result is the returned
`int`, the bytes stored at `dest`, and the buffer afterwards.  The loop is run for at most one
round more than there are segments: every round but the last unlinks a segment when the segment
invariant holds (`buffer_remove_spec`). -/
def buffer_remove (b : buffer) (len : Int) : Option (Int × List UInt8 × buffer) :=
  match buffer_remove_loop (b.head.length + 1) b [] (int_of len) with
  | none => none
  | some (b1, dest, remain) => some (int_of (len - remain), dest, b1)

/-! ## Strings and formatted output -/

/-- The function `strlen` on the bytes `s` behind a string pointer (a zero byte follows them):
the number of bytes before the first zero byte. -/
def strlen (s : List UInt8) : Int := byte_len (s.takeWhile (fun x => x ≠ 0))

/-- The function `buffer_add_string`; `s` holds the bytes behind the pointer, up to a zero byte
that ends them. -/
def buffer_add_string (b : buffer) (s : List UInt8) (malloc_ok : Bool) : Option (Int × buffer) :=
  buffer_add b s (strlen s) malloc_ok

/-- The function `buffer_add_vprintf`.  `rendered` is the outcome of `vasprintf`: the rendered
string, or `none` when it fails. -/
def buffer_add_vprintf (b : buffer) (rendered : Option (List UInt8)) (malloc_ok : Bool) :
    Option (Int × buffer) :=
  match rendered with
  | none => some (-1, b)
  | some strp => buffer_add_string b strp malloc_ok

/-- The function `buffer_add_printf`. -/
def buffer_add_printf (b : buffer) (rendered : Option (List UInt8)) (malloc_ok : Bool) :
    Option (Int × buffer) :=
  buffer_add_vprintf b rendered malloc_ok

/-! ## Reading from a descriptor -/

/-- The values of `errno` that `buffer_add_fd` tells apart. -/
inductive errno_t where
  | EINTR
  | EAGAIN
  | ENOTCONN
  | other
deriving DecidableEq

/-- Outcome of one call of `read`: the `ssize_t` it returns, the value of `errno` after the call,
and the bytes it stored at the address it was given (when it returned a positive count). -/
structure read_result where
  /-- The value returned by `read`. -/
  ret : Int
  /-- The value of `errno` after the call. -/
  errno : errno_t
  /-- The bytes stored. -/
  bytes : List UInt8
deriving DecidableEq

/-- A round of the loop of `buffer_add_fd` up to the label `begin`.  The result is the buffer at
that point and, unless `buffer_expand` returned `NULL`, the segment to read into (the tail of that
buffer) and whether `malloc` was called. -/
def buffer_add_fd_chain (b : buffer) (len : Int) (malloc_ok : Bool) :
    Option (buffer × Option (buffer_chain × Bool)) :=
  match buffer_tail b with
  | some chain0 =>
    let chain :=
      if buffer_chain_should_align chain0 len then buffer_chain_align chain0 else chain0
    let b0 := buffer_set_tail b chain
    if chain.tail < chain.end_ then some (b0, some (chain, false))
    else
      match buffer_expand b0 4096 malloc_ok with
      | none => none
      | some none => some (b0, none)
      | some (some (b1, chain1)) => some (b1, some (chain1, true))
  | none =>
    match buffer_expand b 4096 malloc_ok with
    | none => none
    | some none => some (b, none)
    | some (some (b1, chain1)) => some (b1, some (chain1, true))

/-- The `do ... while (remain)` loop of `buffer_add_fd`.  `reads` answers the calls of `read` in
order, each entry from the count requested; `malloc_ok k` tells whether the call of `malloc`
number `k` of this run succeeds, `k` counts the calls made so far.  The result is the returned
`int`, the flag `*eof` and the buffer. -/
def buffer_add_fd_loop :
    List (Int → read_result) → (Nat → Bool) → Nat → buffer → Int → Int →
      Option (Int × Bool × buffer)
  | [], _, _, _, _, _ => none
  | rd :: reads, malloc_ok, k, b, len, remain =>
    match buffer_add_fd_chain b len (malloc_ok k) with
    | none => none
    | some (b0, none) => some (-1, false, b0)
    | some (b0, some (chain, used)) =>
      let k1 := if used then k + 1 else k
      let avalible := int_of (chain.end_ - chain.tail)
      let avalible := if remain < avalible then remain else avalible
      let r := rd (size_t_of avalible)
      let res := int_of r.ret
      let chain_r : buffer_chain :=
        if 0 < r.ret then { chain with head := mem_write chain.head chain.tail r.bytes }
        else chain
      let b_r := buffer_set_tail b0 chain_r
      if res < 0 then
        match r.errno with
        | errno_t.EINTR =>
          if remain ≠ 0 then buffer_add_fd_loop reads malloc_ok k1 b_r len remain
          else some (int_of (len - remain), false, b_r)
        | errno_t.EAGAIN => some (int_of (len - remain), false, b_r)
        | errno_t.ENOTCONN => some (int_of (len - remain), false, b_r)
        | errno_t.other => some (-1, false, b_r)
      else if res = 0 then some (int_of (len - remain), true, b_r)
      else
        let b2 := buffer_set_tail b0 { chain_r with tail := chain_r.tail + res }
        let remain1 := int_of (remain - res)
        if remain1 ≠ 0 then buffer_add_fd_loop reads malloc_ok k1 b2 len remain1
        else some (int_of (len - remain1), false, b2)

/-- The function `buffer_add_fd`.  The descriptor is given by the script `reads` of its answers.
The result is the returned `int`, the flag `*eof` and the buffer. -/
def buffer_add_fd (b : buffer) (len : Int) (malloc_ok : Nat → Bool)
    (reads : List (Int → read_result)) : Option (Int × Bool × buffer) :=
  let len1 := if len < 0 then INT_MAX else len
  buffer_add_fd_loop reads malloc_ok 0 b len1 len1

/-! ## Logical content and invariants -/

/-- The content region of a segment: the bytes from `data` up to `tail`. -/
def chain_content (c : buffer_chain) : List UInt8 :=
  mem_read c.head c.data (c.tail - c.data)

/-- The content regions of a chain of segments, one after the other. -/
def stream_of : List buffer_chain → List UInt8
  | [] => []
  | c :: cs => chain_content c ++ stream_of cs

/-- The logical byte stream of a buffer. -/
def buffer_stream (b : buffer) : List UInt8 := stream_of b.head

/-- The sum of the content region sizes `tail - data` of a chain of segments. -/
def content_len : List buffer_chain → Int
  | [] => 0
  | c :: cs => (c.tail - c.data) + content_len cs

/-- The total content length of a buffer. -/
def buffer_content_len (b : buffer) : Int := content_len b.head

/-- The segment invariant `head ≤ data ≤ tail ≤ end`. -/
def chain_inv (c : buffer_chain) : Prop := 0 ≤ c.data ∧ c.data ≤ c.tail ∧ c.tail ≤ c.end_

/-- The storage region of a segment as `buffer_chain_new` lays it out for a request of at most
`INT_MAX` bytes: it has `end - head` bytes, and at most `2 ^ 31` of them. -/
def chain_region (c : buffer_chain) : Prop :=
  (c.head.length : Int) = c.end_ ∧ c.end_ ≤ 2147483648

/-- The content of the segment has at most `INT_MAX` bytes. -/
def chain_small (c : buffer_chain) : Prop := c.tail - c.data ≤ INT_MAX

/-- Every segment of the buffer satisfies the segment invariant. -/
def buffer_inv (b : buffer) : Prop := ∀ c ∈ b.head, chain_inv c

/-- Every segment of the buffer has a storage region as `buffer_chain_new` lays it out. -/
def buffer_region (b : buffer) : Prop := ∀ c ∈ b.head, chain_region c

/-- No segment of the buffer holds more than `INT_MAX` bytes. -/
def buffer_small (b : buffer) : Prop := ∀ c ∈ b.head, chain_small c

instance (c : buffer_chain) : Decidable (chain_inv c) := by
  unfold chain_inv; infer_instance

instance (c : buffer_chain) : Decidable (chain_region c) := by
  unfold chain_region; infer_instance

instance (c : buffer_chain) : Decidable (chain_small c) := by
  unfold chain_small; infer_instance

instance (b : buffer) : Decidable (buffer_inv b) := by
  unfold buffer_inv; infer_instance

instance (b : buffer) : Decidable (buffer_region b) := by
  unfold buffer_region; infer_instance

instance (b : buffer) : Decidable (buffer_small b) := by
  unfold buffer_small; infer_instance

/-! ## Auxiliary definitions for the proofs -/

/-- The segment after the compaction step of an append: compacted when
`buffer_chain_should_align` says so. -/
def chain_aligned (c : buffer_chain) (len : Int) : buffer_chain :=
  if buffer_chain_should_align c len then buffer_chain_align c else c

/-- The capacity `buffer_chain_new` gives a segment for a request of `len` bytes. -/
def chain_cap (len : Nat) : Nat := (buffer_chain_new_loop 64 512 len).getD 0

/-- The segment `buffer_chain_new` returns for a request of `len` bytes. -/
def chain_fresh (len : Int) : buffer_chain :=
  { data := 0, tail := 0, end_ := chain_cap len.toNat,
    head := List.replicate (chain_cap len.toNat) 0 }

/-- The segment `c` after the bytes `bs` have been stored at `tail` and `tail` has moved
past them. -/
def chain_store (c : buffer_chain) (bs : List UInt8) : buffer_chain :=
  { c with head := mem_write c.head c.tail bs, tail := c.tail + bs.length }

/-- The chain after `buffer_drain` has discarded `n` bytes from its front, in exact arithmetic. -/
def chain_drain : List buffer_chain → Int → List buffer_chain
  | [], _ => []
  | c :: cs, n =>
    if n < c.tail - c.data then { c with data := c.data + n } :: cs
    else if n - (c.tail - c.data) ≠ 0 then chain_drain cs (n - (c.tail - c.data))
    else cs

/-- A segment that has a successor: filled up to its end, and not empty. -/
def seg_mid (c : buffer_chain) : Prop := c.tail = c.end_ ∧ c.data < c.tail

/-- The last segment of a chain: its storage is not empty, and when its content is empty
nothing has been drained from it and its storage is smaller than `2 ^ 31` bytes. -/
def seg_last (c : buffer_chain) : Prop :=
  0 < c.end_ ∧ (c.data = c.tail → c.data = 0 ∧ c.end_ < 2147483648)

/-- The shape of a chain: every segment but the last is a `seg_mid`, the last is a `seg_last`. -/
def chain_shape : List buffer_chain → Prop
  | [] => True
  | [c] => seg_last c
  | c :: c1 :: cs => seg_mid c ∧ chain_shape (c1 :: cs)

instance (c : buffer_chain) : Decidable (seg_mid c) := by
  unfold seg_mid; infer_instance

instance (c : buffer_chain) : Decidable (seg_last c) := by
  unfold seg_last; infer_instance

/-- The shape of a chain can be checked. -/
def chain_shape_decidable : (l : List buffer_chain) → Decidable (chain_shape l)
  | [] => isTrue trivial
  | [c] => inferInstanceAs (Decidable (seg_last c))
  | c :: c1 :: cs =>
    @instDecidableAnd (seg_mid c) (chain_shape (c1 :: cs)) inferInstance
      (chain_shape_decidable (c1 :: cs))

instance (l : List buffer_chain) : Decidable (chain_shape l) := chain_shape_decidable l

/-- A buffer in order: segment invariant, storage regions, and shape of the chain. -/
def buffer_wf (b : buffer) : Prop := buffer_inv b ∧ buffer_region b ∧ chain_shape b.head

instance (b : buffer) : Decidable (buffer_wf b) := by
  unfold buffer_wf; infer_instance

/-- The calls `buffer_add` of the byte strings of `ss` one after the other, each with its full
length and with a successful allocation: the values returned, and the buffer at the end. -/
def buffer_add_all : buffer → List (List UInt8) → Option (List Int × buffer)
  | b, [] => some ([], b)
  | b, s :: ss =>
    match buffer_add b s (byte_len s) true with
    | none => none
    | some (r, b1) =>
      match buffer_add_all b1 ss with
      | none => none
      | some (rs, b2) => some (r :: rs, b2)

/-- An outcome of `read` that keeps to the contract of the call for a request of `count` bytes:
the value `-1`, or a number of bytes from `0` to `count`, which is the number of bytes stored. -/
def read_within (count : Int) (r : read_result) : Prop :=
  r.ret = -1 ∨ (0 ≤ r.ret ∧ r.ret ≤ count ∧ (r.bytes.length : Int) = r.ret)

instance (count : Int) (r : read_result) : Decidable (read_within count r) := by
  unfold read_within; infer_instance

/-- The space of a segment outside its content (drained and free bytes) is at most `INT_MAX`
bytes. -/
def chain_slack_small (c : buffer_chain) : Prop := c.end_ - (c.tail - c.data) ≤ INT_MAX

/-- Every segment of the buffer has at most `INT_MAX` bytes outside its content. -/
def buffer_slack_small (b : buffer) : Prop := ∀ c ∈ b.head, chain_slack_small c

instance (c : buffer_chain) : Decidable (chain_slack_small c) := by
  unfold chain_slack_small; infer_instance

instance (b : buffer) : Decidable (buffer_slack_small b) := by
  unfold buffer_slack_small; infer_instance

/-- The invariant of the loop of `buffer_add_fd`: segment invariant, storage regions, and a tail
segment with at most `INT_MAX` bytes outside its content. -/
def buffer_fd_inv (b : buffer) : Prop :=
  buffer_inv b ∧ buffer_region b ∧ ∀ c, buffer_tail b = some c → chain_slack_small c

/-- The buffers reachable from a buffer without segments by calls of the public operations
`buffer_add`, `buffer_drain`, `buffer_remove` and `buffer_add_fd` with arguments of their C types
(`len ≤ INT_MAX` where the code keeps the length in an `int`, reads that keep to their contract),
through buffers that all satisfy `P`. -/
inductive buffer_reach (P : buffer → Prop) : buffer → Prop where
  | init (d : Nat) : P ⟨[], d⟩ → buffer_reach P ⟨[], d⟩
  | add (b : buffer) (source : List UInt8) (len : Int) (malloc_ok : Bool) (r : Int)
      (b1 : buffer) : buffer_reach P b → 0 ≤ len → len ≤ INT_MAX → len ≤ source.length →
      buffer_add b source len malloc_ok = some (r, b1) → P b1 → buffer_reach P b1
  | drain (b : buffer) (n : Int) : buffer_reach P b → 0 ≤ n → n < 18446744073709551616 →
      P (buffer_drain b n) → buffer_reach P (buffer_drain b n)
  | remove (b : buffer) (len : Int) (r : Int) (dest : List UInt8) (b1 : buffer) :
      buffer_reach P b → 0 ≤ len → len ≤ INT_MAX →
      buffer_remove b len = some (r, dest, b1) → P b1 → buffer_reach P b1
  | add_fd (b : buffer) (len : Int) (malloc_ok : Nat → Bool) (reads : List (Int → read_result))
      (r : Int) (eof : Bool) (b1 : buffer) : buffer_reach P b → len ≤ INT_MAX →
      (∀ rd ∈ reads, ∀ count, read_within count (rd count)) →
      buffer_add_fd b len malloc_ok reads = some (r, eof, b1) → P b1 → buffer_reach P b1

/-- A string of `n` zero bytes. -/
def zero_bytes (n : Nat) : List UInt8 := List.replicate n 0

/-- A segment of `2 ^ 31` bytes that is full and has nothing drained, as two calls of
`buffer_add` with `2 ^ 30 + 1` and `2 ^ 30 - 1` bytes leave it. -/
def chain_2g : buffer_chain :=
  { data := 0, tail := 2147483648, end_ := 2147483648, head := zero_bytes 2147483648 }

/-- A call of `buffer_add` (with the bytes to append, all of them, and a successful allocation)
or of `buffer_drain` (with the number of bytes to discard). -/
inductive stream_op where
  | add (source : List UInt8)
  | drain (n : Int)

/-- The buffer after the calls `ops` in order. -/
def buffer_run : buffer → List stream_op → Option buffer
  | b, [] => some b
  | b, stream_op.add source :: ops =>
    match buffer_add b source (byte_len source) true with
    | none => none
    | some (_, b1) => buffer_run b1 ops
  | b, stream_op.drain n :: ops => buffer_run (buffer_drain b n) ops

/-- The appended-minus-drained byte stream of the calls `ops`, starting from the stream `s`. -/
def net_stream : List UInt8 → List stream_op → List UInt8
  | s, [] => s
  | s, stream_op.add source :: ops => net_stream (s ++ source) ops
  | s, stream_op.drain n :: ops => net_stream (s.drop n.toNat) ops

/-- The calls `ops` have arguments of their C types, and the appended-minus-drained stream never
has more than `INT_MAX` bytes. -/
def net_small : List UInt8 → List stream_op → Prop
  | _, [] => True
  | s, stream_op.add source :: ops =>
    byte_len (s ++ source) ≤ INT_MAX ∧ net_small (s ++ source) ops
  | s, stream_op.drain n :: ops =>
    0 ≤ n ∧ n < 18446744073709551616 ∧ net_small (s.drop n.toNat) ops

/-- The condition `net_small` can be checked. -/
def net_small_decidable : (s : List UInt8) → (ops : List stream_op) → Decidable (net_small s ops)
  | _, [] => isTrue trivial
  | s, stream_op.add source :: ops =>
    @instDecidableAnd (byte_len (s ++ source) ≤ INT_MAX) (net_small (s ++ source) ops)
      inferInstance (net_small_decidable (s ++ source) ops)
  | s, stream_op.drain n :: ops =>
    @instDecidableAnd (0 ≤ n) (n < 18446744073709551616 ∧ net_small (s.drop n.toNat) ops)
      inferInstance
      (@instDecidableAnd (n < 18446744073709551616) (net_small (s.drop n.toNat) ops)
        inferInstance (net_small_decidable (s.drop n.toNat) ops))

instance (s : List UInt8) (ops : List stream_op) : Decidable (net_small s ops) :=
  net_small_decidable s ops

/-! ## The calls of `read` made by `buffer_add_fd` -/

/-- Largest value of the type `ssize_t`. -/
def SSIZE_MAX : Int := 9223372036854775807

/-- One call of `read` made by `buffer_add_fd`: the value of `remain` before the call, the free
space `end - tail` of the segment read into, the count passed to `read`, and the outcome. -/
structure fd_call where
  /-- The value of `remain` before the call. -/
  remain : Int
  /-- The free space `end - tail` of the segment read into. -/
  free : Int
  /-- The count passed to `read`, a `size_t` value. -/
  count : Int
  /-- The outcome of the call. -/
  result : read_result
deriving DecidableEq

/-- The ways the loop of `buffer_add_fd` ends. -/
inductive fd_stop where
  /-- The statement `return -1` after `buffer_expand` returned `NULL`. -/
  | alloc_failed
  /-- The statement `return -1` after a failed `read` with another value of `errno`. -/
  | read_failed
  /-- The statement `break` after a failed `read` with `EAGAIN` or `ENOTCONN`. -/
  | would_block
  /-- The statement `break` after `read` returned `0`. -/
  | end_of_file
  /-- The loop condition `remain` is `0` after a call of `read` that delivered bytes. -/
  | complete
  /-- The loop condition `remain` is `0` at the `continue` after a failed `read` with `EINTR`. -/
  | interrupted
deriving DecidableEq

/-- What a round of the loop of `buffer_add_fd` leads to: the end of the call, with the way it
ends, the value returned, the flag `*eof` and the buffer; or the next round, with the buffer and
the value of `remain` (`used` tells whether the round has called `malloc`). -/
inductive fd_next where
  | stop (s : fd_stop) (r : Int) (eof : Bool) (b : buffer)
  | again (used : Bool) (b : buffer) (remain : Int)

/-- A round of the loop of `buffer_add_fd` from the label `begin` on, with the call of `read` it
makes.  `b0` is the buffer at the label, `chain` the segment to read into. -/
def buffer_add_fd_begin (rd : Int → read_result) (b0 : buffer) (chain : buffer_chain)
    (used : Bool) (len remain : Int) : List fd_call × fd_next :=
  let avalible := int_of (chain.end_ - chain.tail)
  let avalible := if remain < avalible then remain else avalible
  let r := rd (size_t_of avalible)
  let call : fd_call :=
    { remain := remain, free := chain.end_ - chain.tail, count := size_t_of avalible,
      result := r }
  let res := int_of r.ret
  let chain_r : buffer_chain :=
    if 0 < r.ret then { chain with head := mem_write chain.head chain.tail r.bytes }
    else chain
  let b_r := buffer_set_tail b0 chain_r
  if res < 0 then
    match r.errno with
    | errno_t.EINTR =>
      if remain ≠ 0 then ([call], fd_next.again used b_r remain)
      else ([call], fd_next.stop fd_stop.interrupted (int_of (len - remain)) false b_r)
    | errno_t.EAGAIN =>
      ([call], fd_next.stop fd_stop.would_block (int_of (len - remain)) false b_r)
    | errno_t.ENOTCONN =>
      ([call], fd_next.stop fd_stop.would_block (int_of (len - remain)) false b_r)
    | errno_t.other => ([call], fd_next.stop fd_stop.read_failed (-1) false b_r)
  else if res = 0 then
    ([call], fd_next.stop fd_stop.end_of_file (int_of (len - remain)) true b_r)
  else
    let b2 := buffer_set_tail b0 { chain_r with tail := chain_r.tail + res }
    let remain1 := int_of (remain - res)
    if remain1 ≠ 0 then ([call], fd_next.again used b2 remain1)
    else ([call], fd_next.stop fd_stop.complete (int_of (len - remain1)) false b2)

/-- A round of the loop of `buffer_add_fd`, with the call of `read` it makes (none when
`buffer_expand` returns `NULL`). -/
def buffer_add_fd_round (rd : Int → read_result) (malloc_ok : Bool) (b : buffer)
    (len remain : Int) : Option (List fd_call × fd_next) :=
  match buffer_add_fd_chain b len malloc_ok with
  | none => none
  | some (b0, none) => some ([], fd_next.stop fd_stop.alloc_failed (-1) false b0)
  | some (b0, some (chain, used)) => some (buffer_add_fd_begin rd b0 chain used len remain)

/-- The loop of `buffer_add_fd`, round by round, with the calls of `read` it makes in order and,
when the script `reads` is long enough for the loop to end, the way it ends and its result
(the value returned, the flag `*eof`, the buffer).  The result is the one of
`buffer_add_fd_loop` (`buffer_add_fd_run_result`). -/
def buffer_add_fd_run :
    List (Int → read_result) → (Nat → Bool) → Nat → buffer → Int → Int →
      List fd_call × Option (fd_stop × Int × Bool × buffer)
  | [], _, _, _, _, _ => ([], none)
  | rd :: reads, malloc_ok, k, b, len, remain =>
    match buffer_add_fd_round rd (malloc_ok k) b len remain with
    | none => ([], none)
    | some (calls, fd_next.stop s r eof b1) => (calls, some (s, r, eof, b1))
    | some (calls, fd_next.again used b1 remain1) =>
      let rest := buffer_add_fd_run reads malloc_ok (if used then k + 1 else k) b1 len remain1
      (calls ++ rest.1, rest.2)

/-- The calls of `read` that a call of `buffer_add_fd` makes, in order. -/
def buffer_add_fd_calls (b : buffer) (len : Int) (malloc_ok : Nat → Bool)
    (reads : List (Int → read_result)) : List fd_call :=
  let len1 := if len < 0 then INT_MAX else len
  (buffer_add_fd_run reads malloc_ok 0 b len1 len1).1

/-- The way a call of `buffer_add_fd` ends. -/
def buffer_add_fd_stop (b : buffer) (len : Int) (malloc_ok : Nat → Bool)
    (reads : List (Int → read_result)) : Option fd_stop :=
  let len1 := if len < 0 then INT_MAX else len
  (buffer_add_fd_run reads malloc_ok 0 b len1 len1).2.map (fun x => x.1)

/-- The bytes that the calls of `read` have delivered, in order. -/
def fd_delivered : List fd_call → List UInt8
  | [] => []
  | call :: calls =>
    (if 0 < call.result.ret then call.result.bytes else []) ++ fd_delivered calls

/-- The way the loop ends at a call of `read`, from the outcome of the call; `none` when the loop
goes on. -/
def fd_call_stop (call : fd_call) : Option fd_stop :=
  if call.result.ret = 0 then some fd_stop.end_of_file
  else if call.result.ret < 0 then
    match call.result.errno with
    | errno_t.EINTR => if call.remain = 0 then some fd_stop.interrupted else none
    | errno_t.EAGAIN => some fd_stop.would_block
    | errno_t.ENOTCONN => some fd_stop.would_block
    | errno_t.other => some fd_stop.read_failed
  else if call.result.ret = call.remain then some fd_stop.complete
  else none

/-- An outcome of `read` for a request of `count` bytes as POSIX and Linux have it: as
`read_within`, and a request of more than `SSIZE_MAX` bytes is refused (its result is
implementation-defined in POSIX; Linux fails with `EINVAL`). -/
def read_conforming (count : Int) (r : read_result) : Prop :=
  r.ret = -1 ∨
    (0 ≤ r.ret ∧ r.ret ≤ count ∧ count ≤ SSIZE_MAX ∧ (r.bytes.length : Int) = r.ret)

instance (count : Int) (r : read_result) : Decidable (read_conforming count r) := by
  unfold read_conforming; infer_instance

/-- The outcome of a call of `read` is one that the loop of `buffer_add_fd` can take: it keeps to
the count requested, and where that count is more than `SSIZE_MAX` it delivers no more bytes
than `remain`. -/
def fd_admissible (call : fd_call) : Prop :=
  read_within call.count call.result ∧
    (SSIZE_MAX < call.count → call.result.ret ≤ call.remain)

instance (call : fd_call) : Decidable (fd_admissible call) := by
  unfold fd_admissible; infer_instance

/-- The tail segment of the buffer, if any, has at most `INT_MAX` bytes outside its content. -/
def buffer_tail_slack (b : buffer) : Prop := ∀ c, buffer_tail b = some c → chain_slack_small c

instance (b : buffer) : Decidable (buffer_tail_slack b) := by
  unfold buffer_tail_slack buffer_tail
  cases b.head.getLast? with
  | none => exact isTrue (fun c h => by cases h)
  | some c0 =>
    exact decidable_of_iff (chain_slack_small c0)
      ⟨fun h c hc => by cases hc; exact h, fun h => h c0 rfl⟩

/-- A call of `read` that ends the loop of `buffer_add_fd` whatever count it is asked for: it
returns `0`, or fails with a value of `errno` other than `EINTR`. -/
def read_final (rd : Int → read_result) : Prop :=
  ∀ count, (rd count).ret = 0 ∨ ((rd count).ret = -1 ∧ (rd count).errno ≠ errno_t.EINTR)

/-- A call of `read` that fails with `EINTR`. -/
def read_eintr : Int → read_result := fun _ => ⟨-1, errno_t.EINTR, []⟩

/-- The script `reads` with failures `EINTR` inserted: `ns` gives the number of failures put
before the first entry, before the second entry, and so on; when `ns` is longer than `reads`
the next number of failures is put at the end. -/
def with_eintr : List Nat → List (Int → read_result) → List (Int → read_result)
  | [], reads => reads
  | n :: _, [] => List.replicate n read_eintr
  | n :: ns, rd :: reads => List.replicate n read_eintr ++ rd :: with_eintr ns reads

/-- The script of a descriptor that answers the calls of `read` with the outcomes `rs` in order,
whatever the count, and then with the outcome `e`. -/
def fd_script (rs : List read_result) (e : read_result) : List (Int → read_result) :=
  rs.map (fun r _ => r) ++ [fun _ => e]

/-- The bytes of the outcomes `rs`, in order. -/
def fd_bytes : List read_result → List UInt8
  | [] => []
  | r :: rs => r.bytes ++ fd_bytes rs

/-- Each of the outcomes `rs` has no more bytes than the call of `read` that it answers asked
for. -/
def fd_fits : List read_result → List fd_call → Prop
  | [], _ => True
  | _ :: _, [] => True
  | r :: rs, call :: calls => r.ret ≤ call.count ∧ fd_fits rs calls

/-- The condition `fd_fits` can be checked. -/
def fd_fits_decidable : (rs : List read_result) → (calls : List fd_call) →
    Decidable (fd_fits rs calls)
  | [], _ => isTrue trivial
  | _ :: _, [] => isTrue trivial
  | r :: rs, call :: calls =>
    @instDecidableAnd (r.ret ≤ call.count) (fd_fits rs calls) inferInstance
      (fd_fits_decidable rs calls)

instance (rs : List read_result) (calls : List fd_call) : Decidable (fd_fits rs calls) :=
  fd_fits_decidable rs calls

/-- The buffer `b1` after a round of `buffer_add_fd` that started from the buffer `b` and made
the call `call`: the invariants hold, and the bytes delivered are appended. -/
def fd_round_after (b : buffer) (call : fd_call) (b1 : buffer) : Prop :=
  buffer_inv b1 ∧ buffer_region b1 ∧
    buffer_stream b1 = buffer_stream b ++ fd_delivered [call] ∧
    (buffer_tail_slack b ∨ 0 < call.result.ret → buffer_tail_slack b1) ∧
    b1.data_len = b.data_len

/-- The conditions under which the loop of `buffer_add_fd` is followed round by round: the
buffer satisfies the invariants, `0 ≤ remain ≤ len ≤ INT_MAX`, the outcome of every call of
`read` keeps to the count requested, and the tail segment has at most `INT_MAX` bytes outside
its content or the calls asked for more than `SSIZE_MAX` bytes deliver no more than `remain`
bytes. -/
def fd_run_ok (reads : List (Int → read_result)) (malloc_ok : Nat → Bool) (k : Nat)
    (b : buffer) (len remain : Int) : Prop :=
  buffer_inv b ∧ buffer_region b ∧ 0 ≤ remain ∧ remain ≤ len ∧ len ≤ INT_MAX ∧
    (∀ call ∈ (buffer_add_fd_run reads malloc_ok k b len remain).1,
      read_within call.count call.result) ∧
    (buffer_tail_slack b ∨
      ∀ call ∈ (buffer_add_fd_run reads malloc_ok k b len remain).1,
        SSIZE_MAX < call.count → call.result.ret ≤ remain)

/-- The facts about a call of `read` made in a round that starts from the buffer `b` with the
value `remain`. -/
def fd_call_ok (b : buffer) (remain : Int) (call : fd_call) : Prop :=
  call.remain = remain ∧ 0 < call.free ∧ call.free ≤ 2147483648 ∧
    (buffer_tail_slack b → call.free ≤ INT_MAX) ∧
    call.count = (if call.free ≤ INT_MAX then min remain call.free else 18446744071562067968) ∧
    fd_admissible call ∧ byte_len (fd_delivered [call]) ≤ remain

/-- A round of the loop of `buffer_add_fd` that starts from the buffer `b` needs a new segment:
the buffer has no tail segment, or its tail segment has no free space after the compaction step
(the test `chain->tail < chain->end` fails). -/
def buffer_needs_segment (b : buffer) (len : Int) : Prop :=
  ∀ c, buffer_tail b = some c → ¬ (chain_aligned c len).tail < (chain_aligned c len).end_

instance (b : buffer) (len : Int) : Decidable (buffer_needs_segment b len) := by
  unfold buffer_needs_segment buffer_tail
  cases b.head.getLast? with
  | none => exact isTrue (fun c h => by cases h)
  | some c0 =>
    exact decidable_of_iff (¬ (chain_aligned c0 len).tail < (chain_aligned c0 len).end_)
      ⟨fun h c hc => by cases hc; exact h, fun h => h c0 rfl⟩

/-- The start of a round of the loop of `buffer_add_fd`: the number of calls of `malloc` that
the rounds before have made, the buffer, and the value of `remain`. -/
structure fd_start where
  /-- The number of calls of `malloc` made before the round. -/
  mallocs : Nat
  /-- The buffer at the start of the round. -/
  buf : buffer
  /-- The value of `remain` at the start of the round. -/
  remain : Int

/-- The starts of the rounds that the loop of `buffer_add_fd` makes, in order: the loop goes
into a further round where the round before ends at `continue` or at the end of the loop body
with `remain` not `0`. -/
def buffer_add_fd_starts_from :
    List (Int → read_result) → (Nat → Bool) → Nat → buffer → Int → Int → List fd_start
  | [], _, _, _, _, _ => []
  | rd :: reads, malloc_ok, k, b, len, remain =>
    { mallocs := k, buf := b, remain := remain } ::
      match buffer_add_fd_round rd (malloc_ok k) b len remain with
      | some (_, fd_next.again used b1 remain1) =>
        buffer_add_fd_starts_from reads malloc_ok (if used then k + 1 else k) b1 len remain1
      | _ => []

/-- The starts of the rounds of a call of `buffer_add_fd`. -/
def buffer_add_fd_starts (b : buffer) (len : Int) (malloc_ok : Nat → Bool)
    (reads : List (Int → read_result)) : List fd_start :=
  let len1 := if len < 0 then INT_MAX else len
  buffer_add_fd_starts_from reads malloc_ok 0 b len1 len1

/-- A needed allocation fails in a call of `buffer_add_fd`: one of its rounds starts from a
buffer that needs a new segment, and the call of `malloc` made in that round fails. -/
def fd_alloc_fails (b : buffer) (len : Int) (malloc_ok : Nat → Bool)
    (reads : List (Int → read_result)) : Prop :=
  ∃ st ∈ buffer_add_fd_starts b len malloc_ok reads,
    buffer_needs_segment st.buf (if len < 0 then INT_MAX else len) ∧
      malloc_ok st.mallocs = false

instance (b : buffer) (len : Int) (malloc_ok : Nat → Bool)
    (reads : List (Int → read_result)) : Decidable (fd_alloc_fails b len malloc_ok reads) := by
  unfold fd_alloc_fails; infer_instance

/-- A read fails in a call of `buffer_add_fd` with a value of `errno` other than `EINTR`,
`EAGAIN` and `ENOTCONN`. -/
def fd_read_fails (b : buffer) (len : Int) (malloc_ok : Nat → Bool)
    (reads : List (Int → read_result)) : Prop :=
  ∃ call ∈ buffer_add_fd_calls b len malloc_ok reads,
    call.result.ret = -1 ∧ call.result.errno = errno_t.other

instance (b : buffer) (len : Int) (malloc_ok : Nat → Bool)
    (reads : List (Int → read_result)) : Decidable (fd_read_fails b len malloc_ok reads) := by
  unfold fd_read_fails; infer_instance

/-- A buffer of one segment of 512 bytes that holds 509 bytes and has three bytes free. -/
def buffer_three_free : buffer :=
  { head := [{ data := 0, tail := 509, end_ := 512, head := zero_bytes 512 }], data_len := 0 }

/-- The script of a descriptor that delivers the three bytes `1, 2, 3` and then the byte `4`. -/
def reads_three_one : List (Int → read_result) :=
  [fun _ => ⟨3, errno_t.other, [1, 2, 3]⟩, fun _ => ⟨1, errno_t.other, [4]⟩]

/-- A buffer of two segments: a full segment of 512 bytes and behind it an empty segment of 4096
bytes, as `buffer_add` of 512 bytes and then `buffer_add_fd` on a descriptor that fails with
`EAGAIN` leave them. -/
def buffer_full_empty : buffer :=
  { head := [{ data := 0, tail := 512, end_ := 512, head := List.replicate 512 7 },
      { data := 0, tail := 0, end_ := 4096, head := zero_bytes 4096 }],
    data_len := 0 }

/-- A buffer of one empty segment of 4096 bytes, as `buffer_add_fd` on a descriptor that fails
with `EAGAIN` leaves it on a buffer without segments. -/
def buffer_one_empty : buffer :=
  { head := [{ data := 0, tail := 0, end_ := 4096, head := zero_bytes 4096 }], data_len := 0 }

/-! ## Machine integers and memory: basic facts -/

theorem int_of_eq (x : Int) (h1 : -2147483648 ≤ x) (h2 : x ≤ 2147483647) : int_of x = x := by
  unfold int_of; omega

theorem size_t_of_eq (x : Int) (h1 : 0 ≤ x) (h2 : x < 18446744073709551616) :
    size_t_of x = x := by
  unfold size_t_of; omega

theorem byte_len_eq (s : List UInt8) : byte_len s = s.length := by
  induction s with
  | nil => rfl
  | cons a s ih => simp only [byte_len, ih, List.length_cons, Nat.cast_add, Nat.cast_one]

theorem byte_len_nonneg (s : List UInt8) : 0 ≤ byte_len s := by
  rw [byte_len_eq]; omega

theorem mem_write_length (m : List UInt8) (off : Int) (src : List UInt8)
    (h : off.toNat + src.length ≤ m.length) : (mem_write m off src).length = m.length := by
  simp [mem_write]; omega

theorem mem_read_length (m : List UInt8) (off n : Int)
    (h : off.toNat + n.toNat ≤ m.length) : (mem_read m off n).length = n.toNat := by
  simp [mem_read]; omega

theorem mem_read_add (m : List UInt8) (off n k : Int) (h0 : 0 ≤ off) (hn : 0 ≤ n)
    (hk : 0 ≤ k) : mem_read m off (n + k) = mem_read m off n ++ mem_read m (off + n) k := by
  unfold mem_read
  have e1 : (off + n).toNat = off.toNat + n.toNat := by omega
  have e2 : (n + k).toNat = n.toNat + k.toNat := by omega
  rw [e1, e2, ← List.drop_drop, List.take_add]

theorem mem_read_write_same (m : List UInt8) (off : Int) (src : List UInt8)
    (h : off.toNat ≤ m.length) : mem_read (mem_write m off src) off src.length = src := by
  unfold mem_read mem_write
  rw [List.append_assoc, List.drop_append_of_le_length (by simp; omega)]
  simp [List.drop_take, h]

theorem mem_read_write_before (m : List UInt8) (off a n : Int) (src : List UInt8)
    (h : off.toNat ≤ m.length) (ha : a.toNat + n.toNat ≤ off.toNat) :
    mem_read (mem_write m off src) a n = mem_read m a n := by
  unfold mem_read mem_write
  rw [List.append_assoc, List.drop_append_of_le_length (by simp; omega),
    List.take_append_of_le_length (by simp; omega)]
  rw [List.drop_take, List.take_take]
  congr 1
  omega

theorem mem_write_nil (m : List UInt8) (off : Int) : mem_write m off [] = m := by
  simp [mem_write]

theorem mem_read_take (m : List UInt8) (off k n : Int) (h : k ≤ n) :
    mem_read m off k = (mem_read m off n).take k.toNat := by
  unfold mem_read
  rw [List.take_take, min_eq_left (by omega)]

/-- Storing `bs` at `tail` and advancing `tail` past it appends `bs` to the content. -/
theorem chain_content_store (c : buffer_chain) (bs : List UInt8) (hi : chain_inv c)
    (hr : chain_region c) :
    chain_content { c with head := mem_write c.head c.tail bs, tail := c.tail + bs.length }
      = chain_content c ++ bs := by
  obtain ⟨h0, h1, h2⟩ := hi
  obtain ⟨hl, _⟩ := hr
  unfold chain_content
  simp only
  have e : c.tail + (bs.length : Int) - c.data = (c.tail - c.data) + (bs.length : Int) := by
    omega
  rw [e, mem_read_add _ _ _ _ h0 (by omega) (by omega)]
  have e2 : c.data + (c.tail - c.data) = c.tail := by omega
  rw [e2, mem_read_write_same _ _ _ (by omega),
    mem_read_write_before _ _ _ _ _ (by omega) (by omega)]

/-- A store into the free region leaves the content as it is. -/
theorem chain_content_store_free (c : buffer_chain) (bs : List UInt8) (hi : chain_inv c)
    (hr : chain_region c) :
    chain_content { c with head := mem_write c.head c.tail bs } = chain_content c := by
  obtain ⟨h0, h1, h2⟩ := hi
  obtain ⟨hl, _⟩ := hr
  unfold chain_content
  simp only
  rw [mem_read_write_before _ _ _ _ _ (by omega) (by omega)]

theorem chain_content_length (c : buffer_chain) (hi : chain_inv c) (hr : chain_region c) :
    ((chain_content c).length : Int) = c.tail - c.data := by
  obtain ⟨h0, h1, h2⟩ := hi
  obtain ⟨hl, _⟩ := hr
  unfold chain_content
  rw [mem_read_length _ _ _ (by omega)]
  omega

theorem chain_content_advance (c : buffer_chain) (n : Int) (h0 : 0 ≤ c.data) (hn : 0 ≤ n) :
    chain_content { c with data := c.data + n } = (chain_content c).drop n.toNat := by
  unfold chain_content mem_read
  simp only
  rw [List.drop_take, List.drop_drop]
  have e1 : (c.data + n).toNat = c.data.toNat + n.toNat := by omega
  have e2 : (c.tail - (c.data + n)).toNat = (c.tail - c.data).toNat - n.toNat := by omega
  rw [e1, e2]

/-! ## Compaction -/

theorem buffer_chain_align_spec (c : buffer_chain) (hi : chain_inv c) (hr : chain_region c)
    (hd : c.data ≠ 0) :
    (buffer_chain_align c).data = 0 ∧ (buffer_chain_align c).tail = c.tail - c.data ∧
    (buffer_chain_align c).end_ = c.end_ ∧ chain_region (buffer_chain_align c) ∧
    chain_content (buffer_chain_align c) = chain_content c := by
  obtain ⟨h0, h1, h2⟩ := hi
  obtain ⟨hl, hcap⟩ := hr
  have hdat : int_of (c.tail - c.data) = c.tail - c.data := int_of_eq _ (by omega) (by omega)
  have hsz : size_t_of (c.tail - c.data) = c.tail - c.data :=
    size_t_of_eq _ (by omega) (by omega)
  have hlen : (mem_read c.head c.data (c.tail - c.data)).length = (c.tail - c.data).toNat :=
    mem_read_length _ _ _ (by omega)
  unfold buffer_chain_align
  simp only [hdat, hsz, zero_add, true_and]
  refine ⟨?_, ?_⟩
  · refine ⟨?_, hcap⟩
    simp only
    rw [mem_write_length _ _ _ (by rw [hlen]; simp; omega)]
    exact hl
  · unfold chain_content
    simp only [sub_zero]
    have := mem_read_write_same c.head 0 (mem_read c.head c.data (c.tail - c.data))
      (by simp)
    rw [hlen] at this
    have e : (((c.tail - c.data).toNat : Nat) : Int) = c.tail - c.data := by omega
    rw [e] at this
    exact this

theorem chain_aligned_spec (c : buffer_chain) (len : Int) (hi : chain_inv c)
    (hr : chain_region c) :
    chain_inv (chain_aligned c len) ∧ chain_region (chain_aligned c len) ∧
    (chain_aligned c len).end_ = c.end_ ∧
    (chain_aligned c len).tail - (chain_aligned c len).data = c.tail - c.data ∧
    ((chain_aligned c len).data = 0 ∨ chain_aligned c len = c) ∧
    (chain_aligned c len).tail ≤ c.tail ∧
    chain_content (chain_aligned c len) = chain_content c := by
  unfold chain_aligned
  by_cases hs : buffer_chain_should_align c len = true
  · have hd : c.data ≠ 0 := by
      intro h0
      simp [buffer_chain_should_align, h0] at hs
    obtain ⟨a1, a2, a3, a4, a5⟩ := buffer_chain_align_spec c hi hr hd
    obtain ⟨h0, h1, h2⟩ := hi
    simp only [hs, if_true]
    refine ⟨?_, a4, a3, ?_, Or.inl a1, ?_, a5⟩
    · unfold chain_inv; omega
    · omega
    · omega
  · simp only [hs]
    simp [hi, hr]

theorem mem_copy_eq (m : List UInt8) (off n : Int) (h0 : 0 ≤ off) (hn : 0 ≤ n)
    (h : off + n ≤ m.length) : mem_copy m off n = some (mem_read m off n) := by
  unfold mem_copy
  rw [if_pos ⟨h0, hn, h⟩]

/-! ## Allocation -/

theorem buffer_chain_new_loop_spec (len : Nat) (hl : len ≤ 2147483648) :
    ∀ (fuel k : Nat), 9 ≤ k → k ≤ 31 → 32 ≤ fuel + k → (k = 9 ∨ 2 ^ (k - 1) < len) →
      ∃ j, k ≤ j ∧ j ≤ 31 ∧ buffer_chain_new_loop fuel (2 ^ k) len = some (2 ^ j) ∧
        len ≤ 2 ^ j ∧ (j = 9 ∨ 2 ^ (j - 1) < len) := by
  intro fuel
  induction fuel with
  | zero => intro k _ h2 h3; omega
  | succ fuel ih =>
    intro k h1 h2 h3 h4
    unfold buffer_chain_new_loop
    by_cases hlt : 2 ^ k < len
    · have hk : k < 31 := by
        by_contra hc
        have : k = 31 := by omega
        subst this
        norm_num at hlt
        omega
      have hstep : (2 ^ k <<< 1) % 18446744073709551616 = 2 ^ (k + 1) := by
        rw [Nat.shiftLeft_eq, pow_one, ← pow_succ]
        apply Nat.mod_eq_of_lt
        calc 2 ^ (k + 1) < 2 ^ 64 := Nat.pow_lt_pow_right (by norm_num) (by omega)
          _ = 18446744073709551616 := by norm_num
      obtain ⟨j, a1, a2, a3, a4, a5⟩ := ih (k + 1) (by omega) (by omega) (by omega)
        (Or.inr (by simpa using hlt))
      refine ⟨j, by omega, a2, ?_, a4, a5⟩
      simp only [hlt, if_true, hstep]
      exact a3
    · refine ⟨k, le_refl k, h2, ?_, by omega, h4⟩
      simp only [hlt, if_false]

theorem chain_cap_spec (len : Nat) (hl : len ≤ 2147483648) :
    ∃ j, 9 ≤ j ∧ j ≤ 31 ∧ chain_cap len = 2 ^ j ∧ len ≤ 2 ^ j ∧ (j = 9 ∨ 2 ^ (j - 1) < len) ∧
      ∀ fuel, 64 ≤ fuel → buffer_chain_new_loop fuel 512 len = some (chain_cap len) := by
  obtain ⟨j, a1, a2, a3, a4, a5⟩ :=
    buffer_chain_new_loop_spec len hl 64 9 (le_refl 9) (by omega) (by omega) (Or.inl rfl)
  have e512 : (2 : Nat) ^ 9 = 512 := by norm_num
  rw [e512] at a3
  have hc : chain_cap len = 2 ^ j := by simp [chain_cap, a3]
  refine ⟨j, a1, a2, hc, a4, a5, ?_⟩
  intro fuel hf
  obtain ⟨j', b1, b2, b3, b4, b5⟩ :=
    buffer_chain_new_loop_spec len hl fuel 9 (le_refl 9) (by omega) (by omega) (Or.inl rfl)
  rw [e512] at b3
  rw [b3, hc]
  have : j' = j := by
    rcases a5 with a5 | a5 <;> rcases b5 with b5 | b5
    · omega
    · subst a5
      by_contra hne
      have : 2 ^ 9 ≤ 2 ^ (j' - 1) := Nat.pow_le_pow_right (by norm_num) (by omega)
      omega
    · subst b5
      by_contra hne
      have : 2 ^ 9 ≤ 2 ^ (j - 1) := Nat.pow_le_pow_right (by norm_num) (by omega)
      omega
    · by_contra hne
      rcases Nat.lt_or_gt_of_ne hne with h | h
      · have : 2 ^ j' ≤ 2 ^ (j - 1) := Nat.pow_le_pow_right (by norm_num) (by omega)
        omega
      · have : 2 ^ j ≤ 2 ^ (j' - 1) := Nat.pow_le_pow_right (by norm_num) (by omega)
        omega
  rw [this]

theorem chain_cap_bounds (len : Nat) (hl : len ≤ 2147483648) :
    512 ≤ chain_cap len ∧ chain_cap len ≤ 2147483648 ∧ len ≤ chain_cap len ∧
      (len ≤ 512 → chain_cap len = 512) := by
  obtain ⟨j, a1, a2, a3, a4, a5, _⟩ := chain_cap_spec len hl
  have h9 : 2 ^ 9 ≤ 2 ^ j := Nat.pow_le_pow_right (by norm_num) a1
  have h31 : 2 ^ j ≤ 2 ^ 31 := Nat.pow_le_pow_right (by norm_num) a2
  norm_num at h9 h31
  refine ⟨by omega, by omega, by omega, ?_⟩
  intro h
  rcases a5 with a5 | a5
  · rw [a3, a5]; norm_num
  · by_contra _
    have h10 : j ≠ 9 := by
      intro hj
      subst hj
      norm_num at a3
      omega
    have : 2 ^ 9 ≤ 2 ^ (j - 1) := Nat.pow_le_pow_right (by norm_num) (by omega)
    norm_num at this
    omega

theorem buffer_chain_new_eq (len : Int) (hl : len ≤ 2147483648) (malloc_ok : Bool) :
    buffer_chain_new len malloc_ok = some (if malloc_ok then some (chain_fresh len) else none) := by
  obtain ⟨j, _, _, _, _, _, a6⟩ := chain_cap_spec len.toNat (by omega)
  unfold buffer_chain_new
  rw [a6 64 (le_refl 64)]
  cases malloc_ok <;> simp [chain_fresh]

theorem buffer_expand_eq (b : buffer) (len : Int) (h0 : 0 ≤ len) (hl : len ≤ 2147483648)
    (malloc_ok : Bool) :
    buffer_expand b len malloc_ok =
      some (if malloc_ok then
        some (buffer_add_chain b (chain_fresh len), chain_fresh len) else none) := by
  unfold buffer_expand
  rw [size_t_of_eq len h0 (by omega), buffer_chain_new_eq _ (by omega)]
  cases malloc_ok <;> simp

/-! ## Chains of segments -/

theorem stream_of_append (l1 l2 : List buffer_chain) :
    stream_of (l1 ++ l2) = stream_of l1 ++ stream_of l2 := by
  induction l1 with
  | nil => simp [stream_of]
  | cons c cs ih => simp [stream_of, ih]

theorem content_len_append (l1 l2 : List buffer_chain) :
    content_len (l1 ++ l2) = content_len l1 + content_len l2 := by
  induction l1 with
  | nil => simp [content_len]
  | cons c cs ih => simp [content_len, ih]; omega

theorem stream_of_length (l : List buffer_chain) (hi : ∀ c ∈ l, chain_inv c)
    (hr : ∀ c ∈ l, chain_region c) : ((stream_of l).length : Int) = content_len l := by
  induction l with
  | nil => simp [stream_of, content_len]
  | cons c cs ih =>
    have h1 := chain_content_length c (hi c (by simp)) (hr c (by simp))
    have h2 := ih (fun x hx => hi x (by simp [hx])) (fun x hx => hr x (by simp [hx]))
    simp only [stream_of, content_len, List.length_append, Nat.cast_add]
    omega

theorem content_len_nonneg (l : List buffer_chain) (hi : ∀ c ∈ l, chain_inv c) :
    0 ≤ content_len l := by
  induction l with
  | nil => simp [content_len]
  | cons c cs ih =>
    have h1 := hi c (by simp)
    have h2 := ih (fun x hx => hi x (by simp [hx]))
    unfold chain_inv at h1
    simp only [content_len]
    omega

theorem buffer_tail_cases (b : buffer) :
    (b.head = [] ∧ buffer_tail b = none) ∨
      ∃ pre c0, b.head = pre ++ [c0] ∧ buffer_tail b = some c0 := by
  unfold buffer_tail
  rcases List.eq_nil_or_concat b.head with h | ⟨pre, c0, h⟩
  · left; simp [h]
  · right; exact ⟨pre, c0, by simpa using h, by simp [h]⟩

theorem buffer_set_tail_concat (pre : List buffer_chain) (c0 c : buffer_chain) (d : Nat) :
    buffer_set_tail ⟨pre ++ [c0], d⟩ c = ⟨pre ++ [c], d⟩ := by
  simp [buffer_set_tail]

theorem chain_store_spec (c : buffer_chain) (bs : List UInt8) (hi : chain_inv c)
    (hr : chain_region c) (hfit : c.tail + bs.length ≤ c.end_) :
    chain_inv (chain_store c bs) ∧ chain_region (chain_store c bs) ∧
      chain_content (chain_store c bs) = chain_content c ++ bs := by
  refine ⟨?_, ?_, chain_content_store c bs hi hr⟩
  · obtain ⟨h0, h1, h2⟩ := hi
    unfold chain_store chain_inv
    simp only
    omega
  · obtain ⟨h0, h1, h2⟩ := hi
    obtain ⟨hl, hc⟩ := hr
    unfold chain_store chain_region
    simp only
    rw [mem_write_length _ _ _ (by omega)]
    exact ⟨hl, hc⟩

theorem chain_store_nil (c : buffer_chain) : chain_store c [] = c := by
  simp [chain_store, mem_write_nil]

theorem chain_fresh_spec (len : Int) (hl : len ≤ 2147483648) :
    chain_inv (chain_fresh len) ∧ chain_region (chain_fresh len) ∧
      chain_content (chain_fresh len) = [] := by
  obtain ⟨h1, h2, h3, _⟩ := chain_cap_bounds len.toNat (by omega)
  refine ⟨?_, ?_, ?_⟩
  · simp [chain_inv, chain_fresh]
  · simp [chain_region, chain_fresh]; omega
  · simp [chain_content, chain_fresh, mem_read]

/-! ## Append: the result in closed form -/

theorem buffer_add_expand_eq (b : buffer) (source : List UInt8) (len : Int) (h0 : 0 ≤ len)
    (hl : len ≤ INT_MAX) (hs : len ≤ source.length) (malloc_ok : Bool) :
    buffer_add_expand b source len malloc_ok =
      some (if malloc_ok then
          (0, ⟨b.head ++ [chain_store (chain_fresh len) (source.take len.toNat)], b.data_len⟩)
        else (len, b)) := by
  unfold INT_MAX at hl
  unfold buffer_add_expand
  rw [int_of_eq _ (by omega) (by omega), buffer_expand_eq _ _ (by omega) (by omega)]
  have e : ((min len.toNat source.length : Nat) : Int) = len := by omega
  cases malloc_ok
  · simp
  · simp [buffer_add_chain, buffer_set_tail, buffer_add_copy, chain_store, e]

theorem buffer_add_nil_eq (d : Nat) (source : List UInt8) (len : Int) (h0 : 0 ≤ len)
    (hl : len ≤ INT_MAX) (hs : len ≤ source.length) (malloc_ok : Bool) :
    buffer_add ⟨[], d⟩ source len malloc_ok =
      some (if malloc_ok then
          (0, ⟨[chain_store (chain_fresh len) (source.take len.toNat)], d⟩)
        else (len, ⟨[], d⟩)) := by
  unfold buffer_add
  simp only [buffer_tail, List.getLast?_nil]
  rw [buffer_add_expand_eq _ _ _ h0 hl hs]
  simp

theorem buffer_add_concat_eq (pre : List buffer_chain) (c0 : buffer_chain) (d : Nat)
    (source : List UInt8) (len : Int) (hi : chain_inv c0) (hr : chain_region c0)
    (h0 : 0 ≤ len) (hl : len ≤ INT_MAX) (hs : len ≤ source.length) (malloc_ok : Bool) :
    buffer_add ⟨pre ++ [c0], d⟩ source len malloc_ok =
      some (
        let c := chain_aligned c0 len
        let free := c.end_ - c.tail
        if len ≤ free then (0, ⟨pre ++ [chain_store c (source.take len.toNat)], d⟩)
        else if malloc_ok then
          (0, ⟨pre ++ [chain_store c (source.take free.toNat),
            chain_store (chain_fresh (len - free))
              ((source.drop free.toNat).take (len - free).toNat)], d⟩)
        else (len - free, ⟨pre ++ [chain_store c (source.take free.toNat)], d⟩)) := by
  obtain ⟨ai, ar, ae, _, _, _, _⟩ := chain_aligned_spec c0 len hi hr
  have hl1 := hl
  unfold INT_MAX at hl1
  have hlen : int_of len = len := int_of_eq _ (by omega) (by omega)
  unfold buffer_add
  simp only [buffer_tail, List.getLast?_concat, hlen]
  rw [show (if buffer_chain_should_align c0 len then buffer_chain_align c0 else c0)
    = chain_aligned c0 len from rfl]
  generalize chain_aligned c0 len = c at ai ar ae ⊢
  obtain ⟨c0', c1', c2'⟩ := ai
  obtain ⟨hlen2, hcap⟩ := ar
  simp only [buffer_set_tail_concat]
  by_cases hfit : len ≤ c.end_ - c.tail
  · have h1 : len ≤ size_t_of (int_of (c.end_ - c.tail)) := by
      unfold size_t_of int_of; omega
    have e : ((min len.toNat source.length : Nat) : Int) = len := by omega
    simp [h1, hfit, buffer_add_copy, chain_store, e]
  · have e1 : int_of (c.end_ - c.tail) = c.end_ - c.tail := int_of_eq _ (by omega) (by omega)
    have e2 : size_t_of (c.end_ - c.tail) = c.end_ - c.tail :=
      size_t_of_eq _ (by omega) (by omega)
    have e3 : size_t_of (len - (c.end_ - c.tail)) = len - (c.end_ - c.tail) :=
      size_t_of_eq _ (by omega) (by omega)
    simp only [e1, e2, hfit, if_false, e3]
    by_cases hpos : 0 < c.end_ - c.tail
    · simp only [hpos, if_true]
      rw [buffer_add_expand_eq _ _ _ (by omega) (by unfold INT_MAX; omega) (by simp; omega)]
      have e5 : ((min (c.end_ - c.tail).toNat source.length : Nat) : Int) = c.end_ - c.tail := by
        omega
      cases malloc_ok <;> simp [chain_store, e5]
    · have hz : c.end_ - c.tail = 0 := by omega
      simp only [hpos, if_false, hz]
      rw [buffer_add_expand_eq _ _ _ h0 hl hs]
      cases malloc_ok <;> simp [chain_store_nil]

/-! ## Drain: the result in closed form -/

theorem buffer_drain_loop_eq (l : List buffer_chain) :
    ∀ (d : Nat) (n : Int), (∀ c ∈ l, chain_inv c) → (∀ c ∈ l, chain_small c) →
      0 ≤ n → n < 18446744073709551616 →
      buffer_drain_loop l ⟨l, d⟩ n = ⟨chain_drain l n, d⟩ := by
  induction l with
  | nil => intro d n _ _ _ _; simp [buffer_drain_loop, chain_drain]
  | cons c cs ih =>
    intro d n hi hs hn0 hn
    obtain ⟨h0, h1, h2⟩ := hi c (by simp)
    have hsm := hs c (by simp)
    unfold chain_small INT_MAX at hsm
    have e1 : int_of (c.tail - c.data) = c.tail - c.data := int_of_eq _ (by omega) (by omega)
    have e2 : size_t_of (c.tail - c.data) = c.tail - c.data :=
      size_t_of_eq _ (by omega) (by omega)
    unfold buffer_drain_loop chain_drain
    simp only [e1, e2]
    by_cases hlt : n < c.tail - c.data
    · simp [hlt, buffer_set_head]
    · have e3 : size_t_of (n - (c.tail - c.data)) = n - (c.tail - c.data) :=
        size_t_of_eq _ (by omega) (by omega)
      simp only [hlt, if_false, e3, buffer_del_chain, List.drop_one, List.tail_cons]
      by_cases hz : n - (c.tail - c.data) = 0
      · simp [hz]
      · simp only [hz, ne_eq, not_false_eq_true, if_true]
        exact ih d _ (fun x hx => hi x (by simp [hx])) (fun x hx => hs x (by simp [hx]))
          (by omega) (by omega)

theorem buffer_drain_eq (b : buffer) (n : Int) (hi : buffer_inv b) (hs : buffer_small b)
    (hn0 : 0 ≤ n) (hn : n < 18446744073709551616) :
    buffer_drain b n = if n = 0 then b else ⟨chain_drain b.head n, b.data_len⟩ := by
  unfold buffer_drain
  by_cases h : n = 0
  · simp [h]
  · simp only [h, if_false]
    exact buffer_drain_loop_eq b.head b.data_len n hi hs hn0 hn

/-! ## The shape of a chain -/

theorem seg_mid_last (c : buffer_chain) (hi : chain_inv c) (h : seg_mid c) : seg_last c := by
  obtain ⟨h0, h1, h2⟩ := hi
  obtain ⟨m1, m2⟩ := h
  refine ⟨by omega, ?_⟩
  intro e; omega

theorem chain_shape_cons (c : buffer_chain) (cs : List buffer_chain)
    (h : chain_shape (c :: cs)) :
    chain_shape cs ∧ (cs ≠ [] → seg_mid c) ∧ (cs = [] → seg_last c) := by
  cases cs with
  | nil => simp [chain_shape] at h ⊢; exact h
  | cons c1 cs => simp [chain_shape] at h ⊢; exact ⟨h.2, h.1⟩

theorem chain_shape_cons_mid (c : buffer_chain) (cs : List buffer_chain) (hne : cs ≠ [])
    (hm : seg_mid c) (h : chain_shape cs) : chain_shape (c :: cs) := by
  cases cs with
  | nil => exact absurd rfl hne
  | cons c1 cs => exact ⟨hm, h⟩

theorem chain_shape_concat (pre : List buffer_chain) (c : buffer_chain) :
    chain_shape (pre ++ [c]) ↔ (∀ p ∈ pre, seg_mid p) ∧ seg_last c := by
  induction pre with
  | nil => simp [chain_shape]
  | cons p ps ih =>
    have hne : ps ++ [c] ≠ [] := by simp
    constructor
    · intro h
      obtain ⟨a1, a2, _⟩ := chain_shape_cons p (ps ++ [c]) h
      obtain ⟨b1, b2⟩ := ih.mp a1
      refine ⟨?_, b2⟩
      intro q hq
      rcases List.mem_cons.mp hq with e | e
      · rw [e]; exact a2 hne
      · exact b1 q e
    · intro ⟨h1, h2⟩
      exact chain_shape_cons_mid p (ps ++ [c]) hne (h1 p (by simp))
        (ih.mpr ⟨fun q hq => h1 q (by simp [hq]), h2⟩)

/-- The stream of a chain in shape is empty as soon as its first segment is empty. -/
theorem stream_of_nil_of_head_empty (c : buffer_chain) (cs : List buffer_chain)
    (h : chain_shape (c :: cs)) (he : c.data = c.tail) : cs = [] := by
  by_contra hne
  obtain ⟨_, a2, _⟩ := chain_shape_cons c cs h
  obtain ⟨_, m2⟩ := a2 hne
  omega

/-! ## Drain: properties -/

theorem chain_drain_spec (l : List buffer_chain) :
    ∀ n : Int, 0 < n → (∀ c ∈ l, chain_inv c) → (∀ c ∈ l, chain_region c) →
      stream_of (chain_drain l n) = (stream_of l).drop n.toNat ∧
      (∀ c ∈ chain_drain l n, chain_inv c) ∧
      (∀ c ∈ chain_drain l n, chain_region c) ∧
      ((∀ c ∈ l, chain_small c) → ∀ c ∈ chain_drain l n, chain_small c) ∧
      (chain_shape l → chain_shape (chain_drain l n)) ∧
      (content_len l < n → chain_drain l n = []) ∧
      (chain_drain l n).length ≤ l.length := by
  induction l with
  | nil => intro n _ _ _; simp [chain_drain, stream_of, chain_shape]
  | cons c cs ih =>
    intro n hn hi hr
    have hic := hi c (by simp)
    have hrc := hr c (by simp)
    have hlen := chain_content_length c hic hrc
    obtain ⟨h0, h1, h2⟩ := hic
    have hi' : ∀ x ∈ cs, chain_inv x := fun x hx => hi x (by simp [hx])
    have hr' : ∀ x ∈ cs, chain_region x := fun x hx => hr x (by simp [hx])
    have hnn := content_len_nonneg cs hi'
    unfold chain_drain
    by_cases hlt : n < c.tail - c.data
    · simp only [hlt, if_true]
      refine ⟨?_, ?_, ?_, ?_, ?_, ?_, by simp⟩
      · simp only [stream_of]
        rw [chain_content_advance c n h0 (by omega),
          List.drop_append_of_le_length (by omega)]
      · intro x hx
        rcases List.mem_cons.mp hx with e | e
        · rw [e]; unfold chain_inv; simp only; omega
        · exact hi' x e
      · intro x hx
        rcases List.mem_cons.mp hx with e | e
        · rw [e]; exact hrc
        · exact hr' x e
      · intro hs x hx
        rcases List.mem_cons.mp hx with e | e
        · have := hs c (by simp)
          rw [e]; unfold chain_small at this ⊢; simp only; omega
        · exact hs x (by simp [e])
      · intro hsh
        obtain ⟨a1, a2, a3⟩ := chain_shape_cons c cs hsh
        by_cases hne : cs = []
        · subst hne
          obtain ⟨l1, l2⟩ := a3 rfl
          simp only [chain_shape, seg_last]
          refine ⟨l1, ?_⟩
          intro e; omega
        · apply chain_shape_cons_mid _ _ hne _ a1
          obtain ⟨m1, m2⟩ := a2 hne
          unfold seg_mid; simp only; omega
      · intro hc
        simp only [content_len] at hc
        omega
    · simp only [hlt, if_false]
      have hcl : (chain_content c).length ≤ n.toNat := by omega
      have hdrop : (stream_of (c :: cs)).drop n.toNat
          = (stream_of cs).drop (n - (c.tail - c.data)).toNat := by
        simp only [stream_of]
        rw [List.drop_append_eq_append_drop, List.drop_eq_nil_of_le hcl, List.nil_append]
        congr 1
        omega
      by_cases hz : n - (c.tail - c.data) = 0
      · simp only [hz, ne_eq, not_true_eq_false, if_false]
        refine ⟨?_, hi', hr', ?_, ?_, ?_, by simp⟩
        · rw [hdrop, hz]; simp
        · intro hs x hx; exact hs x (by simp [hx])
        · intro hsh; exact (chain_shape_cons c cs hsh).1
        · intro hc
          simp only [content_len] at hc
          omega
      · simp only [hz, ne_eq, not_false_eq_true, if_true]
        obtain ⟨b1, b2, b3, b4, b5, b6, b7⟩ := ih (n - (c.tail - c.data)) (by omega) hi' hr'
        refine ⟨?_, b2, b3, ?_, ?_, ?_, ?_⟩
        · rw [hdrop, b1]
        · intro hs; exact b4 (fun x hx => hs x (by simp [hx]))
        · intro hsh; exact b5 (chain_shape_cons c cs hsh).1
        · intro hc
          apply b6
          simp only [content_len] at hc
          omega
        · simp only [List.length_cons]; omega

/-! ## Extract -/

theorem buffer_remove_loop_spec :
    ∀ (fuel : Nat) (b : buffer) (dest : List UInt8) (remain : Int),
      buffer_inv b → buffer_region b → buffer_small b → 0 ≤ remain → remain ≤ INT_MAX →
      b.head.length + 1 ≤ fuel →
      ∃ b1 dest1 remain1, buffer_remove_loop fuel b dest remain = some (b1, dest1, remain1) ∧
        buffer_inv b1 ∧ buffer_region b1 ∧ buffer_small b1 ∧ b1.data_len = b.data_len ∧
        b1.head.length ≤ b.head.length ∧ 0 ≤ remain1 ∧ remain1 ≤ remain ∧
        (chain_shape b.head →
          chain_shape b1.head ∧
          dest1 = dest ++ (buffer_stream b).take remain.toNat ∧
          remain1 = remain - min remain (buffer_content_len b) ∧
          buffer_stream b1 = (buffer_stream b).drop remain.toNat) := by
  intro fuel
  induction fuel with
  | zero => intro b dest remain _ _ _ _ _ hf; omega
  | succ fuel ih =>
    intro b dest remain hi hr hsm hr0 hr1 hf
    obtain ⟨l, d⟩ := b
    unfold buffer_inv at hi
    unfold buffer_region at hr
    unfold buffer_small at hsm
    simp only at hi hr hsm hf
    have hr1' := hr1
    unfold INT_MAX at hr1'
    cases l with
    | nil =>
      refine ⟨⟨[], d⟩, dest, remain, by simp [buffer_remove_loop], hi, hr, hsm, rfl, le_refl _,
        hr0, le_refl _, ?_⟩
      intro hsh
      refine ⟨hsh, ?_, ?_, ?_⟩
      · simp [buffer_stream, stream_of]
      · simp only [buffer_content_len, content_len]; omega
      · simp [buffer_stream, stream_of]
    | cons c cs =>
      have hic := hi c (by simp)
      have hrc := hr c (by simp)
      have hsc := hsm c (by simp)
      have hlen := chain_content_length c hic hrc
      have hi' : ∀ x ∈ cs, chain_inv x := fun x hx => hi x (by simp [hx])
      have hr' : ∀ x ∈ cs, chain_region x := fun x hx => hr x (by simp [hx])
      have hs' : ∀ x ∈ cs, chain_small x := fun x hx => hsm x (by simp [hx])
      have hnn := content_len_nonneg cs hi'
      obtain ⟨h0, h1, h2⟩ := hic
      unfold chain_small INT_MAX at hsc
      have e1 : int_of (c.tail - c.data) = c.tail - c.data := int_of_eq _ (by omega) (by omega)
      unfold buffer_remove_loop
      simp only [List.head?_cons, e1]
      by_cases hz : c.tail - c.data = 0
      · refine ⟨⟨c :: cs, d⟩, dest, remain, by simp [hz], hi, hr, hsm, rfl, le_refl _,
          hr0, le_refl _, ?_⟩
        intro hsh
        have hcs : cs = [] := stream_of_nil_of_head_empty c cs hsh (by omega)
        subst hcs
        have hnil : chain_content c = [] := by
          apply List.eq_nil_of_length_eq_zero; omega
        refine ⟨hsh, ?_, ?_, ?_⟩
        · simp [buffer_stream, stream_of, hnil]
        · simp only [buffer_content_len, content_len]; omega
        · simp [buffer_stream, stream_of, hnil]
      · simp only [hz, if_false]
        by_cases hgt : c.tail - c.data > remain
        · -- the request ends inside this segment
          have e2 : int_of (remain - remain) = 0 := by simp [int_of]
          have e3 : size_t_of remain = remain := size_t_of_eq _ hr0 (by omega)
          have e4 : mem_copy c.head c.data remain = some (mem_read c.head c.data remain) :=
            mem_copy_eq _ _ _ h0 hr0 (by rw [hrc.1]; omega)
          simp only [hgt, if_true, e2, e3, e4, ne_eq, not_true_eq_false, if_false]
          have hdr := buffer_drain_eq ⟨c :: cs, d⟩ remain hi hsm hr0 (by omega)
          have htake : (buffer_stream ⟨c :: cs, d⟩).take remain.toNat
              = mem_read c.head c.data remain := by
            simp only [buffer_stream, stream_of]
            rw [List.take_append_of_le_length (by omega)]
            exact (mem_read_take _ _ _ _ (by omega)).symm
          have hmin : (0 : Int) = remain - min remain (buffer_content_len ⟨c :: cs, d⟩) := by
            simp only [buffer_content_len, content_len]
            omega
          by_cases hr00 : remain = 0
          · refine ⟨⟨c :: cs, d⟩, dest ++ mem_read c.head c.data remain, 0,
              by rw [hdr]; simp [hr00],
              hi, hr, hsm, rfl, le_refl _, le_refl _, hr0, ?_⟩
            intro hsh
            exact ⟨hsh, by rw [htake], hmin, by simp [hr00]⟩
          · obtain ⟨b1, b2, b3, b4, b5, _, b7⟩ :=
              chain_drain_spec (c :: cs) remain (by omega) hi hr
            refine ⟨⟨chain_drain (c :: cs) remain, d⟩, dest ++ mem_read c.head c.data remain, 0,
              by rw [hdr]; simp [hr00], b2, b3, b4 hsm, rfl, b7, le_refl _, hr0, ?_⟩
            intro hsh
            exact ⟨b5 hsh, by rw [htake], hmin, by simp only [buffer_stream]; exact b1⟩
        · -- the whole segment is taken
          have e2 : int_of (remain - (c.tail - c.data)) = remain - (c.tail - c.data) :=
            int_of_eq _ (by omega) (by omega)
          have e3 : size_t_of (c.tail - c.data) = c.tail - c.data :=
            size_t_of_eq _ (by omega) (by omega)
          have hdr := buffer_drain_eq ⟨c :: cs, d⟩ (c.tail - c.data) hi hsm (by omega) (by omega)
          have hcd : chain_drain (c :: cs) (c.tail - c.data) = cs := by
            unfold chain_drain
            simp
          have hrd : mem_read c.head c.data (c.tail - c.data) = chain_content c := rfl
          have e4 : mem_copy c.head c.data (c.tail - c.data) = some (chain_content c) := by
            rw [← hrd]
            exact mem_copy_eq _ _ _ h0 (by omega) (by rw [hrc.1]; omega)
          simp only [hgt, if_false, e2, e3, e4, hdr, hz, hcd]
          have htake : (buffer_stream ⟨c :: cs, d⟩).take remain.toNat
              = chain_content c ++ (stream_of cs).take (remain - (c.tail - c.data)).toNat := by
            simp only [buffer_stream, stream_of]
            rw [List.take_append_eq_append_take, List.take_of_length_le (by omega)]
            congr 2
            omega
          have hdrop : (buffer_stream ⟨c :: cs, d⟩).drop remain.toNat
              = (stream_of cs).drop (remain - (c.tail - c.data)).toNat := by
            simp only [buffer_stream, stream_of]
            rw [List.drop_append_eq_append_drop, List.drop_eq_nil_of_le (by omega),
              List.nil_append]
            congr 1
            omega
          by_cases hrz : remain - (c.tail - c.data) = 0
          · refine ⟨⟨cs, d⟩, dest ++ chain_content c, 0, by simp [hrz, hrd], hi', hr', hs', rfl,
              by simp, le_refl _, hr0, ?_⟩
            intro hsh
            refine ⟨(chain_shape_cons c cs hsh).1, ?_, ?_, ?_⟩
            · rw [htake, hrz]; simp
            · simp only [buffer_content_len, content_len]; omega
            · rw [hdrop, hrz]; simp [buffer_stream]
          · obtain ⟨b1, dest1, remain1, c1, c2, c3, c4, c5, c6, c7, c8, c9⟩ :=
              ih ⟨cs, d⟩ (dest ++ chain_content c)
              (remain - (c.tail - c.data)) hi' hr' hs'
              (by omega) (by unfold INT_MAX; omega)
              (by show cs.length + 1 ≤ fuel; simp only [List.length_cons] at hf; omega)
            refine ⟨b1, dest1, remain1, by simp only [hrz, ne_eq, not_false_eq_true, if_true,
              hrd, c1], c2, c3, c4, c5, ?_, c7, by omega, ?_⟩
            · simp only [List.length_cons] at c6 ⊢; omega
            · intro hsh
              obtain ⟨d1, d2, d3, d4⟩ := c9 (chain_shape_cons c cs hsh).1
              refine ⟨d1, ?_, ?_, ?_⟩
              · rw [d2, htake]; simp [buffer_stream]
              · rw [d3]
                simp only [buffer_content_len, content_len]
                omega
              · rw [d4, hdrop]; rfl

theorem buffer_remove_spec (b : buffer) (len : Int) (hi : buffer_inv b) (hr : buffer_region b)
    (hsm : buffer_small b) (h0 : 0 ≤ len) (hl : len ≤ INT_MAX) :
    ∃ r dest b1, buffer_remove b len = some (r, dest, b1) ∧
      buffer_inv b1 ∧ buffer_region b1 ∧ buffer_small b1 ∧ b1.data_len = b.data_len ∧
      b1.head.length ≤ b.head.length ∧ 0 ≤ r ∧ r ≤ len ∧
      (chain_shape b.head →
        chain_shape b1.head ∧ r = min len (buffer_content_len b) ∧
        dest = (buffer_stream b).take len.toNat ∧
        buffer_stream b1 = (buffer_stream b).drop len.toNat) := by
  have hl' := hl
  unfold INT_MAX at hl'
  have e1 : int_of len = len := int_of_eq _ (by omega) (by omega)
  obtain ⟨b1, dest1, remain1, a1, a2, a3, a4, a5, a6, a7, a8, a9⟩ :=
    buffer_remove_loop_spec (b.head.length + 1) b [] len hi hr hsm h0 hl (le_refl _)
  have e2 : int_of (len - remain1) = len - remain1 := int_of_eq _ (by omega) (by omega)
  refine ⟨len - remain1, dest1, b1, ?_, a2, a3, a4, a5, a6, by omega, by omega, ?_⟩
  · unfold buffer_remove
    rw [e1, a1]
    simp only [e2]
  · intro hsh
    obtain ⟨d1, d2, d3, d4⟩ := a9 hsh
    refine ⟨d1, by omega, by simpa using d2, d4⟩

/-! ## Append: properties -/

theorem chain_store_fresh_spec (n : Int) (bs : List UInt8) (h0 : 0 ≤ n) (hl : n ≤ 2147483647)
    (hb : (bs.length : Int) = n) :
    chain_inv (chain_store (chain_fresh n) bs) ∧ chain_region (chain_store (chain_fresh n) bs) ∧
      chain_content (chain_store (chain_fresh n) bs) = bs ∧
      seg_last (chain_store (chain_fresh n) bs) ∧
      (chain_store (chain_fresh n) bs).data = 0 ∧ (chain_store (chain_fresh n) bs).tail = n ∧
      (chain_store (chain_fresh n) bs).end_ = chain_cap n.toNat := by
  obtain ⟨f1, f2, f3⟩ := chain_fresh_spec n (by omega)
  obtain ⟨c1, c2, c3, c4⟩ := chain_cap_bounds n.toNat (by omega)
  have hfit : (chain_fresh n).tail + bs.length ≤ (chain_fresh n).end_ := by
    simp only [chain_fresh]; omega
  obtain ⟨s1, s2, s3⟩ := chain_store_spec (chain_fresh n) bs f1 f2 hfit
  have hend : (chain_store (chain_fresh n) bs).end_ = chain_cap n.toNat := rfl
  have hdata : (chain_store (chain_fresh n) bs).data = 0 := rfl
  have htail : (chain_store (chain_fresh n) bs).tail = n := by
    simp [chain_store, chain_fresh, hb]
  refine ⟨s1, s2, by rw [s3, f3]; simp, ?_, hdata, htail, hend⟩
  unfold seg_last
  rw [hend, hdata, htail]
  refine ⟨by omega, ?_⟩
  intro e
  have h512 : n.toNat ≤ 512 := by omega
  have := c4 h512
  omega

theorem chain_shape_append (pre t : List buffer_chain) (hne : t ≠ [])
    (hp : ∀ p ∈ pre, seg_mid p) (ht : chain_shape t) : chain_shape (pre ++ t) := by
  induction pre with
  | nil => simpa using ht
  | cons p ps ih =>
    exact chain_shape_cons_mid p (ps ++ t) (by simp [hne]) (hp p (by simp))
      (ih (fun q hq => hp q (by simp [hq])))

theorem chain_store_seg_last (c : buffer_chain) (bs : List UInt8) (hi : chain_inv c)
    (hl : seg_last c) : seg_last (chain_store c bs) := by
  obtain ⟨h0, h1, h2⟩ := hi
  obtain ⟨l1, l2⟩ := hl
  refine ⟨l1, ?_⟩
  intro e
  simp only [chain_store] at e ⊢
  exact l2 (by omega)

theorem chain_store_seg_mid (c : buffer_chain) (bs : List UInt8) (hi : chain_inv c)
    (hl : seg_last c) (hfull : c.tail + bs.length = c.end_) : seg_mid (chain_store c bs) := by
  obtain ⟨h0, h1, h2⟩ := hi
  obtain ⟨l1, l2⟩ := hl
  refine ⟨hfull, ?_⟩
  simp only [chain_store]
  by_contra hc
  have := l2 (by omega)
  omega

theorem chain_aligned_seg_last (c : buffer_chain) (len : Int) (hi : chain_inv c)
    (hr : chain_region c) (hl : seg_last c) : seg_last (chain_aligned c len) := by
  obtain ⟨_, _, a3, a4, a5, _, _⟩ := chain_aligned_spec c len hi hr
  obtain ⟨l1, l2⟩ := hl
  refine ⟨by omega, ?_⟩
  intro e
  have := l2 (by omega)
  rcases a5 with a5 | a5
  · omega
  · rw [a5]; exact this

/-- The segments `t` put in the place of the old tail segments `s` of a chain keep the chain in
order, and add the bytes `bs` to its stream. -/
theorem chain_replace_tail (pre s t : List buffer_chain) (bs : List UInt8)
    (hi : ∀ c ∈ pre ++ s, chain_inv c) (hr : ∀ c ∈ pre ++ s, chain_region c)
    (ti : ∀ c ∈ t, chain_inv c) (tr : ∀ c ∈ t, chain_region c)
    (hst : stream_of t = stream_of s ++ bs) :
    (∀ c ∈ pre ++ t, chain_inv c) ∧ (∀ c ∈ pre ++ t, chain_region c) ∧
      stream_of (pre ++ t) = stream_of (pre ++ s) ++ bs := by
  refine ⟨?_, ?_, ?_⟩
  · intro c hc
    rcases List.mem_append.mp hc with h | h
    · exact hi c (List.mem_append.mpr (Or.inl h))
    · exact ti c h
  · intro c hc
    rcases List.mem_append.mp hc with h | h
    · exact hr c (List.mem_append.mpr (Or.inl h))
    · exact tr c h
  · rw [stream_of_append, stream_of_append, hst, List.append_assoc]

/-- What `buffer_add` does, for a buffer whose segments satisfy the segment invariant. -/
theorem buffer_add_spec (b : buffer) (source : List UInt8) (len : Int) (malloc_ok : Bool)
    (hi : buffer_inv b) (hr : buffer_region b) (h0 : 0 ≤ len) (hl : len ≤ INT_MAX)
    (hs : len ≤ source.length) :
    ∃ r b1, buffer_add b source len malloc_ok = some (r, b1) ∧
      0 ≤ r ∧ r ≤ len ∧ (malloc_ok = true → r = 0) ∧
      buffer_stream b1 = buffer_stream b ++ source.take (len - r).toNat ∧
      buffer_inv b1 ∧ buffer_region b1 ∧
      (chain_shape b.head → chain_shape b1.head) ∧
      b1.data_len = b.data_len ∧
      b.head.length ≤ b1.head.length ∧ b1.head.length ≤ b.head.length + 1 ∧
      (malloc_ok = false → b1.head.length = b.head.length) := by
  have hl1 := hl
  unfold INT_MAX at hl1
  obtain ⟨l, d⟩ := b
  rcases buffer_tail_cases ⟨l, d⟩ with ⟨hnil, _⟩ | ⟨pre, c0, hcat, _⟩
  · simp only at hnil
    subst hnil
    rw [buffer_add_nil_eq d source len h0 hl hs]
    have hb : (((source.take len.toNat).length : Nat) : Int) = len := by simp; omega
    obtain ⟨s1, s2, s3, s4, _⟩ := chain_store_fresh_spec len _ h0 hl1 hb
    cases malloc_ok
    · refine ⟨len, ⟨[], d⟩, by simp, h0, le_refl _, by simp, ?_, hi, hr, fun h => h, rfl,
        le_refl _, by simp, by simp⟩
      simp [buffer_stream, stream_of]
    · refine ⟨0, ⟨[chain_store (chain_fresh len) (source.take len.toNat)], d⟩, by simp,
        le_refl _, h0, by simp, ?_, ?_, ?_, ?_, rfl, by simp, by simp, by simp⟩
      · simp [buffer_stream, stream_of, s3]
      · intro c hc; simp only [List.mem_singleton] at hc; rw [hc]; exact s1
      · intro c hc; simp only [List.mem_singleton] at hc; rw [hc]; exact s2
      · intro _; exact s4
  · simp only at hcat
    subst hcat
    have hic0 := hi c0 (by simp)
    have hrc0 := hr c0 (by simp)
    rw [buffer_add_concat_eq pre c0 d source len hic0 hrc0 h0 hl hs]
    obtain ⟨ai, ar, ae, ad, a5, a6, ac⟩ := chain_aligned_spec c0 len hic0 hrc0
    have asl := chain_aligned_seg_last c0 len hic0 hrc0
    generalize chain_aligned c0 len = c at ai ar ae ad a5 a6 ac asl ⊢
    have hic := ai
    obtain ⟨c0', c1', c2'⟩ := ai
    simp only
    have hshape : ∀ (t : List buffer_chain), t ≠ [] →
        (seg_last c0 → chain_shape t) → chain_shape (pre ++ [c0]) → chain_shape (pre ++ t) := by
      intro t hne ht hsh
      obtain ⟨p1, p2⟩ := (chain_shape_concat pre c0).mp hsh
      exact chain_shape_append pre t hne p1 (ht p2)
    by_cases hfit : len ≤ c.end_ - c.tail
    · -- everything goes into the tail segment
      simp only [hfit, if_true]
      have hb : (((source.take len.toNat).length : Nat) : Int) = len := by simp; omega
      obtain ⟨s1, s2, s3⟩ := chain_store_spec c (source.take len.toNat) hic ar (by omega)
      obtain ⟨r1, r2, r3⟩ := chain_replace_tail pre [c0] [chain_store c (source.take len.toNat)]
        (source.take len.toNat) hi hr
        (by intro x hx; simp only [List.mem_singleton] at hx; rw [hx]; exact s1)
        (by intro x hx; simp only [List.mem_singleton] at hx; rw [hx]; exact s2)
        (by simp [stream_of, s3, ac])
      refine ⟨0, ⟨pre ++ [chain_store c (source.take len.toNat)], d⟩, rfl, le_refl _, h0,
        fun _ => rfl, ?_, r1, r2, ?_, rfl, by simp, by simp, by simp⟩
      · simpa [buffer_stream] using r3
      · apply hshape _ (by simp)
        intro hl0
        exact chain_store_seg_last c _ hic (asl hl0)
    · simp only [hfit, if_false]
      have hb : (((source.take (c.end_ - c.tail).toNat).length : Nat) : Int)
          = c.end_ - c.tail := by simp; omega
      obtain ⟨s1, s2, s3⟩ := chain_store_spec c (source.take (c.end_ - c.tail).toNat) hic ar
        (by omega)
      cases malloc_ok
      · -- the tail segment is filled, the rest is not written
        obtain ⟨r1, r2, r3⟩ := chain_replace_tail pre [c0]
          [chain_store c (source.take (c.end_ - c.tail).toNat)]
          (source.take (c.end_ - c.tail).toNat) hi hr
          (by intro x hx; simp only [List.mem_singleton] at hx; rw [hx]; exact s1)
          (by intro x hx; simp only [List.mem_singleton] at hx; rw [hx]; exact s2)
          (by simp [stream_of, s3, ac])
        refine ⟨len - (c.end_ - c.tail),
          ⟨pre ++ [chain_store c (source.take (c.end_ - c.tail).toNat)], d⟩,
          by simp, by omega, by omega, by simp, ?_, r1, r2, ?_, rfl, by simp, by simp, by simp⟩
        · simp only [buffer_stream] at r3 ⊢
          rw [r3]
          congr 2
          omega
        · apply hshape _ (by simp)
          intro hl0
          exact chain_store_seg_last c _ hic (asl hl0)
      · -- the tail segment is filled, the rest goes into a new segment
        have hb2 : ((((source.drop (c.end_ - c.tail).toNat).take
            (len - (c.end_ - c.tail)).toNat).length : Nat) : Int) = len - (c.end_ - c.tail) := by
          simp; omega
        obtain ⟨n1, n2, n3, n4, _⟩ := chain_store_fresh_spec (len - (c.end_ - c.tail))
          ((source.drop (c.end_ - c.tail).toNat).take (len - (c.end_ - c.tail)).toNat)
          (by omega) (by omega) hb2
        obtain ⟨r1, r2, r3⟩ := chain_replace_tail pre [c0]
          [chain_store c (source.take (c.end_ - c.tail).toNat),
            chain_store (chain_fresh (len - (c.end_ - c.tail)))
              ((source.drop (c.end_ - c.tail).toNat).take (len - (c.end_ - c.tail)).toNat)]
          (source.take len.toNat) hi hr
          (by
            intro x hx
            simp only [List.mem_cons, List.mem_singleton, List.not_mem_nil, or_false] at hx
            rcases hx with hx | hx <;> rw [hx]
            · exact s1
            · exact n1)
          (by
            intro x hx
            simp only [List.mem_cons, List.mem_singleton, List.not_mem_nil, or_false] at hx
            rcases hx with hx | hx <;> rw [hx]
            · exact s2
            · exact n2)
          (by
            simp only [stream_of, s3, n3, ac, List.append_nil, List.append_assoc]
            congr 1
            have e : len.toNat = (c.end_ - c.tail).toNat + (len - (c.end_ - c.tail)).toNat := by
              omega
            rw [e, List.take_add])
        refine ⟨0, ⟨pre ++ [chain_store c (source.take (c.end_ - c.tail).toNat),
            chain_store (chain_fresh (len - (c.end_ - c.tail)))
              ((source.drop (c.end_ - c.tail).toNat).take (len - (c.end_ - c.tail)).toNat)], d⟩,
          by simp, le_refl _, h0, fun _ => rfl, ?_, r1, r2, ?_, rfl, by simp, by simp, by simp⟩
        · simpa [buffer_stream] using r3
        · apply hshape _ (by simp)
          intro hl0
          exact ⟨chain_store_seg_mid c _ hic (asl hl0) (by omega), n4⟩

/-! ## Reading from a descriptor: the invariants -/

theorem chain_cap_4096 : chain_cap 4096 = 4096 := by decide

theorem chain_fresh_4096 :
    chain_inv (chain_fresh 4096) ∧ chain_region (chain_fresh 4096) ∧
      chain_content (chain_fresh 4096) = [] ∧ seg_last (chain_fresh 4096) ∧
      (chain_fresh 4096).tail < (chain_fresh 4096).end_ ∧
      chain_slack_small (chain_fresh 4096) := by
  obtain ⟨f1, f2, f3⟩ := chain_fresh_spec 4096 (by omega)
  have e : (chain_fresh 4096).end_ = 4096 := by
    show ((chain_cap (4096 : Int).toNat : Nat) : Int) = 4096
    rw [show (4096 : Int).toNat = 4096 from rfl, chain_cap_4096]
    rfl
  have e1 : (chain_fresh 4096).tail = 0 := rfl
  have e2 : (chain_fresh 4096).data = 0 := rfl
  refine ⟨f1, f2, f3, ?_, by omega, ?_⟩
  · unfold seg_last; omega
  · unfold chain_slack_small INT_MAX; omega

theorem seg_mid_of_full (c : buffer_chain) (hi : chain_inv c) (hl : seg_last c)
    (hfull : ¬ c.tail < c.end_) : seg_mid c := by
  obtain ⟨h0, h1, h2⟩ := hi
  obtain ⟨l1, l2⟩ := hl
  refine ⟨by omega, ?_⟩
  by_contra hc
  have := l2 (by omega)
  omega

theorem mem_concat_of_mem (pre : List buffer_chain) (c0 c : buffer_chain)
    (P : buffer_chain → Prop) (h : ∀ x ∈ pre ++ [c0], P x) (hc : P c) :
    ∀ x ∈ pre ++ [c], P x := by
  intro x hx
  rcases List.mem_append.mp hx with e | e
  · exact h x (List.mem_append.mpr (Or.inl e))
  · simp only [List.mem_singleton] at e
    rw [e]; exact hc

/-- The first part of a round of `buffer_add_fd`: the segment to read into. -/
theorem buffer_add_fd_chain_spec (b : buffer) (len : Int) (malloc_ok : Bool)
    (hfd : buffer_fd_inv b) :
    ∃ b0 res, buffer_add_fd_chain b len malloc_ok = some (b0, res) ∧
      buffer_inv b0 ∧ buffer_region b0 ∧ buffer_stream b0 = buffer_stream b ∧
      b0.data_len = b.data_len ∧ (chain_shape b.head → chain_shape b0.head) ∧
      (∀ chain used, res = some (chain, used) →
        ∃ pre, b0.head = pre ++ [chain] ∧ chain.tail < chain.end_ ∧ chain_slack_small chain) := by
  obtain ⟨hi, hr, hsl⟩ := hfd
  obtain ⟨l, d⟩ := b
  obtain ⟨z1, z2, z3, z4, z5, z6⟩ := chain_fresh_4096
  have hex : ∀ b' : buffer, buffer_expand b' 4096 malloc_ok =
      some (if malloc_ok then some (buffer_add_chain b' (chain_fresh 4096), chain_fresh 4096)
        else none) := fun b' => buffer_expand_eq b' 4096 (by omega) (by omega) malloc_ok
  rcases buffer_tail_cases ⟨l, d⟩ with ⟨hnil, htl⟩ | ⟨pre, c0, hcat, htl⟩
  · simp only at hnil
    subst hnil
    unfold buffer_add_fd_chain
    rw [htl]
    simp only [hex]
    cases malloc_ok
    · exact ⟨⟨[], d⟩, none, by simp, hi, hr, rfl, rfl, fun h => h, by simp⟩
    · refine ⟨⟨[chain_fresh 4096], d⟩, some (chain_fresh 4096, true),
        by simp [buffer_add_chain], ?_, ?_, ?_, rfl, fun _ => z4, ?_⟩
      · intro c hc; simp only [List.mem_singleton] at hc; rw [hc]; exact z1
      · intro c hc; simp only [List.mem_singleton] at hc; rw [hc]; exact z2
      · simp [buffer_stream, stream_of, z3]
      · intro chain used h
        simp only [Option.some.injEq, Prod.mk.injEq] at h
        rw [← h.1]
        exact ⟨[], rfl, z5, z6⟩
  · simp only at hcat
    subst hcat
    have hic0 := hi c0 (by simp)
    have hrc0 := hr c0 (by simp)
    have hsl0 := hsl c0 htl
    obtain ⟨ai, ar, ae, ad, a5, a6, ac⟩ := chain_aligned_spec c0 len hic0 hrc0
    have asl := chain_aligned_seg_last c0 len hic0 hrc0
    unfold buffer_add_fd_chain
    rw [htl]
    simp only
    rw [show (if buffer_chain_should_align c0 len then buffer_chain_align c0 else c0)
      = chain_aligned c0 len from rfl]
    generalize chain_aligned c0 len = c at ai ar ae ad a5 a6 ac asl ⊢
    have hslc : chain_slack_small c := by
      unfold chain_slack_small at hsl0 ⊢; omega
    simp only [buffer_set_tail_concat, hex]
    have hi1 : ∀ x ∈ pre ++ [c], chain_inv x := mem_concat_of_mem pre c0 c _ hi ai
    have hr1 : ∀ x ∈ pre ++ [c], chain_region x := mem_concat_of_mem pre c0 c _ hr ar
    have hst : stream_of (pre ++ [c]) = stream_of (pre ++ [c0]) := by
      simp [stream_of_append, stream_of, ac]
    have hsh : chain_shape (pre ++ [c0]) → chain_shape (pre ++ [c]) := by
      intro h
      obtain ⟨p1, p2⟩ := (chain_shape_concat pre c0).mp h
      exact (chain_shape_concat pre c).mpr ⟨p1, asl p2⟩
    by_cases hroom : c.tail < c.end_
    · refine ⟨⟨pre ++ [c], d⟩, some (c, false), by simp [hroom], hi1, hr1, hst, rfl, hsh, ?_⟩
      intro chain used h
      simp only [Option.some.injEq, Prod.mk.injEq] at h
      rw [← h.1]
      exact ⟨pre, rfl, hroom, hslc⟩
    · cases malloc_ok
      · exact ⟨⟨pre ++ [c], d⟩, none, by simp [hroom], hi1, hr1, hst, rfl, hsh, by simp⟩
      · refine ⟨⟨pre ++ [c, chain_fresh 4096], d⟩, some (chain_fresh 4096, true),
          by simp [hroom, buffer_add_chain], ?_, ?_, ?_, rfl, ?_, ?_⟩
        · have := mem_concat_of_mem (pre ++ [c]) c (chain_fresh 4096) _
            (by simpa using hi1) z1
          intro x hx
          exact this x (by simpa using hx)
        · have := mem_concat_of_mem (pre ++ [c]) c (chain_fresh 4096) _
            (by simpa using hr1) z2
          intro x hx
          exact this x (by simpa using hx)
        · show stream_of (pre ++ [c, chain_fresh 4096]) = stream_of (pre ++ [c0])
          rw [← hst]
          simp [stream_of_append, stream_of, z3]
        · intro h
          obtain ⟨p1, p2⟩ := (chain_shape_concat pre c).mp (hsh h)
          have hm := seg_mid_of_full c ai p2 hroom
          have := (chain_shape_concat (pre ++ [c]) (chain_fresh 4096)).mpr
            ⟨mem_concat_of_mem pre c c _ (by
              intro x hx
              rcases List.mem_append.mp hx with e | e
              · exact p1 x e
              · simp only [List.mem_singleton] at e; rw [e]; exact hm) hm, z4⟩
          simpa using this
        · intro chain used h
          simp only [Option.some.injEq, Prod.mk.injEq] at h
          rw [← h.1]
          exact ⟨pre ++ [c], by simp, z5, z6⟩

/-- The loop of `buffer_add_fd` keeps its invariant, whatever way it ends. -/
theorem buffer_add_fd_loop_inv (reads : List (Int → read_result)) :
    ∀ (malloc_ok : Nat → Bool) (k : Nat) (b : buffer) (len remain r : Int) (eof : Bool)
      (b1 : buffer),
      buffer_fd_inv b → 0 ≤ remain → remain ≤ INT_MAX →
      (∀ rd ∈ reads, ∀ count, read_within count (rd count)) →
      buffer_add_fd_loop reads malloc_ok k b len remain = some (r, eof, b1) →
      buffer_fd_inv b1 ∧ (chain_shape b.head → chain_shape b1.head) ∧
        b1.data_len = b.data_len := by
  induction reads with
  | nil =>
    intro malloc_ok k b len remain r eof b1 _ _ _ _ h
    simp [buffer_add_fd_loop] at h
  | cons rd reads ih =>
    intro malloc_ok k b len remain r eof b1 hfd hr0 hr1 hrd h
    have hr1' := hr1
    unfold INT_MAX at hr1'
    obtain ⟨b0, res, e0, i0, r0, _, d0, s0, t0⟩ :=
      buffer_add_fd_chain_spec b len (malloc_ok k) hfd
    unfold buffer_add_fd_loop at h
    rw [e0] at h
    cases res with
    | none =>
      simp only [Option.some.injEq, Prod.mk.injEq] at h
      obtain ⟨_, _, hb⟩ := h
      subst hb
      refine ⟨⟨i0, r0, ?_⟩, s0, d0⟩
      intro c hc
      obtain ⟨hi, hr, hsl⟩ := hfd
      rcases buffer_tail_cases b with ⟨hnil, htl⟩ | ⟨pre, c0, hcat, htl⟩
      · -- no segment before, none after
        have e := e0
        unfold buffer_add_fd_chain at e
        rw [htl] at e
        simp only [buffer_expand_eq b 4096 (by omega) (by omega)] at e
        cases hm : malloc_ok k <;> simp [hm] at e
        rw [← e] at hc
        rw [htl] at hc
        exact absurd hc (by simp)
      · -- the tail segment, compacted or not
        have hic0 := hi c0 (List.mem_of_mem_getLast? htl)
        have hrc0 := hr c0 (List.mem_of_mem_getLast? htl)
        obtain ⟨_, _, ae, ad, _, _, _⟩ := chain_aligned_spec c0 len hic0 hrc0
        have e := e0
        unfold buffer_add_fd_chain at e
        rw [htl] at e
        simp only at e
        rw [show (if buffer_chain_should_align c0 len then buffer_chain_align c0 else c0)
          = chain_aligned c0 len from rfl] at e
        simp only [buffer_expand_eq _ 4096 (by omega) (by omega)] at e
        obtain ⟨l, d⟩ := b
        simp only at hcat
        subst hcat
        simp only [buffer_set_tail_concat] at e
        by_cases hroom : (chain_aligned c0 len).tail < (chain_aligned c0 len).end_
        · simp [hroom] at e
        · cases hm : malloc_ok k <;> simp [hm, hroom] at e
          rw [← e] at hc
          simp only [buffer_tail, List.getLast?_concat, Option.some.injEq] at hc
          rw [← hc]
          have := hsl c0 htl
          unfold chain_slack_small at this ⊢
          omega
    | some cu =>
      obtain ⟨chain, used⟩ := cu
      obtain ⟨pre, hpre, hroom, hslack⟩ := t0 chain used rfl
      obtain ⟨l0, d⟩ := b0
      simp only at hpre
      subst hpre
      have hic : chain_inv chain := i0 chain (by simp)
      have hrc : chain_region chain := r0 chain (by simp)
      obtain ⟨c0', c1', c2'⟩ := hic
      obtain ⟨hlen, hcap⟩ := hrc
      unfold chain_slack_small INT_MAX at hslack
      simp only at h
      have ef : int_of (chain.end_ - chain.tail) = chain.end_ - chain.tail :=
        int_of_eq _ (by omega) (by omega)
      rw [ef] at h
      generalize hav : (if remain < chain.end_ - chain.tail then remain
        else chain.end_ - chain.tail) = avalible at h
      have hav0 : 0 ≤ avalible := by rw [← hav]; split <;> omega
      have hav1 : avalible ≤ chain.end_ - chain.tail := by rw [← hav]; split <;> omega
      have hav2 : avalible ≤ remain := by rw [← hav]; split <;> omega
      have ec : size_t_of avalible = avalible := size_t_of_eq _ hav0 (by omega)
      rw [ec] at h
      have hw := hrd rd (by simp) avalible
      generalize rd avalible = rr at h hw
      have hrd' : ∀ x ∈ reads, ∀ count, read_within count (x count) :=
        fun x hx => hrd x (by simp [hx])
      -- the buffer after the call of `read`, with the pointers as before
      have hbr : ∀ c' : buffer_chain, c'.data = chain.data → chain.tail ≤ c'.tail →
          c'.tail ≤ c'.end_ → c'.end_ = chain.end_ → (c'.head.length : Int) = c'.end_ →
          (seg_last chain → seg_last c') →
          buffer_fd_inv ⟨pre ++ [c'], d⟩ ∧
            (chain_shape (pre ++ [chain]) → chain_shape (pre ++ [c'])) := by
        intro c' q1 q2 q2' q3 q4 q5
        refine ⟨⟨?_, ?_, ?_⟩, ?_⟩
        · exact mem_concat_of_mem pre chain c' _ i0 (by unfold chain_inv; omega)
        · exact mem_concat_of_mem pre chain c' _ r0 ⟨q4, by omega⟩
        · intro c hc
          simp only [buffer_tail, List.getLast?_concat, Option.some.injEq] at hc
          rw [← hc]
          unfold chain_slack_small INT_MAX; omega
        · intro hs
          obtain ⟨p1, p2⟩ := (chain_shape_concat pre chain).mp hs
          exact (chain_shape_concat pre c').mpr ⟨p1, q5 p2⟩
      rcases hw with hm1 | ⟨w0, w1, w2⟩
      · -- `read` failed
        have eres : int_of rr.ret = -1 := by rw [hm1]; exact int_of_eq _ (by omega) (by omega)
        have hneg : ¬ (0 : Int) < rr.ret := by omega
        simp only [eres, hneg, if_false, buffer_set_tail_concat, Int.reduceNeg,
          Int.reduceLT, if_true] at h
        obtain ⟨g1, g2⟩ := hbr chain rfl (le_refl _) c2' rfl hlen (fun x => x)
        cases herr : rr.errno <;> rw [herr] at h <;> simp only at h
        · by_cases hz : remain = 0
          · simp only [hz, ne_eq, not_true_eq_false, if_false, Option.some.injEq,
              Prod.mk.injEq] at h
            obtain ⟨_, _, hb⟩ := h
            subst hb
            exact ⟨g1, fun hs => g2 (s0 hs), d0⟩
          · simp only [hz, ne_eq, not_false_eq_true, if_true] at h
            obtain ⟨j1, j2, j3⟩ := ih malloc_ok _ _ len remain r eof b1 g1 hr0 hr1 hrd' h
            exact ⟨j1, fun hs => j2 (g2 (s0 hs)), by rw [j3]; exact d0⟩
        all_goals
          simp only [Option.some.injEq, Prod.mk.injEq] at h
          obtain ⟨_, _, hb⟩ := h
          subst hb
          exact ⟨g1, fun hs => g2 (s0 hs), d0⟩
      · -- `read` returned `rr.ret` bytes
        have eres : int_of rr.ret = rr.ret := int_of_eq _ (by omega) (by omega)
        have hnneg : ¬ rr.ret < 0 := by omega
        simp only [eres, hnneg, if_false, buffer_set_tail_concat] at h
        have hwl : (mem_write chain.head chain.tail rr.bytes).length = chain.head.length :=
          mem_write_length _ _ _ (by omega)
        by_cases hz : rr.ret = 0
        · simp only [hz, lt_self_iff_false, if_false, if_true, Option.some.injEq,
            Prod.mk.injEq] at h
          obtain ⟨_, _, hb⟩ := h
          subst hb
          obtain ⟨g1, g2⟩ := hbr chain rfl (le_refl _) c2' rfl hlen (fun x => x)
          exact ⟨g1, fun hs => g2 (s0 hs), d0⟩
        · have hpos : 0 < rr.ret := by omega
          simp only [hz, hpos, if_true, if_false] at h
          have er : int_of (remain - rr.ret) = remain - rr.ret :=
            int_of_eq _ (by omega) (by omega)
          rw [er] at h
          obtain ⟨g1, g2⟩ := hbr
            { data := chain.data, tail := chain.tail + rr.ret, end_ := chain.end_,
              head := mem_write chain.head chain.tail rr.bytes }
            rfl (by simp only; omega) (by simp only; omega) rfl
            (by simp only; rw [hwl]; exact hlen)
            (fun hl => ⟨hl.1, fun e => by simp only at e; omega⟩)
          by_cases hz2 : remain - rr.ret = 0
          · simp only [hz2, ne_eq, not_true_eq_false, if_false, Option.some.injEq,
              Prod.mk.injEq] at h
            obtain ⟨_, _, hb⟩ := h
            subst hb
            exact ⟨g1, fun hs => g2 (s0 hs), d0⟩
          · simp only [hz2, ne_eq, not_false_eq_true, if_true] at h
            obtain ⟨j1, j2, j3⟩ := ih malloc_ok _ _ len (remain - rr.ret) r eof b1 g1
              (by omega) (by unfold INT_MAX; omega) hrd' h
            exact ⟨j1, fun hs => j2 (g2 (s0 hs)), by rw [j3]; exact d0⟩

/-! ## The operations on buffers in order -/

theorem buffer_wf_nil (d : Nat) : buffer_wf ⟨[], d⟩ := by
  refine ⟨?_, ?_, trivial⟩
  · intro c hc; simp at hc
  · intro c hc; simp at hc

theorem buffer_fd_inv_of_wf (b : buffer) (h : buffer_wf b) : buffer_fd_inv b := by
  obtain ⟨hi, hr, hsh⟩ := h
  refine ⟨hi, hr, ?_⟩
  intro c hc
  have hm := List.mem_of_mem_getLast? hc
  obtain ⟨h0, h1, h2⟩ := hi c hm
  obtain ⟨_, hcap⟩ := hr c hm
  rcases buffer_tail_cases b with ⟨_, htl⟩ | ⟨pre, c0, hcat, htl⟩
  · rw [htl] at hc; exact absurd hc (by simp)
  · rw [htl] at hc
    simp only [Option.some.injEq] at hc
    subst hc
    rw [hcat] at hsh
    obtain ⟨_, l1, l2⟩ := (chain_shape_concat pre c0).mp hsh
    unfold chain_slack_small INT_MAX
    by_cases he : c0.data = c0.tail
    · have := l2 he; omega
    · omega

theorem buffer_drain_spec (b : buffer) (n : Int) (hi : buffer_inv b) (hr : buffer_region b)
    (hsm : buffer_small b) (h0 : 0 ≤ n) (hn : n < 18446744073709551616) :
    buffer_stream (buffer_drain b n) = (buffer_stream b).drop n.toNat ∧
      buffer_inv (buffer_drain b n) ∧ buffer_region (buffer_drain b n) ∧
      buffer_small (buffer_drain b n) ∧
      (chain_shape b.head → chain_shape (buffer_drain b n).head) ∧
      (buffer_drain b n).data_len = b.data_len ∧
      (buffer_content_len b < n → (buffer_drain b n).head = []) := by
  rw [buffer_drain_eq b n hi hsm h0 hn]
  by_cases hz : n = 0
  · subst hz
    have := content_len_nonneg b.head hi
    rw [if_pos rfl]
    refine ⟨by simp, hi, hr, hsm, fun h => h, ?_, ?_⟩
    · rfl
    · intro h
      unfold buffer_content_len at h
      omega
  · simp only [hz, if_false]
    obtain ⟨a1, a2, a3, a4, a5, a6, _⟩ := chain_drain_spec b.head n (by omega) hi hr
    exact ⟨a1, a2, a3, a4 hsm, a5, trivial, a6⟩

theorem buffer_add_fd_inv (b : buffer) (len : Int) (malloc_ok : Nat → Bool)
    (reads : List (Int → read_result)) (r : Int) (eof : Bool) (b1 : buffer)
    (hfd : buffer_fd_inv b) (hl : len ≤ INT_MAX)
    (hrd : ∀ rd ∈ reads, ∀ count, read_within count (rd count))
    (h : buffer_add_fd b len malloc_ok reads = some (r, eof, b1)) :
    buffer_fd_inv b1 ∧ (chain_shape b.head → chain_shape b1.head) ∧
      b1.data_len = b.data_len := by
  unfold buffer_add_fd at h
  simp only at h
  have h1 : 0 ≤ (if len < 0 then INT_MAX else len) := by
    split
    · unfold INT_MAX; omega
    · omega
  have h2 : (if len < 0 then INT_MAX else len) ≤ INT_MAX := by
    split
    · exact le_refl _
    · exact hl
  exact buffer_add_fd_loop_inv reads malloc_ok 0 b _ _ r eof b1 hfd h1 h2 hrd h

/-- Every buffer reached through buffers whose segments hold at most `INT_MAX` bytes is in
order. -/
theorem buffer_reach_wf (b : buffer) (h : buffer_reach buffer_small b) :
    buffer_wf b ∧ buffer_small b := by
  induction h with
  | init d hp => exact ⟨buffer_wf_nil d, hp⟩
  | add b source len malloc_ok r b1 _ h0 hl hs hadd hp ih =>
    obtain ⟨⟨hi, hr, hsh⟩, _⟩ := ih
    obtain ⟨r', b1', a1, _, _, _, _, a6, a7, a8, _⟩ :=
      buffer_add_spec b source len malloc_ok hi hr h0 hl hs
    rw [a1] at hadd
    simp only [Option.some.injEq, Prod.mk.injEq] at hadd
    obtain ⟨_, e⟩ := hadd
    subst e
    exact ⟨⟨a6, a7, a8 hsh⟩, hp⟩
  | drain b n _ h0 hn hp ih =>
    obtain ⟨⟨hi, hr, hsh⟩, hsm⟩ := ih
    obtain ⟨_, a2, a3, _, a5, _⟩ := buffer_drain_spec b n hi hr hsm h0 hn
    exact ⟨⟨a2, a3, a5 hsh⟩, hp⟩
  | remove b len r dest b1 _ h0 hl hrem hp ih =>
    obtain ⟨⟨hi, hr, hsh⟩, hsm⟩ := ih
    obtain ⟨r', dest', b1', a1, a2, a3, _, _, _, _, _, a9⟩ :=
      buffer_remove_spec b len hi hr hsm h0 hl
    rw [a1] at hrem
    simp only [Option.some.injEq, Prod.mk.injEq] at hrem
    obtain ⟨_, _, e⟩ := hrem
    subst e
    exact ⟨⟨a2, a3, (a9 hsh).1⟩, hp⟩
  | add_fd b len malloc_ok reads r eof b1 _ hl hrd hfd hp ih =>
    obtain ⟨hwf, _⟩ := ih
    obtain ⟨⟨a1, a2, _⟩, a3, _⟩ :=
      buffer_add_fd_inv b len malloc_ok reads r eof b1 (buffer_fd_inv_of_wf b hwf) hl hrd hfd
    exact ⟨⟨a1, a2, a3 hwf.2.2⟩, hp⟩

/-! ## A segment of `2 ^ 31` bytes -/

theorem zero_bytes_length (n : Nat) : (zero_bytes n).length = n := by
  simp [zero_bytes]

theorem chain_aligned_data_zero (c : buffer_chain) (len : Int) (h : c.data = 0) :
    chain_aligned c len = c := by
  simp [chain_aligned, buffer_chain_should_align, h]

theorem chain_cap_2g : chain_cap 1073741825 = 2147483648 := by decide

theorem chain_2g_spec_of (m : List UInt8) (h : m.length = 2147483648) :
    chain_inv { data := 0, tail := 2147483648, end_ := 2147483648, head := m } ∧
      chain_region { data := 0, tail := 2147483648, end_ := 2147483648, head := m } := by
  refine ⟨?_, ?_, ?_⟩
  · unfold chain_inv; simp only; omega
  · simp only; omega
  · simp only; omega

theorem chain_2g_spec : chain_inv chain_2g ∧ chain_region chain_2g :=
  chain_2g_spec_of (zero_bytes 2147483648) (zero_bytes_length 2147483648)

theorem chain_store_data (c : buffer_chain) (bs : List UInt8) :
    (chain_store c bs).data = c.data := rfl

theorem chain_store_end (c : buffer_chain) (bs : List UInt8) :
    (chain_store c bs).end_ = c.end_ := rfl

theorem chain_store_tail (c : buffer_chain) (bs : List UInt8) :
    (chain_store c bs).tail = c.tail + bs.length := rfl

theorem buffer_run_add_add (b b1 b2 : buffer) (s1 s2 : List UInt8) (r1 r2 : Int)
    (e1 : buffer_add b s1 (byte_len s1) true = some (r1, b1))
    (e2 : buffer_add b1 s2 (byte_len s2) true = some (r2, b2)) :
    buffer_run b [stream_op.add s1, stream_op.add s2] = some b2 := by
  simp only [buffer_run, e1, e2]

/-- Two calls of `buffer_add`, with `2 ^ 30 + 1` and with `2 ^ 30 - 1` bytes, on a buffer without
segments leave one segment that holds `2 ^ 31` bytes. -/
theorem buffer_reach_2g :
    ∃ c, buffer_run ⟨[], 0⟩
        [stream_op.add (zero_bytes 1073741825), stream_op.add (zero_bytes 1073741823)]
        = some ⟨[c], 0⟩ ∧
      buffer_reach (fun _ => True) ⟨[c], 0⟩ ∧ c.data = 0 ∧ c.tail = 2147483648 ∧
      c.end_ = 2147483648 ∧ chain_region c := by
  have hs1 : (1073741825 : Int) ≤ ((zero_bytes 1073741825).length : Nat) := by
    rw [zero_bytes_length]; omega
  have hs2 : (1073741823 : Int) ≤ ((zero_bytes 1073741823).length : Nat) := by
    rw [zero_bytes_length]; omega
  have hb1 : (((List.take (1073741825 : Int).toNat (zero_bytes 1073741825)).length : Nat) : Int)
      = 1073741825 := by
    rw [List.length_take, zero_bytes_length]; omega
  have hb2 : (((List.take (1073741823 : Int).toNat (zero_bytes 1073741823)).length : Nat) : Int)
      = 1073741823 := by
    rw [List.length_take, zero_bytes_length]; omega
  have e1 := buffer_add_nil_eq 0 (zero_bytes 1073741825) 1073741825 (by omega)
    (by unfold INT_MAX; omega) hs1 true
  rw [if_pos rfl] at e1
  obtain ⟨s1, s2, _, _, s5, s6, s7⟩ := chain_store_fresh_spec 1073741825
    (List.take (1073741825 : Int).toNat (zero_bytes 1073741825)) (by omega) (by omega) hb1
  have hcap : ((chain_cap (1073741825 : Int).toNat : Nat) : Int) = 2147483648 := by
    rw [show (1073741825 : Int).toNat = 1073741825 from rfl, chain_cap_2g]
    rfl
  rw [hcap] at s7
  generalize chain_store (chain_fresh 1073741825)
    (List.take (1073741825 : Int).toNat (zero_bytes 1073741825)) = c1 at e1 s1 s2 s5 s6 s7
  have e2 := buffer_add_concat_eq [] c1 0 (zero_bytes 1073741823) 1073741823 s1 s2 (by omega)
    (by unfold INT_MAX; omega) hs2 true
  rw [chain_aligned_data_zero c1 _ s5] at e2
  simp only [List.nil_append] at e2
  have hfit : (1073741823 : Int) ≤ c1.end_ - c1.tail := by omega
  rw [if_pos hfit] at e2
  obtain ⟨t1, t2, _⟩ := chain_store_spec c1
    (List.take (1073741823 : Int).toNat (zero_bytes 1073741823)) s1 s2 (by omega)
  have t3 : (chain_store c1 (List.take (1073741823 : Int).toNat (zero_bytes 1073741823))).tail
      = 2147483648 := by
    rw [chain_store_tail]
    omega
  have l1 : byte_len (zero_bytes 1073741825) = 1073741825 := by
    rw [byte_len_eq, zero_bytes_length]; rfl
  have l2 : byte_len (zero_bytes 1073741823) = 1073741823 := by
    rw [byte_len_eq, zero_bytes_length]; rfl
  refine ⟨_, ?_, ?_, (chain_store_data c1 _).trans s5, t3, (chain_store_end c1 _).trans s7, t2⟩
  · exact buffer_run_add_add _ _ _ _ _ _ _ (by rw [l1]; exact e1) (by rw [l2]; exact e2)
  exact buffer_reach.add _ _ _ _ _ _
    (buffer_reach.add _ _ _ _ _ _ (buffer_reach.init 0 trivial) (by omega)
      (by unfold INT_MAX; omega) hs1 e1 trivial)
    (by omega) (by unfold INT_MAX; omega) hs2 e2 trivial

/-- On a segment that holds `2 ^ 31` bytes `buffer_drain` of `2 ^ 32` bytes moves `data` past
`tail` and keeps the segment. -/
theorem buffer_drain_2g (c : buffer_chain) (d : Nat) (hd : c.data = 0)
    (ht : c.tail = 2147483648) :
    buffer_drain ⟨[c], d⟩ 4294967296 = ⟨[{ c with data := 4294967296 }], d⟩ := by
  simp [buffer_drain, buffer_drain_loop, buffer_set_head, hd, ht, int_of, size_t_of]

/-- On a segment that holds `2 ^ 31` bytes, followed by a second segment, `buffer_drain` of
`2 ^ 31 + 1` bytes moves `data` of the first segment past `tail` and leaves the second segment
as it is. -/
theorem buffer_drain_2g_next (c c2 : buffer_chain) (d : Nat) (hd : c.data = 0)
    (ht : c.tail = 2147483648) :
    buffer_drain ⟨[c, c2], d⟩ 2147483649 = ⟨[{ c with data := 2147483649 }, c2], d⟩ := by
  simp [buffer_drain, buffer_drain_loop, buffer_set_head, hd, ht, int_of, size_t_of]

/-- On a segment that holds `2 ^ 31` bytes `buffer_remove` of one byte has no result: `datlen`
is `INT_MIN`, and `memcpy` is asked for `2 ^ 64 - 2 ^ 31` bytes of a storage of `2 ^ 31`
bytes. -/
theorem buffer_remove_2g (c : buffer_chain) (d : Nat) (hd : c.data = 0)
    (ht : c.tail = 2147483648) (hl : (c.head.length : Int) = 2147483648) :
    buffer_remove ⟨[c], d⟩ 1 = none := by
  have e1 : int_of 1 = 1 := by decide
  have e2 : int_of (2147483648 - 0) = -2147483648 := by decide
  have e3 : size_t_of (-2147483648) = 18446744071562067968 := by decide
  have e4 : mem_copy c.head 0 18446744071562067968 = none := by
    unfold mem_copy
    rw [if_neg (by omega)]
  simp only [buffer_remove, buffer_remove_loop, List.length_cons, List.length_nil,
    List.head?_cons, hd, ht, e1, e2]
  rw [if_neg (by decide), if_neg (by decide), e3, e4]

/-! ## Runs of appends and drains -/

theorem chain_small_of_content_len (l : List buffer_chain) (hi : ∀ c ∈ l, chain_inv c)
    (h : content_len l ≤ INT_MAX) : ∀ c ∈ l, chain_small c := by
  induction l with
  | nil => intro c hc; simp at hc
  | cons a l ih =>
    have ha := hi a (by simp)
    have hi' : ∀ x ∈ l, chain_inv x := fun x hx => hi x (by simp [hx])
    have hnn := content_len_nonneg l hi'
    obtain ⟨a0, a1, a2⟩ := ha
    simp only [content_len] at h
    intro c hc
    rcases List.mem_cons.mp hc with e | e
    · rw [e]; unfold chain_small; omega
    · exact ih hi' (by omega) c e

theorem buffer_add_all_spec (ss : List (List UInt8)) :
    ∀ b : buffer, buffer_wf b →
      buffer_content_len b + byte_len ss.flatten ≤ INT_MAX →
      ∃ b1, buffer_add_all b ss = some (List.replicate ss.length 0, b1) ∧
        buffer_wf b1 ∧ buffer_stream b1 = buffer_stream b ++ ss.flatten ∧
        b1.data_len = b.data_len := by
  induction ss with
  | nil =>
    intro b hwf _
    exact ⟨b, rfl, hwf, by simp, rfl⟩
  | cons s ss ih =>
    intro b hwf hlen
    obtain ⟨hi, hr, hsh⟩ := hwf
    have hnn := content_len_nonneg b.head hi
    have e : byte_len (s :: ss).flatten = byte_len s + byte_len ss.flatten := by
      simp only [byte_len_eq, List.flatten_cons, List.length_append, Nat.cast_add]
    rw [e] at hlen
    have h1 := byte_len_nonneg s
    have h2 := byte_len_nonneg ss.flatten
    unfold buffer_content_len at hlen
    obtain ⟨r, b1, a1, _, _, a4, a5, a6, a7, a8, a9, _⟩ :=
      buffer_add_spec b s (byte_len s) true hi hr h1 (by omega) (by rw [byte_len_eq])
    have hr0 : r = 0 := a4 rfl
    subst hr0
    have hs1 : buffer_stream b1 = buffer_stream b ++ s := by
      rw [a5, byte_len_eq]; simp
    have hc1 : buffer_content_len b1 = content_len b.head + byte_len s := by
      unfold buffer_content_len
      rw [← stream_of_length b1.head a6 a7, ← stream_of_length b.head hi hr, byte_len_eq]
      unfold buffer_stream at hs1
      rw [hs1]
      simp
    obtain ⟨b2, c1, c2, c3, c4⟩ := ih b1 ⟨a6, a7, a8 hsh⟩ (by omega)
    refine ⟨b2, ?_, c2, ?_, by omega⟩
    · simp only [buffer_add_all, a1, c1, List.length_cons, List.replicate_succ]
    · rw [c3, hs1]; simp

theorem buffer_content_len_eq (b : buffer) (hi : buffer_inv b) (hr : buffer_region b) :
    buffer_content_len b = (buffer_stream b).length :=
  (stream_of_length b.head hi hr).symm

theorem list_drop_min (s : List UInt8) (n total : Int) (h : (s.length : Int) = total) :
    s.drop (min n total).toNat = s.drop n.toNat := by
  by_cases hn : n ≤ total
  · rw [min_eq_left hn]
  · rw [min_eq_right (by omega), List.drop_eq_nil_of_le (by omega),
      List.drop_eq_nil_of_le (by omega)]

theorem list_take_min (s : List UInt8) (n total : Int) (h : (s.length : Int) = total) :
    s.take (min n total).toNat = s.take n.toNat := by
  by_cases hn : n ≤ total
  · rw [min_eq_left hn]
  · rw [min_eq_right (by omega), List.take_of_length_le (by omega),
      List.take_of_length_le (by omega)]

theorem buffer_run_spec (ops : List stream_op) :
    ∀ b : buffer, buffer_wf b → buffer_content_len b ≤ INT_MAX →
      net_small (buffer_stream b) ops →
      ∃ b1, buffer_run b ops = some b1 ∧ buffer_wf b1 ∧
        buffer_stream b1 = net_stream (buffer_stream b) ops ∧
        buffer_content_len b1 ≤ INT_MAX := by
  induction ops with
  | nil => intro b hwf hc _; exact ⟨b, rfl, hwf, rfl, hc⟩
  | cons op ops ih =>
    intro b hwf hc hnet
    obtain ⟨hi, hr, hsh⟩ := hwf
    cases op with
    | add source =>
      obtain ⟨n1, n2⟩ := hnet
      have e := byte_len_eq (buffer_stream b ++ source)
      have h1 := byte_len_nonneg source
      have hlen : byte_len source ≤ INT_MAX := by
        rw [byte_len_eq] at n1 ⊢
        simp only [List.length_append, Nat.cast_add] at n1
        omega
      obtain ⟨r, b1, a1, _, _, a4, a5, a6, a7, a8, _⟩ :=
        buffer_add_spec b source (byte_len source) true hi hr h1 hlen
          (by rw [byte_len_eq])
      have hr0 : r = 0 := a4 rfl
      subst hr0
      have hs1 : buffer_stream b1 = buffer_stream b ++ source := by
        rw [a5, byte_len_eq]; simp
      have hc1 : buffer_content_len b1 ≤ INT_MAX := by
        rw [buffer_content_len_eq b1 a6 a7, hs1, ← byte_len_eq]
        exact n1
      rw [← hs1] at n2
      obtain ⟨b2, c1, c2, c3, c4⟩ := ih b1 ⟨a6, a7, a8 hsh⟩ hc1 n2
      refine ⟨b2, ?_, c2, ?_, c4⟩
      · simp only [buffer_run, a1, c1]
      · rw [c3, hs1]; rfl
    | drain n =>
      obtain ⟨n1, n2, n3⟩ := hnet
      have hsm : buffer_small b := chain_small_of_content_len b.head hi hc
      obtain ⟨a1, a2, a3, _, a5, _⟩ := buffer_drain_spec b n hi hr hsm n1 n2
      have hc1 : buffer_content_len (buffer_drain b n) ≤ INT_MAX := by
        rw [buffer_content_len_eq _ a2 a3, a1]
        rw [buffer_content_len_eq b hi hr] at hc
        simp only [List.length_drop]
        omega
      rw [← a1] at n3
      obtain ⟨b2, c1, c2, c3, c4⟩ := ih (buffer_drain b n) ⟨a2, a3, a5 hsh⟩ hc1 n3
      refine ⟨b2, ?_, c2, ?_, c4⟩
      · simp only [buffer_run, c1]
      · rw [c3, a1]; rfl

theorem chain_drain_empty (l : List buffer_chain) :
    ∀ n : Int, (∀ c ∈ l, chain_inv c) → content_len l < n → chain_drain l n = [] := by
  induction l with
  | nil => intro n _ _; rfl
  | cons c cs ih =>
    intro n hi h
    obtain ⟨h0, h1, h2⟩ := hi c (by simp)
    have hi' : ∀ x ∈ cs, chain_inv x := fun x hx => hi x (by simp [hx])
    have hnn := content_len_nonneg cs hi'
    simp only [content_len] at h
    unfold chain_drain
    have e1 : ¬ n < c.tail - c.data := by omega
    have e2 : n - (c.tail - c.data) ≠ 0 := by omega
    simp only [e1, e2, if_false, ne_eq, not_false_eq_true, if_true]
    exact ih _ hi' (by omega)


/-! ## Round trip -/

/-- C1: for byte strings `s1 .. sk` of at most `INT_MAX` bytes in all, the calls `buffer_add`
of `s1 .. sk` on a buffer without segments, every allocation succeeding, all return 0, and
`buffer_remove` of the total length then returns that length and stores in `dest` exactly
`s1 ++ ... ++ sk`. -/
theorem buffer_round_trip (ss : List (List UInt8)) (d : Nat)
    (htotal : byte_len ss.flatten ≤ INT_MAX) :
    ∃ b, buffer_add_all ⟨[], d⟩ ss = some (List.replicate ss.length 0, b) ∧
      ∃ b1, buffer_remove b (byte_len ss.flatten)
        = some (byte_len ss.flatten, ss.flatten, b1) := by
  have hwf0 : buffer_wf ⟨[], d⟩ := by
    refine ⟨?_, ?_, trivial⟩
    · intro c hc; simp at hc
    · intro c hc; simp at hc
  obtain ⟨b, a1, a2, a3, _⟩ := buffer_add_all_spec ss ⟨[], d⟩ hwf0
    (by simpa [buffer_content_len, content_len] using htotal)
  have hs : buffer_stream b = ss.flatten := by simpa [buffer_stream, stream_of] using a3
  obtain ⟨hi, hr, hsh⟩ := a2
  have hc : buffer_content_len b = byte_len ss.flatten := by
    unfold buffer_content_len
    rw [← stream_of_length b.head hi hr, byte_len_eq]
    unfold buffer_stream at hs
    rw [hs]
  have hsm : buffer_small b := chain_small_of_content_len b.head hi (by
    unfold buffer_content_len at hc; rw [hc]; exact htotal)
  obtain ⟨r, dest, b1, c1, _, _, _, _, _, _, _, c9⟩ :=
    buffer_remove_spec b (byte_len ss.flatten) hi hr hsm (byte_len_nonneg _) htotal
  obtain ⟨_, d2, d3, _⟩ := c9 hsh
  refine ⟨b, a1, b1, ?_⟩
  have ht : (byte_len ss.flatten).toNat = ss.flatten.length := by
    rw [byte_len_eq]; omega
  rw [c1, d2, d3, hc, hs, min_self, ht, List.take_length]

/-- Witness of C1: scenario A, "hello" and " world". -/
theorem buffer_round_trip_witness :
    byte_len ([[104, 101, 108, 108, 111], [32, 119, 111, 114, 108, 100]] :
      List (List UInt8)).flatten ≤ INT_MAX ∧
    ∃ b, buffer_add_all ⟨[], 0⟩ [[104, 101, 108, 108, 111], [32, 119, 111, 114, 108, 100]]
        = some ([0, 0], b) ∧
      ∃ b1, buffer_remove b 11
        = some (11, [104, 101, 108, 108, 111, 32, 119, 111, 114, 108, 100], b1) :=
  ⟨by decide,
    buffer_round_trip [[104, 101, 108, 108, 111], [32, 119, 111, 114, 108, 100]] 0 (by decide)⟩

/-! ## Extract -/

/-- C2, counterexample: after `buffer_add` of `2 ^ 30 + 1` bytes and of `2 ^ 30 - 1` bytes the
buffer holds `2 ^ 31` bytes in one segment, and `buffer_remove` of one byte has no result, so it
does not return `min 1 total = 1`: the content length wraps around to `INT_MIN` in the `int`
`datlen`, which is neither `0` nor greater than `remain`, and `memcpy` is asked to copy
`2 ^ 64 - 2 ^ 31` bytes out of the storage of `2 ^ 31` bytes. -/
theorem buffer_remove_2g_faults :
    ∃ b c, buffer_run ⟨[], 0⟩
        [stream_op.add (zero_bytes 1073741825), stream_op.add (zero_bytes 1073741823)]
        = some b ∧
      buffer_reach (fun _ => True) b ∧ (0 : Int) ≤ 1 ∧ (1 : Int) ≤ INT_MAX ∧
      min 1 (buffer_content_len b) = 1 ∧
      b.head = [c] ∧ int_of (c.tail - c.data) = -2147483648 ∧
      (c.head.length : Int) = 2147483648 ∧
      size_t_of (-2147483648) = 18446744071562067968 ∧
      mem_copy c.head c.data 18446744071562067968 = none ∧
      buffer_remove b 1 = none ∧
      ¬ ∃ dest b1, buffer_remove b 1 = some (min 1 (buffer_content_len b), dest, b1) := by
  obtain ⟨c, hrun, hreach, hd, ht, he, hl, _⟩ := buffer_reach_2g
  have hlen : (c.head.length : Int) = 2147483648 := by rw [hl]; exact he
  have hrem := buffer_remove_2g c 0 hd ht hlen
  refine ⟨⟨[c], 0⟩, c, hrun, hreach, by decide, by decide, ?_, rfl, ?_, hlen, by decide, ?_,
    hrem, ?_⟩
  · simp only [buffer_content_len, content_len, hd, ht]
    omega
  · rw [hd, ht]
    decide
  · unfold mem_copy
    rw [if_neg (by omega)]
  · rintro ⟨dest, b1, h⟩
    rw [hrem] at h
    cases h

/-- C2, amended: for every buffer reached from a buffer without segments by the public
operations, through buffers whose segments hold at most `INT_MAX` bytes each, and every
`len ≤ INT_MAX`, `buffer_remove` returns `k = min len total`, stores the first `k` bytes of the
stream in `dest` in order, and leaves the stream without its first `k` bytes; it returns less
than `len` only if the buffer held fewer than `len` bytes. -/
theorem buffer_remove_correct (b : buffer) (len : Int) (hreach : buffer_reach buffer_small b)
    (h0 : 0 ≤ len) (hl : len ≤ INT_MAX) :
    ∃ b1, buffer_remove b len
        = some (min len (buffer_content_len b),
            (buffer_stream b).take (min len (buffer_content_len b)).toNat, b1) ∧
      buffer_stream b1 = (buffer_stream b).drop (min len (buffer_content_len b)).toNat ∧
      (min len (buffer_content_len b) < len → buffer_content_len b < len) := by
  obtain ⟨⟨hi, hr, hsh⟩, hsm⟩ := buffer_reach_wf b hreach
  obtain ⟨r, dest, b1, a1, _, _, _, _, _, _, _, a9⟩ := buffer_remove_spec b len hi hr hsm h0 hl
  obtain ⟨_, d2, d3, d4⟩ := a9 hsh
  have hlen := (buffer_content_len_eq b hi hr).symm
  refine ⟨b1, ?_, ?_, ?_⟩
  · rw [a1, d2, d3, list_take_min _ _ _ hlen]
  · rw [d4, list_drop_min _ _ _ hlen]
  · intro h; omega

set_option maxRecDepth 100000 in
/-- Witness of C2 (amended): scenario B, "hello" appended, two bytes drained, three removed. -/
theorem buffer_remove_correct_witness :
    buffer_reach buffer_small
      (buffer_drain ⟨[⟨0, 5, 512, [104, 101, 108, 108, 111] ++ List.replicate 507 0⟩], 0⟩ 2) ∧
    (0 : Int) ≤ 3 ∧ (3 : Int) ≤ INT_MAX ∧
    ∃ b1, buffer_remove
        (buffer_drain ⟨[⟨0, 5, 512, [104, 101, 108, 108, 111] ++ List.replicate 507 0⟩], 0⟩ 2) 3
        = some (min 3 (buffer_content_len (buffer_drain
              ⟨[⟨0, 5, 512, [104, 101, 108, 108, 111] ++ List.replicate 507 0⟩], 0⟩ 2)),
            (buffer_stream (buffer_drain
              ⟨[⟨0, 5, 512, [104, 101, 108, 108, 111] ++ List.replicate 507 0⟩], 0⟩ 2)).take
              (min 3 (buffer_content_len (buffer_drain
                ⟨[⟨0, 5, 512, [104, 101, 108, 108, 111] ++ List.replicate 507 0⟩], 0⟩
                2))).toNat, b1) ∧
      buffer_stream b1 = (buffer_stream (buffer_drain
          ⟨[⟨0, 5, 512, [104, 101, 108, 108, 111] ++ List.replicate 507 0⟩], 0⟩ 2)).drop
          (min 3 (buffer_content_len (buffer_drain
            ⟨[⟨0, 5, 512, [104, 101, 108, 108, 111] ++ List.replicate 507 0⟩], 0⟩ 2))).toNat ∧
      (min 3 (buffer_content_len (buffer_drain
          ⟨[⟨0, 5, 512, [104, 101, 108, 108, 111] ++ List.replicate 507 0⟩], 0⟩ 2)) < 3 →
        buffer_content_len (buffer_drain
          ⟨[⟨0, 5, 512, [104, 101, 108, 108, 111] ++ List.replicate 507 0⟩], 0⟩ 2) < 3) :=
  have hreach : buffer_reach buffer_small
      (buffer_drain ⟨[⟨0, 5, 512, [104, 101, 108, 108, 111] ++ List.replicate 507 0⟩], 0⟩ 2) :=
    buffer_reach.drain _ 2
      (buffer_reach.add ⟨[], 0⟩ [104, 101, 108, 108, 111] 5 true 0 _
        (buffer_reach.init 0 (by decide)) (by decide) (by decide) (by decide) (by decide)
        (by decide))
      (by decide) (by decide) (by decide)
  ⟨hreach, by decide, by decide, buffer_remove_correct _ 3 hreach (by decide) (by decide)⟩

/-! ## Append -/

/-- C3: on a buffer whose segments satisfy the segment invariant (each with a storage region of
`end - head` bytes, at most `2 ^ 31`, as `buffer_chain_new` lays it out), `buffer_add` of `len`
bytes (`len ≤ INT_MAX`) with a successful allocation returns 0, and the logical byte stream
afterwards is the stream before followed by the `len` bytes of `source`, whether the tail segment
is compacted, filled in part, or a new segment is linked. -/
theorem buffer_add_appends (b : buffer) (source : List UInt8) (len : Int)
    (hi : buffer_inv b) (hr : buffer_region b) (h0 : 0 ≤ len) (hl : len ≤ INT_MAX)
    (hs : len ≤ source.length) :
    ∃ b1, buffer_add b source len true = some (0, b1) ∧
      buffer_stream b1 = buffer_stream b ++ source.take len.toNat := by
  obtain ⟨r, b1, a1, _, _, a4, a5, _⟩ := buffer_add_spec b source len true hi hr h0 hl hs
  have hr0 : r = 0 := a4 rfl
  subst hr0
  exact ⟨b1, a1, by simpa using a5⟩

/-- Witness of C3: three bytes appended to a segment that holds two bytes, one of them drained. -/
theorem buffer_add_appends_witness :
    buffer_inv ⟨[⟨1, 2, 4, [7, 8, 0, 0]⟩], 0⟩ ∧ buffer_region ⟨[⟨1, 2, 4, [7, 8, 0, 0]⟩], 0⟩ ∧
    (0 : Int) ≤ 3 ∧ (3 : Int) ≤ INT_MAX ∧ (3 : Int) ≤ ([1, 2, 3] : List UInt8).length ∧
    ∃ b1, buffer_add ⟨[⟨1, 2, 4, [7, 8, 0, 0]⟩], 0⟩ [1, 2, 3] 3 true = some (0, b1) ∧
      buffer_stream b1 = buffer_stream ⟨[⟨1, 2, 4, [7, 8, 0, 0]⟩], 0⟩ ++ [1, 2, 3].take 3 :=
  ⟨by decide, by decide, by decide, by decide, by decide,
    buffer_add_appends ⟨[⟨1, 2, 4, [7, 8, 0, 0]⟩], 0⟩ [1, 2, 3] 3 (by decide) (by decide)
      (by decide) (by decide) (by decide)⟩

/-- C4, counterexample: on a buffer without segments `buffer_add` of 0 bytes needs a segment
(with a successful allocation it links one), and when that allocation fails it returns 0, which
is not a positive count. -/
theorem buffer_add_failure_returns_zero :
    (∃ b1, buffer_add ⟨[], 0⟩ [] 0 true = some (0, b1) ∧ b1.head.length = 1) ∧
    buffer_add ⟨[], 0⟩ [] 0 false = some (0, ⟨[], 0⟩) ∧
    ¬ ∃ r b1, buffer_add ⟨[], 0⟩ [] 0 false = some (r, b1) ∧ 0 < r := by
  have e := buffer_add_nil_eq 0 [] 0 (le_refl 0) (by decide) (by simp) false
  have e1 := buffer_add_nil_eq 0 [] 0 (le_refl 0) (by decide) (by simp) true
  simp only [Bool.false_eq_true, if_false, if_true] at e e1
  refine ⟨⟨_, e1, rfl⟩, e, ?_⟩
  rintro ⟨r, b1, h, hr⟩
  rw [e] at h
  simp only [Option.some.injEq, Prod.mk.injEq] at h
  omega

/-- C4, amended: on a buffer whose segments satisfy the segment invariant (storage regions as
`buffer_chain_new` lays them out), when `buffer_add` of `len ≤ INT_MAX` bytes needs a new segment
(with a successful allocation it links one) and the allocation fails, it returns the number `r ≥ 0` of source bytes
not written, with `r > 0` as soon as `len > 0` or the buffer has a segment; the stream afterwards
is the stream before followed by the first `len - r` bytes of `source`, which are the bytes that
fill the free space of the tail segment (none without a tail segment); no segment is added or
removed, and every segment still satisfies the segment invariant. -/
theorem buffer_add_alloc_failure (b : buffer) (source : List UInt8) (len : Int)
    (hi : buffer_inv b) (hr : buffer_region b) (h0 : 0 ≤ len) (hl : len ≤ INT_MAX)
    (hs : len ≤ source.length)
    (hneed : ∃ b2, buffer_add b source len true = some (0, b2) ∧
      b2.head.length = b.head.length + 1) :
    ∃ r b1, buffer_add b source len false = some (r, b1) ∧
      0 ≤ r ∧ r ≤ len ∧ (0 < len → 0 < r) ∧ (b.head ≠ [] → 0 < r) ∧
      buffer_stream b1 = buffer_stream b ++ source.take (len - r).toNat ∧
      (b.head = [] → r = len) ∧
      (∀ c0, buffer_tail b = some c0 →
        len - r = (chain_aligned c0 len).end_ - (chain_aligned c0 len).tail) ∧
      b1.head.length = b.head.length ∧ buffer_inv b1 := by
  obtain ⟨r, b1, a1, a2, a3, _, a5, a6, _, _, _, _, _, a12⟩ :=
    buffer_add_spec b source len false hi hr h0 hl hs
  obtain ⟨b2, n1, n2⟩ := hneed
  obtain ⟨l, d⟩ := b
  rcases buffer_tail_cases ⟨l, d⟩ with ⟨hnil, htl⟩ | ⟨pre, c0, hcat, htl⟩
  · simp only at hnil
    subst hnil
    have e := buffer_add_nil_eq d source len h0 hl hs false
    simp only [Bool.false_eq_true, if_false] at e
    rw [e] at a1
    simp only [Option.some.injEq, Prod.mk.injEq] at a1
    obtain ⟨e1, e2⟩ := a1
    subst e1
    refine ⟨len, b1, by rw [e, e2], a2, a3, fun h => h, fun h => absurd rfl h, a5,
      fun _ => rfl, ?_, a12 rfl, a6⟩
    intro c0 hc0
    rw [htl] at hc0
    exact absurd hc0 (by simp)
  · simp only at hcat
    subst hcat
    have hic0 := hi c0 (by simp)
    have hrc0 := hr c0 (by simp)
    have e := buffer_add_concat_eq pre c0 d source len hic0 hrc0 h0 hl hs false
    have e1 := buffer_add_concat_eq pre c0 d source len hic0 hrc0 h0 hl hs true
    obtain ⟨ai, _, _, _, _, _, _⟩ := chain_aligned_spec c0 len hic0 hrc0
    obtain ⟨c0', c1', c2'⟩ := ai
    simp only at e e1
    by_cases hfit : len ≤ (chain_aligned c0 len).end_ - (chain_aligned c0 len).tail
    · simp only [hfit, if_true] at e1
      rw [e1] at n1
      simp only [Option.some.injEq, Prod.mk.injEq, true_and] at n1
      rw [← n1] at n2
      simp at n2
    · simp only [hfit, if_false, Bool.false_eq_true] at e
      rw [e] at a1
      simp only [Option.some.injEq, Prod.mk.injEq] at a1
      obtain ⟨e2, e3⟩ := a1
      refine ⟨r, b1, by rw [e, e2, e3], a2, a3, fun _ => by omega, fun _ => by omega, a5,
        fun h => absurd h (by simp), ?_, a12 rfl, a6⟩
      intro c hc
      rw [htl] at hc
      simp only [Option.some.injEq] at hc
      rw [← hc]
      omega

/-- Witness of C4 (amended): three bytes for a full segment of two bytes. -/
theorem buffer_add_alloc_failure_witness :
    buffer_inv ⟨[⟨0, 2, 2, [7, 8]⟩], 0⟩ ∧ buffer_region ⟨[⟨0, 2, 2, [7, 8]⟩], 0⟩ ∧
    (0 : Int) ≤ 3 ∧ (3 : Int) ≤ INT_MAX ∧ (3 : Int) ≤ ([1, 2, 3] : List UInt8).length ∧
    (∃ b2, buffer_add ⟨[⟨0, 2, 2, [7, 8]⟩], 0⟩ [1, 2, 3] 3 true = some (0, b2) ∧
      b2.head.length = (⟨[⟨0, 2, 2, [7, 8]⟩], 0⟩ : buffer).head.length + 1) ∧
    ∃ r b1, buffer_add ⟨[⟨0, 2, 2, [7, 8]⟩], 0⟩ [1, 2, 3] 3 false = some (r, b1) ∧
      0 ≤ r ∧ r ≤ 3 ∧ ((0 : Int) < 3 → 0 < r) ∧
      ((⟨[⟨0, 2, 2, [7, 8]⟩], 0⟩ : buffer).head ≠ [] → 0 < r) ∧
      buffer_stream b1 = buffer_stream ⟨[⟨0, 2, 2, [7, 8]⟩], 0⟩ ++ [1, 2, 3].take (3 - r).toNat ∧
      ((⟨[⟨0, 2, 2, [7, 8]⟩], 0⟩ : buffer).head = [] → r = 3) ∧
      (∀ c0, buffer_tail ⟨[⟨0, 2, 2, [7, 8]⟩], 0⟩ = some c0 →
        3 - r = (chain_aligned c0 3).end_ - (chain_aligned c0 3).tail) ∧
      b1.head.length = (⟨[⟨0, 2, 2, [7, 8]⟩], 0⟩ : buffer).head.length ∧ buffer_inv b1 :=
  ⟨by decide, by decide, by decide, by decide, by decide, ⟨_, rfl, rfl⟩,
    buffer_add_alloc_failure ⟨[⟨0, 2, 2, [7, 8]⟩], 0⟩ [1, 2, 3] 3 (by decide) (by decide)
      (by decide) (by decide) (by decide) ⟨_, rfl, rfl⟩⟩

/-! ## Drain -/

/-- C5, counterexample: a first segment that holds `2 ^ 31` bytes and a second one that holds
one byte make a stream of `2 ^ 31 + 1` bytes; `buffer_drain` of `2 ^ 31 + 1` bytes does not
leave the stream without its first `2 ^ 31 + 1` bytes (the byte of the second segment stays). -/
theorem buffer_drain_2g_stream :
    buffer_inv ⟨[chain_2g, ⟨0, 1, 1, [9]⟩], 0⟩ ∧ buffer_region ⟨[chain_2g, ⟨0, 1, 1, [9]⟩], 0⟩ ∧
    buffer_stream (buffer_drain ⟨[chain_2g, ⟨0, 1, 1, [9]⟩], 0⟩ 2147483649)
      ≠ (buffer_stream ⟨[chain_2g, ⟨0, 1, 1, [9]⟩], 0⟩).drop
          (min 2147483649 (buffer_content_len ⟨[chain_2g, ⟨0, 1, 1, [9]⟩], 0⟩)).toNat := by
  obtain ⟨g1, g2⟩ := chain_2g_spec
  have hc2 : chain_inv ⟨0, 1, 1, [9]⟩ ∧ chain_region ⟨0, 1, 1, [9]⟩ := by
    constructor <;> decide
  have hi : buffer_inv ⟨[chain_2g, ⟨0, 1, 1, [9]⟩], 0⟩ := by
    intro c hc
    simp only [List.mem_cons, List.mem_singleton, List.not_mem_nil, or_false] at hc
    rcases hc with e | e <;> rw [e]
    · exact g1
    · exact hc2.1
  have hr : buffer_region ⟨[chain_2g, ⟨0, 1, 1, [9]⟩], 0⟩ := by
    intro c hc
    simp only [List.mem_cons, List.mem_singleton, List.not_mem_nil, or_false] at hc
    rcases hc with e | e <;> rw [e]
    · exact g2
    · exact hc2.2
  refine ⟨hi, hr, ?_⟩
  have hlen := buffer_content_len_eq _ hi hr
  have htot : buffer_content_len ⟨[chain_2g, ⟨0, 1, 1, [9]⟩], 0⟩ = 2147483649 := by
    simp [buffer_content_len, content_len, chain_2g]
  rw [buffer_drain_2g_next chain_2g ⟨0, 1, 1, [9]⟩ 0 rfl rfl, htot, min_self,
    List.drop_eq_nil_of_le (by omega)]
  simp [buffer_stream, stream_of, chain_content, mem_read, chain_2g]

/-- C5, amended: on a buffer whose segments satisfy the segment invariant (each with a storage
region of `end - head` bytes) and hold at most `INT_MAX` bytes each, `buffer_drain` of `n` bytes leaves the stream without its first
`min n total` bytes, the other bytes as they were and in order; with `n = 0` the buffer is not
changed.  And for calls of `buffer_add` and `buffer_drain` in any order on a buffer without
segments, the appended-minus-drained stream never above `INT_MAX` bytes, the stream of the buffer
is the appended-minus-drained stream, and `buffer_remove` extracts exactly it. -/
theorem buffer_drain_stream (b : buffer) (n : Int) (ops : List stream_op) (d : Nat)
    (hi : buffer_inv b) (hr : buffer_region b) (hsm : buffer_small b)
    (h0 : 0 ≤ n) (hn : n < 18446744073709551616) (hnet : net_small [] ops) :
    buffer_stream (buffer_drain b n)
        = (buffer_stream b).drop (min n (buffer_content_len b)).toNat ∧
      buffer_drain b 0 = b ∧
      ∃ b1, buffer_run ⟨[], d⟩ ops = some b1 ∧ buffer_stream b1 = net_stream [] ops ∧
        ∃ b2, buffer_remove b1 (byte_len (net_stream [] ops))
          = some (byte_len (net_stream [] ops), net_stream [] ops, b2) := by
  obtain ⟨a1, _⟩ := buffer_drain_spec b n hi hr hsm h0 hn
  refine ⟨?_, by simp [buffer_drain], ?_⟩
  · rw [a1, list_drop_min _ _ _ (buffer_content_len_eq b hi hr).symm]
  · obtain ⟨b1, c1, ⟨ci, cr, csh⟩, c3, c4⟩ := buffer_run_spec ops ⟨[], d⟩ (buffer_wf_nil d)
      (by simp [buffer_content_len, content_len, INT_MAX]) hnet
    have c3' : buffer_stream b1 = net_stream [] ops := c3
    have hc : buffer_content_len b1 = byte_len (net_stream [] ops) := by
      rw [buffer_content_len_eq b1 ci cr, c3', byte_len_eq]
    have hsm1 : buffer_small b1 := chain_small_of_content_len b1.head ci c4
    obtain ⟨r, dest, b2, e1, _, _, _, _, _, _, _, e9⟩ :=
      buffer_remove_spec b1 (byte_len (net_stream [] ops)) ci cr hsm1 (byte_len_nonneg _)
        (by rw [← hc]; exact c4)
    obtain ⟨_, d2, d3, _⟩ := e9 csh
    have ht : (byte_len (net_stream [] ops)).toNat = (net_stream [] ops).length := by
      rw [byte_len_eq]; omega
    refine ⟨b1, c1, c3', b2, ?_⟩
    rw [e1, d2, d3, hc, c3', min_self, ht, List.take_length]

/-- Witness of C5 (amended): scenario B, and a short run of appends and drains. -/
theorem buffer_drain_stream_witness :
    buffer_inv ⟨[⟨0, 5, 8, [104, 101, 108, 108, 111, 0, 0, 0]⟩], 0⟩ ∧
    buffer_region ⟨[⟨0, 5, 8, [104, 101, 108, 108, 111, 0, 0, 0]⟩], 0⟩ ∧
    buffer_small ⟨[⟨0, 5, 8, [104, 101, 108, 108, 111, 0, 0, 0]⟩], 0⟩ ∧
    (0 : Int) ≤ 2 ∧ (2 : Int) < 18446744073709551616 ∧
    net_small [] [stream_op.add [1, 2, 3], stream_op.drain 2, stream_op.add [4]] ∧
    (buffer_stream (buffer_drain ⟨[⟨0, 5, 8, [104, 101, 108, 108, 111, 0, 0, 0]⟩], 0⟩ 2)
        = (buffer_stream ⟨[⟨0, 5, 8, [104, 101, 108, 108, 111, 0, 0, 0]⟩], 0⟩).drop
          (min 2 (buffer_content_len
            ⟨[⟨0, 5, 8, [104, 101, 108, 108, 111, 0, 0, 0]⟩], 0⟩)).toNat ∧
      buffer_drain ⟨[⟨0, 5, 8, [104, 101, 108, 108, 111, 0, 0, 0]⟩], 0⟩ 0
        = ⟨[⟨0, 5, 8, [104, 101, 108, 108, 111, 0, 0, 0]⟩], 0⟩ ∧
      ∃ b1, buffer_run ⟨[], 0⟩ [stream_op.add [1, 2, 3], stream_op.drain 2, stream_op.add [4]]
          = some b1 ∧
        buffer_stream b1
          = net_stream [] [stream_op.add [1, 2, 3], stream_op.drain 2, stream_op.add [4]] ∧
        ∃ b2, buffer_remove b1 (byte_len
            (net_stream [] [stream_op.add [1, 2, 3], stream_op.drain 2, stream_op.add [4]]))
          = some (byte_len
            (net_stream [] [stream_op.add [1, 2, 3], stream_op.drain 2, stream_op.add [4]]),
            net_stream [] [stream_op.add [1, 2, 3], stream_op.drain 2, stream_op.add [4]],
            b2)) :=
  ⟨by decide, by decide, by decide, by decide, by decide, by decide,
    buffer_drain_stream ⟨[⟨0, 5, 8, [104, 101, 108, 108, 111, 0, 0, 0]⟩], 0⟩ 2
      [stream_op.add [1, 2, 3], stream_op.drain 2, stream_op.add [4]] 0
      (by decide) (by decide) (by decide) (by decide) (by decide) (by decide)⟩

/-- C6, counterexample: a segment that holds `2 ^ 31` bytes is still there after
`buffer_drain` of `2 ^ 32` bytes, more than the buffer holds. -/
theorem buffer_drain_2g_keeps_segment :
    buffer_inv ⟨[chain_2g], 0⟩ ∧ buffer_content_len ⟨[chain_2g], 0⟩ < 4294967296 ∧
      (buffer_drain ⟨[chain_2g], 0⟩ 4294967296).head ≠ [] := by
  refine ⟨?_, ?_, ?_⟩
  · intro c hc
    simp only [List.mem_singleton] at hc
    rw [hc]
    exact chain_2g_spec.1
  · simp [buffer_content_len, content_len, chain_2g]
  · rw [buffer_drain_2g chain_2g 0 rfl rfl]
    simp

/-- C6, amended: on a buffer whose segments satisfy the segment invariant and hold at most
`INT_MAX` bytes each, `buffer_drain` of more bytes than the buffer holds leaves no segment at all
(`head` and `tail` are both none); on a buffer without segments `buffer_drain` changes nothing,
for every count. -/
theorem buffer_drain_empties (b : buffer) (n : Int) (hi : buffer_inv b) (hsm : buffer_small b)
    (hn : n < 18446744073709551616) (hgt : buffer_content_len b < n) :
    (buffer_drain b n).head = [] ∧ buffer_tail (buffer_drain b n) = none ∧
      ∀ (d : Nat) (m : Int), buffer_drain ⟨[], d⟩ m = ⟨[], d⟩ := by
  have hnn := content_len_nonneg b.head hi
  unfold buffer_content_len at hgt
  have hne : n ≠ 0 := by omega
  have e : (buffer_drain b n).head = [] := by
    rw [buffer_drain_eq b n hi hsm (by omega) hn]
    simp only [hne, if_false]
    exact chain_drain_empty b.head n hi hgt
  refine ⟨e, by simp [buffer_tail, e], ?_⟩
  intro d m
  unfold buffer_drain
  split
  · rfl
  · rfl

/-- Witness of C6 (amended): six bytes drained from a buffer that holds five. -/
theorem buffer_drain_empties_witness :
    buffer_inv ⟨[⟨0, 5, 8, [104, 101, 108, 108, 111, 0, 0, 0]⟩], 0⟩ ∧
    buffer_small ⟨[⟨0, 5, 8, [104, 101, 108, 108, 111, 0, 0, 0]⟩], 0⟩ ∧
    (6 : Int) < 18446744073709551616 ∧
    buffer_content_len ⟨[⟨0, 5, 8, [104, 101, 108, 108, 111, 0, 0, 0]⟩], 0⟩ < 6 ∧
    ((buffer_drain ⟨[⟨0, 5, 8, [104, 101, 108, 108, 111, 0, 0, 0]⟩], 0⟩ 6).head = [] ∧
      buffer_tail (buffer_drain ⟨[⟨0, 5, 8, [104, 101, 108, 108, 111, 0, 0, 0]⟩], 0⟩ 6) = none ∧
      ∀ (d : Nat) (m : Int), buffer_drain ⟨[], d⟩ m = ⟨[], d⟩) :=
  ⟨by decide, by decide, by decide, by decide,
    buffer_drain_empties ⟨[⟨0, 5, 8, [104, 101, 108, 108, 111, 0, 0, 0]⟩], 0⟩ 6
      (by decide) (by decide) (by decide) (by decide)⟩

/-! ## The segment invariant -/

/-- C7, counterexample: after `buffer_add` of `2 ^ 30 + 1` bytes and of `2 ^ 30 - 1` bytes the
one segment of the buffer satisfies the segment invariant, and after `buffer_drain` of `2 ^ 32`
bytes, a state reached from the buffer without segments as well, it does not (`data` is past
`tail`). -/
theorem buffer_drain_2g_breaks_invariant :
    ∃ b, buffer_run ⟨[], 0⟩
        [stream_op.add (zero_bytes 1073741825), stream_op.add (zero_bytes 1073741823)]
        = some b ∧
      buffer_reach (fun _ => True) b ∧ buffer_inv b ∧
      buffer_reach (fun _ => True) (buffer_drain b 4294967296) ∧
      ¬ buffer_inv (buffer_drain b 4294967296) := by
  obtain ⟨c, hrun, hreach, hd, ht, he, _⟩ := buffer_reach_2g
  refine ⟨⟨[c], 0⟩, hrun, hreach, ?_, ?_, ?_⟩
  · intro x hx
    simp only [List.mem_singleton] at hx
    rw [hx]
    unfold chain_inv
    omega
  · exact buffer_reach.drain _ _ hreach (by omega) (by omega) trivial
  · rw [buffer_drain_2g c 0 hd ht]
    intro h
    have := h { c with data := 4294967296 } (by simp)
    unfold chain_inv at this
    simp only at this
    omega

/-- C7, amended: if every segment of the buffer satisfies `head ≤ data ≤ tail ≤ end` (with a
storage region as `buffer_chain_new` lays it out), holds at most `INT_MAX` bytes and has at most
`INT_MAX` bytes outside its content, then every segment
satisfies `head ≤ data ≤ tail ≤ end` after `buffer_add` (whether the allocation succeeds or
fails), `buffer_drain`, `buffer_remove` and `buffer_add_fd` (with reads that return at most the
number of bytes requested, however the call ends); hence it holds in every state reached from a
buffer without segments through buffers whose segments hold at most `INT_MAX` bytes. -/
theorem buffer_inv_preserved (b : buffer) (hi : buffer_inv b) (hr : buffer_region b)
    (hsm : buffer_small b) (hsl : buffer_slack_small b) :
    (∀ (source : List UInt8) (len : Int) (malloc_ok : Bool),
      0 ≤ len → len ≤ INT_MAX → len ≤ source.length →
      ∃ r b1, buffer_add b source len malloc_ok = some (r, b1) ∧ buffer_inv b1) ∧
    (∀ n : Int, 0 ≤ n → n < 18446744073709551616 → buffer_inv (buffer_drain b n)) ∧
    (∀ len : Int, 0 ≤ len → len ≤ INT_MAX →
      ∃ r dest b1, buffer_remove b len = some (r, dest, b1) ∧ buffer_inv b1) ∧
    (∀ (len : Int) (malloc_ok : Nat → Bool) (reads : List (Int → read_result)) (r : Int)
      (eof : Bool) (b1 : buffer), len ≤ INT_MAX →
      (∀ rd ∈ reads, ∀ count, read_within count (rd count)) →
      buffer_add_fd b len malloc_ok reads = some (r, eof, b1) → buffer_inv b1) ∧
    (∀ b1, buffer_reach buffer_small b1 → buffer_inv b1) := by
  refine ⟨?_, ?_, ?_, ?_, ?_⟩
  · intro source len malloc_ok h0 hl hs
    obtain ⟨r, b1, a1, _, _, _, _, a6, _⟩ := buffer_add_spec b source len malloc_ok hi hr h0 hl hs
    exact ⟨r, b1, a1, a6⟩
  · intro n h0 hn
    exact (buffer_drain_spec b n hi hr hsm h0 hn).2.1
  · intro len h0 hl
    obtain ⟨r, dest, b1, a1, a2, _⟩ := buffer_remove_spec b len hi hr hsm h0 hl
    exact ⟨r, dest, b1, a1, a2⟩
  · intro len malloc_ok reads r eof b1 hl hrd h
    have hfd : buffer_fd_inv b :=
      ⟨hi, hr, fun c hc => hsl c (List.mem_of_mem_getLast? hc)⟩
    exact (buffer_add_fd_inv b len malloc_ok reads r eof b1 hfd hl hrd h).1.1
  · intro b1 h
    exact (buffer_reach_wf b1 h).1.1

/-- Witness of C7 (amended): a segment of four bytes that holds one byte, one byte drained. -/
theorem buffer_inv_preserved_witness :
    buffer_inv ⟨[⟨1, 2, 4, [7, 8, 0, 0]⟩], 0⟩ ∧ buffer_region ⟨[⟨1, 2, 4, [7, 8, 0, 0]⟩], 0⟩ ∧
    buffer_small ⟨[⟨1, 2, 4, [7, 8, 0, 0]⟩], 0⟩ ∧
    buffer_slack_small ⟨[⟨1, 2, 4, [7, 8, 0, 0]⟩], 0⟩ ∧
    ((∀ (source : List UInt8) (len : Int) (malloc_ok : Bool),
      0 ≤ len → len ≤ INT_MAX → len ≤ source.length →
      ∃ r b1, buffer_add ⟨[⟨1, 2, 4, [7, 8, 0, 0]⟩], 0⟩ source len malloc_ok = some (r, b1) ∧
        buffer_inv b1) ∧
    (∀ n : Int, 0 ≤ n → n < 18446744073709551616 →
      buffer_inv (buffer_drain ⟨[⟨1, 2, 4, [7, 8, 0, 0]⟩], 0⟩ n)) ∧
    (∀ len : Int, 0 ≤ len → len ≤ INT_MAX →
      ∃ r dest b1, buffer_remove ⟨[⟨1, 2, 4, [7, 8, 0, 0]⟩], 0⟩ len = some (r, dest, b1) ∧
        buffer_inv b1) ∧
    (∀ (len : Int) (malloc_ok : Nat → Bool) (reads : List (Int → read_result)) (r : Int)
      (eof : Bool) (b1 : buffer), len ≤ INT_MAX →
      (∀ rd ∈ reads, ∀ count, read_within count (rd count)) →
      buffer_add_fd ⟨[⟨1, 2, 4, [7, 8, 0, 0]⟩], 0⟩ len malloc_ok reads = some (r, eof, b1) →
      buffer_inv b1) ∧
    (∀ b1, buffer_reach buffer_small b1 → buffer_inv b1)) :=
  ⟨by decide, by decide, by decide, by decide,
    buffer_inv_preserved ⟨[⟨1, 2, 4, [7, 8, 0, 0]⟩], 0⟩ (by decide) (by decide) (by decide)
      (by decide)⟩

/-! ## The length counter and formatted output -/

/-- C8: after `buffer_add` of the five bytes of "hello" to a buffer without segments and with
`data_len = 0` the buffer holds five bytes, but `buffer_data_len` still returns 0: no operation
writes the counter. -/
theorem buffer_data_len_stale :
    ∃ b, buffer_add ⟨[], 0⟩ [104, 101, 108, 108, 111] 5 true = some (0, b) ∧
      buffer_content_len b = 5 ∧ buffer_data_len b = 0 :=
  ⟨_, rfl, by decide, by decide⟩

/-- C9: with the rendered string "hi", of two characters, `buffer_add_vprintf` and
`buffer_add_printf` on a buffer without segments append the two characters and return 0, the
value `buffer_add` returns, not the number of characters; when `vasprintf` fails they
return -1. -/
theorem buffer_add_printf_returns_zero :
    ∃ b, buffer_add_vprintf ⟨[], 0⟩ (some [104, 105]) true = some (0, b) ∧
      buffer_add_printf ⟨[], 0⟩ (some [104, 105]) true = some (0, b) ∧
      buffer_stream b = [104, 105] ∧
      buffer_add_vprintf ⟨[], 0⟩ none true = some (-1, ⟨[], 0⟩) ∧
      buffer_add_printf ⟨[], 0⟩ none true = some (-1, ⟨[], 0⟩) :=
  ⟨_, rfl, rfl, by decide, rfl, rfl⟩

/-! ## Growth of the storage -/

/-- C10: for a request of `len` bytes with `0 ≤ len ≤ INT_MAX` the loop of `buffer_chain_new`
ends (with the same result for every fuel from 64 on), and with a successful allocation the
function yields a segment with `data = tail = head` whose capacity `end - head` is the smallest
power of two that is at least 512 and at least `len`; `buffer_add` of `len` bytes to a buffer
without segments then yields a chain of exactly one segment, of that capacity. -/
theorem buffer_chain_new_capacity (len : Int) (h0 : 0 ≤ len) (hl : len ≤ INT_MAX) :
    ∃ cap : Nat,
      (∀ fuel, 64 ≤ fuel → buffer_chain_new_loop fuel 512 len.toNat = some cap) ∧
      (∃ j, cap = 2 ^ j) ∧ 512 ≤ cap ∧ len ≤ cap ∧
      (∀ j : Nat, 512 ≤ 2 ^ j → len ≤ ((2 ^ j : Nat) : Int) → cap ≤ 2 ^ j) ∧
      buffer_chain_new len true
        = some (some { data := 0, tail := 0, end_ := cap, head := List.replicate cap 0 }) ∧
      ∀ (d : Nat) (source : List UInt8), len ≤ source.length →
        ∃ c, buffer_add ⟨[], d⟩ source len true = some (0, ⟨[c], d⟩) ∧
          c.end_ - 0 = cap ∧ c.data = 0 ∧ c.tail = len := by
  have hl1 := hl
  unfold INT_MAX at hl1
  obtain ⟨j, a1, a2, a3, a4, a5, a6⟩ := chain_cap_spec len.toNat (by omega)
  obtain ⟨c1, c2, c3, c4⟩ := chain_cap_bounds len.toNat (by omega)
  refine ⟨chain_cap len.toNat, a6, ⟨j, a3⟩, c1, by omega, ?_, ?_, ?_⟩
  · intro i hi1 hi2
    rw [a3]
    rcases a5 with a5 | a5
    · rw [a5]; exact hi1
    · apply Nat.pow_le_pow_right (by norm_num)
      by_contra hc
      have : 2 ^ i ≤ 2 ^ (j - 1) := Nat.pow_le_pow_right (by norm_num) (by omega)
      omega
  · rw [buffer_chain_new_eq len (by omega)]
    rfl
  · intro d source hs
    rw [buffer_add_nil_eq d source len h0 hl hs]
    have hb : (((source.take len.toNat).length : Nat) : Int) = len := by simp; omega
    obtain ⟨_, _, _, _, s5, s6, s7⟩ := chain_store_fresh_spec len _ h0 hl1 hb
    exact ⟨_, rfl, by rw [s7]; simp, s5, s6⟩

/-- Witness of C10: a request of 600 bytes. -/
theorem buffer_chain_new_capacity_witness :
    (0 : Int) ≤ 600 ∧ (600 : Int) ≤ INT_MAX ∧
    ∃ cap : Nat,
      (∀ fuel, 64 ≤ fuel → buffer_chain_new_loop fuel 512 (600 : Int).toNat = some cap) ∧
      (∃ j, cap = 2 ^ j) ∧ 512 ≤ cap ∧ (600 : Int) ≤ cap ∧
      (∀ j : Nat, 512 ≤ 2 ^ j → (600 : Int) ≤ ((2 ^ j : Nat) : Int) → cap ≤ 2 ^ j) ∧
      buffer_chain_new 600 true
        = some (some { data := 0, tail := 0, end_ := cap, head := List.replicate cap 0 }) ∧
      ∀ (d : Nat) (source : List UInt8), (600 : Int) ≤ source.length →
        ∃ c, buffer_add ⟨[], d⟩ source 600 true = some (0, ⟨[c], d⟩) ∧
          c.end_ - 0 = cap ∧ c.data = 0 ∧ c.tail = 600 :=
  ⟨by decide, by decide, buffer_chain_new_capacity 600 (by decide) (by decide)⟩

/-! ## Reading from a descriptor: the rounds of the loop -/

/-- The first part of a round of `buffer_add_fd` on a buffer without segments. -/
theorem buffer_add_fd_chain_nil (d : Nat) (len : Int) (malloc_ok : Bool) :
    buffer_add_fd_chain ⟨[], d⟩ len malloc_ok =
      some (if malloc_ok then (⟨[chain_fresh 4096], d⟩, some (chain_fresh 4096, true))
        else (⟨[], d⟩, none)) := by
  unfold buffer_add_fd_chain
  simp only [buffer_tail, List.getLast?_nil, buffer_expand_eq _ 4096 (by omega) (by omega)]
  cases malloc_ok <;> simp [buffer_add_chain]

/-- The first part of a round of `buffer_add_fd` on a buffer with a tail segment. -/
theorem buffer_add_fd_chain_concat (pre : List buffer_chain) (c0 : buffer_chain) (d : Nat)
    (len : Int) (malloc_ok : Bool) :
    buffer_add_fd_chain ⟨pre ++ [c0], d⟩ len malloc_ok =
      some (if (chain_aligned c0 len).tail < (chain_aligned c0 len).end_ then
          (⟨pre ++ [chain_aligned c0 len], d⟩, some (chain_aligned c0 len, false))
        else if malloc_ok then
          (⟨pre ++ [chain_aligned c0 len, chain_fresh 4096], d⟩, some (chain_fresh 4096, true))
        else (⟨pre ++ [chain_aligned c0 len], d⟩, none)) := by
  unfold buffer_add_fd_chain
  simp only [buffer_tail, List.getLast?_concat]
  rw [show (if buffer_chain_should_align c0 len then buffer_chain_align c0 else c0)
    = chain_aligned c0 len from rfl]
  generalize chain_aligned c0 len = c
  simp only [buffer_set_tail_concat, buffer_expand_eq _ 4096 (by omega) (by omega)]
  by_cases hroom : c.tail < c.end_
  · simp [hroom]
  · cases malloc_ok <;> simp [hroom, buffer_add_chain]

/-- The loop of `buffer_add_fd` and its round-by-round form have the same result. -/
theorem buffer_add_fd_run_result (reads : List (Int → read_result)) :
    ∀ (malloc_ok : Nat → Bool) (k : Nat) (b : buffer) (len remain : Int),
      buffer_add_fd_loop reads malloc_ok k b len remain =
        (buffer_add_fd_run reads malloc_ok k b len remain).2.map (fun x => x.2) := by
  induction reads with
  | nil => intros; rfl
  | cons rd reads ih =>
    intro malloc_ok k b len remain
    unfold buffer_add_fd_loop buffer_add_fd_run buffer_add_fd_round
    cases hc : buffer_add_fd_chain b len (malloc_ok k) with
    | none => rfl
    | some p =>
      obtain ⟨b0, res⟩ := p
      cases res with
      | none => rfl
      | some cu =>
        obtain ⟨chain, used⟩ := cu
        simp only [buffer_add_fd_begin]
        generalize (if remain < int_of (chain.end_ - chain.tail) then remain
          else int_of (chain.end_ - chain.tail)) = av
        generalize rd (size_t_of av) = r
        by_cases h1 : int_of r.ret < 0
        · simp only [h1, if_true]
          cases r.errno
          · by_cases h2 : remain = 0
            · simp [h2]
            · simp [h2, ih]
          all_goals simp
        · simp only [h1, if_false]
          by_cases h3 : int_of r.ret = 0
          · simp [h3]
          · simp only [h3, if_false]
            by_cases h4 : int_of (remain - int_of r.ret) = 0
            · simp [h4]
            · simp [h4, ih]

/-- The count that a round of `buffer_add_fd` passes to `read`: the smaller of `remain` and the
free space of the segment, unless the free space is `2 ^ 31` bytes, which the `int` variable
`avalible` cannot hold. -/
theorem fd_count_eq (remain free : Int) (h0 : 0 ≤ remain) (h1 : remain ≤ INT_MAX)
    (hf0 : 0 < free) (hf1 : free ≤ 2147483648) :
    size_t_of (if remain < int_of free then remain else int_of free) =
      if free ≤ INT_MAX then min remain free else 18446744071562067968 := by
  unfold INT_MAX at *
  by_cases hf : free ≤ 2147483647
  · rw [int_of_eq free (by omega) hf, if_pos hf]
    by_cases hlt : remain < free
    · rw [if_pos hlt, min_eq_left (by omega)]
      exact size_t_of_eq _ h0 (by omega)
    · rw [if_neg hlt, min_eq_right (by omega)]
      exact size_t_of_eq _ (by omega) (by omega)
  · have hfe : free = 2147483648 := by omega
    subst hfe
    have e : int_of 2147483648 = -2147483648 := by decide
    rw [e, if_neg hf, if_neg (by omega)]
    decide

/-- The bytes delivered by one call of `read`. -/
theorem fd_delivered_one (call : fd_call) :
    fd_delivered [call] = if 0 < call.result.ret then call.result.bytes else [] := by
  simp [fd_delivered]

theorem fd_delivered_append (l1 l2 : List fd_call) :
    fd_delivered (l1 ++ l2) = fd_delivered l1 ++ fd_delivered l2 := by
  induction l1 with
  | nil => rfl
  | cons c l ih => simp [fd_delivered, ih]

theorem byte_len_append (s t : List UInt8) : byte_len (s ++ t) = byte_len s + byte_len t := by
  simp [byte_len_eq]

/-- The call of `read` that a round makes from the label `begin` on. -/
theorem buffer_add_fd_begin_call (rd : Int → read_result) (b0 : buffer) (chain : buffer_chain)
    (used : Bool) (len remain : Int) :
    (buffer_add_fd_begin rd b0 chain used len remain).1 =
      [{ remain := remain, free := chain.end_ - chain.tail,
         count := size_t_of (if remain < int_of (chain.end_ - chain.tail) then remain
           else int_of (chain.end_ - chain.tail)),
         result := rd (size_t_of (if remain < int_of (chain.end_ - chain.tail) then remain
           else int_of (chain.end_ - chain.tail))) }] := by
  unfold buffer_add_fd_begin
  simp only
  generalize (if remain < int_of (chain.end_ - chain.tail) then remain
    else int_of (chain.end_ - chain.tail)) = av
  generalize rd (size_t_of av) = r
  by_cases h1 : int_of r.ret < 0
  · simp only [h1, if_true]
    cases r.errno
    · by_cases h2 : remain = 0 <;> simp [h2]
    all_goals rfl
  · simp only [h1, if_false]
    by_cases h3 : int_of r.ret = 0
    · simp [h3]
    · simp only [h3, if_false]
      by_cases h4 : int_of (remain - int_of r.ret) = 0 <;> simp [h4]

/-- A round from the label `begin` on, when `read` fails. -/
theorem buffer_add_fd_begin_neg (rd : Int → read_result) (pre : List buffer_chain)
    (chain : buffer_chain) (d : Nat) (used : Bool) (len remain count : Int)
    (hc : size_t_of (if remain < int_of (chain.end_ - chain.tail) then remain
      else int_of (chain.end_ - chain.tail)) = count)
    (hneg : (rd count).ret = -1) :
    (buffer_add_fd_begin rd ⟨pre ++ [chain], d⟩ chain used len remain).2 =
      match (rd count).errno with
      | errno_t.EINTR =>
        if remain ≠ 0 then fd_next.again used ⟨pre ++ [chain], d⟩ remain
        else fd_next.stop fd_stop.interrupted (int_of (len - remain)) false ⟨pre ++ [chain], d⟩
      | errno_t.EAGAIN =>
        fd_next.stop fd_stop.would_block (int_of (len - remain)) false ⟨pre ++ [chain], d⟩
      | errno_t.ENOTCONN =>
        fd_next.stop fd_stop.would_block (int_of (len - remain)) false ⟨pre ++ [chain], d⟩
      | errno_t.other => fd_next.stop fd_stop.read_failed (-1) false ⟨pre ++ [chain], d⟩ := by
  unfold buffer_add_fd_begin
  simp only [hc]
  generalize rd count = r at hneg ⊢
  have e : int_of r.ret = -1 := by rw [hneg]; decide
  have hn : ¬ (0 : Int) < r.ret := by omega
  simp only [e, hn, if_false, buffer_set_tail_concat, Int.reduceNeg, Int.reduceLT, if_true]
  cases r.errno
  · by_cases h2 : remain = 0 <;> simp [h2]
  all_goals rfl

/-- A round from the label `begin` on, when `read` returns `0`. -/
theorem buffer_add_fd_begin_zero (rd : Int → read_result) (pre : List buffer_chain)
    (chain : buffer_chain) (d : Nat) (used : Bool) (len remain count : Int)
    (hc : size_t_of (if remain < int_of (chain.end_ - chain.tail) then remain
      else int_of (chain.end_ - chain.tail)) = count)
    (hz : (rd count).ret = 0) :
    (buffer_add_fd_begin rd ⟨pre ++ [chain], d⟩ chain used len remain).2 =
      fd_next.stop fd_stop.end_of_file (int_of (len - remain)) true ⟨pre ++ [chain], d⟩ := by
  unfold buffer_add_fd_begin
  simp only [hc]
  generalize rd count = r at hz ⊢
  have e : int_of r.ret = 0 := by rw [hz]; decide
  have hn : ¬ (0 : Int) < r.ret := by omega
  simp only [e, hn, if_false, buffer_set_tail_concat, lt_self_iff_false, if_true]

/-- A round from the label `begin` on, when `read` delivers bytes. -/
theorem buffer_add_fd_begin_pos (rd : Int → read_result) (pre : List buffer_chain)
    (chain : buffer_chain) (d : Nat) (used : Bool) (len remain count : Int)
    (hc : size_t_of (if remain < int_of (chain.end_ - chain.tail) then remain
      else int_of (chain.end_ - chain.tail)) = count)
    (hp : 0 < (rd count).ret) (hle : (rd count).ret ≤ remain) (hrem : remain ≤ INT_MAX)
    (hb : (((rd count).bytes.length : Nat) : Int) = (rd count).ret) :
    (buffer_add_fd_begin rd ⟨pre ++ [chain], d⟩ chain used len remain).2 =
      if remain - (rd count).ret ≠ 0 then
        fd_next.again used ⟨pre ++ [chain_store chain (rd count).bytes], d⟩
          (remain - (rd count).ret)
      else
        fd_next.stop fd_stop.complete (int_of (len - (remain - (rd count).ret))) false
          ⟨pre ++ [chain_store chain (rd count).bytes], d⟩ := by
  unfold buffer_add_fd_begin
  simp only [hc]
  generalize rd count = r at hp hle hb ⊢
  unfold INT_MAX at hrem
  have e : int_of r.ret = r.ret := int_of_eq _ (by omega) (by omega)
  have e2 : int_of (remain - r.ret) = remain - r.ret := int_of_eq _ (by omega) (by omega)
  have hn : ¬ r.ret < 0 := by omega
  have hz : ¬ r.ret = 0 := by omega
  have hs : ({ data := chain.data, tail := chain.tail + r.ret, end_ := chain.end_,
               head := mem_write chain.head chain.tail r.bytes } : buffer_chain)
      = chain_store chain r.bytes := by
    unfold chain_store
    rw [hb]
  simp only [e, e2, hn, hz, hp, if_false, if_true, buffer_set_tail_concat, hs]
  by_cases h4 : remain - r.ret = 0 <;> simp [h4]

theorem buffer_tail_concat (pre : List buffer_chain) (c : buffer_chain) (d : Nat) :
    buffer_tail ⟨pre ++ [c], d⟩ = some c := by
  simp [buffer_tail]

/-- The buffer after a call of `read` that delivered nothing. -/
theorem fd_round_after_same (b : buffer) (call : fd_call) (hi : buffer_inv b)
    (hr : buffer_region b) (h : ¬ 0 < call.result.ret) : fd_round_after b call b := by
  refine ⟨hi, hr, ?_, ?_, rfl⟩
  · simp [fd_delivered_one, h]
  · intro hs
    rcases hs with hs | hs
    · exact hs
    · exact absurd hs h

/-- The buffer after a call of `read` that delivered bytes into the free space of the tail
segment. -/
theorem fd_round_after_store (pre : List buffer_chain) (chain : buffer_chain) (d : Nat)
    (call : fd_call) (hi : ∀ c ∈ pre ++ [chain], chain_inv c)
    (hr : ∀ c ∈ pre ++ [chain], chain_region c) (hp : 0 < call.result.ret)
    (hb : ((call.result.bytes.length : Nat) : Int) = call.result.ret)
    (hfit : call.result.ret ≤ chain.end_ - chain.tail) :
    fd_round_after ⟨pre ++ [chain], d⟩ call
      ⟨pre ++ [chain_store chain call.result.bytes], d⟩ := by
  have hic := hi chain (by simp)
  have hrc := hr chain (by simp)
  obtain ⟨s1, s2, s3⟩ := chain_store_spec chain call.result.bytes hic hrc (by omega)
  refine ⟨mem_concat_of_mem pre chain _ _ hi s1, mem_concat_of_mem pre chain _ _ hr s2, ?_, ?_,
    rfl⟩
  · simp [buffer_stream, stream_of_append, stream_of, s3, fd_delivered_one, hp]
  · intro _ c hc
    rw [buffer_tail_concat] at hc
    simp only [Option.some.injEq] at hc
    rw [← hc]
    obtain ⟨a1, a2, a3⟩ := hic
    obtain ⟨_, a5⟩ := hrc
    unfold chain_slack_small INT_MAX
    rw [chain_store_end, chain_store_tail, chain_store_data]
    omega

/-- A round of `buffer_add_fd` from the label `begin` on: the call of `read` it makes, and where
it leads when the outcome of the call is one the loop can take. -/
theorem buffer_add_fd_begin_spec (rd : Int → read_result) (pre : List buffer_chain)
    (chain : buffer_chain) (d : Nat) (used : Bool) (len remain : Int)
    (hi : ∀ c ∈ pre ++ [chain], chain_inv c) (hr : ∀ c ∈ pre ++ [chain], chain_region c)
    (hroom : chain.tail < chain.end_) (h0 : 0 ≤ remain) (h1 : remain ≤ len)
    (h2 : len ≤ INT_MAX) :
    ∃ call next,
      buffer_add_fd_begin rd ⟨pre ++ [chain], d⟩ chain used len remain = ([call], next) ∧
      call.remain = remain ∧ call.free = chain.end_ - chain.tail ∧
      call.result = rd call.count ∧
      call.count =
        (if call.free ≤ INT_MAX then min remain call.free else 18446744071562067968) ∧
      (fd_admissible call →
        byte_len (fd_delivered [call]) ≤ remain ∧
        (fd_call_stop call = none →
          0 < remain - byte_len (fd_delivered [call]) ∧
          ∃ b1, next = fd_next.again used b1 (remain - byte_len (fd_delivered [call])) ∧
            fd_round_after ⟨pre ++ [chain], d⟩ call b1) ∧
        (∀ s, fd_call_stop call = some s →
          s ≠ fd_stop.alloc_failed ∧
          ∃ b1, next = fd_next.stop s
              (if s = fd_stop.read_failed then -1
                else len - remain + byte_len (fd_delivered [call]))
              (decide (s = fd_stop.end_of_file)) b1 ∧
            fd_round_after ⟨pre ++ [chain], d⟩ call b1)) := by
  obtain ⟨c0', c1', c2'⟩ := hi chain (by simp)
  obtain ⟨hlen, hcap⟩ := hr chain (by simp)
  have hcnt := fd_count_eq remain (chain.end_ - chain.tail) h0 (h1.trans h2) (by omega)
    (by omega)
  generalize hcount : size_t_of (if remain < int_of (chain.end_ - chain.tail) then remain
    else int_of (chain.end_ - chain.tail)) = count at hcnt
  have hcall := buffer_add_fd_begin_call rd ⟨pre ++ [chain], d⟩ chain used len remain
  rw [hcount] at hcall
  have hbi : buffer_inv ⟨pre ++ [chain], d⟩ := hi
  have hbr : buffer_region ⟨pre ++ [chain], d⟩ := hr
  refine ⟨⟨remain, chain.end_ - chain.tail, count, rd count⟩,
    (buffer_add_fd_begin rd ⟨pre ++ [chain], d⟩ chain used len remain).2,
    Prod.ext hcall rfl, rfl, rfl, rfl, hcnt, ?_⟩
  intro hadm
  unfold fd_admissible read_within SSIZE_MAX at hadm
  simp only at hadm
  have h2' := h2
  unfold INT_MAX at h2' hcnt
  have hok : (rd count).ret = -1 ∨ (0 ≤ (rd count).ret ∧ (rd count).ret ≤ remain ∧
      (rd count).ret ≤ chain.end_ - chain.tail ∧
      (((rd count).bytes.length : Nat) : Int) = (rd count).ret) := by
    rcases hadm.1 with h | ⟨a1, a2, a3⟩
    · exact Or.inl h
    · right
      by_cases hf : chain.end_ - chain.tail ≤ 2147483647
      · rw [if_pos hf] at hcnt
        have := min_le_left remain (chain.end_ - chain.tail)
        have := min_le_right remain (chain.end_ - chain.tail)
        exact ⟨a1, by omega, by omega, a3⟩
      · rw [if_neg hf] at hcnt
        have := hadm.2 (by omega)
        exact ⟨a1, this, by omega, a3⟩
  rcases hok with hm1 | ⟨w0, w1, w2, w3⟩
  · -- `read` failed
    have hnp : ¬ (0 : Int) < (rd count).ret := by omega
    have hdel : fd_delivered [(⟨remain, chain.end_ - chain.tail, count, rd count⟩ : fd_call)]
        = [] := by
      simp [fd_delivered_one, hnp]
    have hafter := fd_round_after_same ⟨pre ++ [chain], d⟩
      ⟨remain, chain.end_ - chain.tail, count, rd count⟩ hbi hbr hnp
    rw [hdel, buffer_add_fd_begin_neg rd pre chain d used len remain count hcount hm1]
    have elr : int_of (len - remain) = len - remain := int_of_eq _ (by omega) (by omega)
    simp only [byte_len, sub_zero, add_zero, elr]
    refine ⟨h0, ?_, ?_⟩
    · intro hcs
      cases herr : (rd count).errno <;>
        simp [fd_call_stop, hm1, herr] at hcs
      simp only [hcs, ne_eq, not_false_eq_true, if_true]
      exact ⟨by omega, _, rfl, hafter⟩
    · intro s hcs
      cases herr : (rd count).errno <;>
        simp [fd_call_stop, hm1, herr] at hcs
      · obtain ⟨hz, hs⟩ := hcs
        subst hs
        simp only [hz, ne_eq, not_true_eq_false, if_false]
        exact ⟨by decide, _, by simp, hafter⟩
      all_goals
        subst hcs
        exact ⟨by decide, _, by simp, hafter⟩
  · by_cases hz : (rd count).ret = 0
    · -- `read` returned `0`
      have hnp : ¬ (0 : Int) < (rd count).ret := by omega
      have hdel : fd_delivered [(⟨remain, chain.end_ - chain.tail, count, rd count⟩ : fd_call)]
          = [] := by
        simp [fd_delivered_one, hnp]
      have hafter := fd_round_after_same ⟨pre ++ [chain], d⟩
        ⟨remain, chain.end_ - chain.tail, count, rd count⟩ hbi hbr hnp
      rw [hdel, buffer_add_fd_begin_zero rd pre chain d used len remain count hcount hz]
      have elr : int_of (len - remain) = len - remain := int_of_eq _ (by omega) (by omega)
      simp only [byte_len, sub_zero, add_zero, elr]
      refine ⟨h0, ?_, ?_⟩
      · intro hcs
        simp [fd_call_stop, hz] at hcs
      · intro s hcs
        simp [fd_call_stop, hz] at hcs
        subst hcs
        exact ⟨by decide, _, by simp, hafter⟩
    · -- `read` delivered bytes
      have hp : (0 : Int) < (rd count).ret := by omega
      have hdel : fd_delivered [(⟨remain, chain.end_ - chain.tail, count, rd count⟩ : fd_call)]
          = (rd count).bytes := by
        simp [fd_delivered_one, hp]
      have hbl : byte_len (rd count).bytes = (rd count).ret := by rw [byte_len_eq]; exact w3
      have hafter := fd_round_after_store pre chain d
        ⟨remain, chain.end_ - chain.tail, count, rd count⟩ hi hr hp w3 w2
      rw [hdel, hbl, buffer_add_fd_begin_pos rd pre chain d used len remain count hcount hp w1
        (h1.trans h2) w3]
      have hnn : ¬ (rd count).ret < 0 := by omega
      refine ⟨w1, ?_, ?_⟩
      · intro hcs
        simp only [fd_call_stop, hz, hnn, if_false] at hcs
        have hne : ¬ (rd count).ret = remain := by
          intro e
          simp [e] at hcs
        have hne2 : remain - (rd count).ret ≠ 0 := by omega
        simp only [hne2, ne_eq, not_false_eq_true, if_true]
        exact ⟨by omega, _, rfl, hafter⟩
      · intro s hcs
        simp only [fd_call_stop, hz, hnn, if_false] at hcs
        have he : (rd count).ret = remain := by
          by_contra e
          simp [e] at hcs
        simp only [he, if_true, Option.some.injEq] at hcs
        subst hcs
        have e0 : remain - (rd count).ret = 0 := by omega
        have elr : int_of (len - 0) = len - remain + (rd count).ret := by
          rw [int_of_eq _ (by omega) (by omega)]
          omega
        simp only [e0, ne_eq, not_true_eq_false, if_false, elr]
        exact ⟨by decide, _, by simp, hafter⟩

/-- The first part of a round of `buffer_add_fd` keeps the invariants and the byte stream, and
leaves a tail segment with free space unless `buffer_expand` returns `NULL`. -/
theorem buffer_add_fd_chain_inv (b : buffer) (len : Int) (malloc_ok : Bool)
    (hi : buffer_inv b) (hr : buffer_region b) :
    ∃ b0 res, buffer_add_fd_chain b len malloc_ok = some (b0, res) ∧
      buffer_inv b0 ∧ buffer_region b0 ∧ buffer_stream b0 = buffer_stream b ∧
      b0.data_len = b.data_len ∧ (buffer_tail_slack b → buffer_tail_slack b0) ∧
      (res = none → malloc_ok = false ∧ ∀ c, buffer_tail b0 = some c → c.tail = c.end_) ∧
      (∀ chain used, res = some (chain, used) →
        ∃ pre, b0.head = pre ++ [chain] ∧ chain.tail < chain.end_) := by
  obtain ⟨l, d⟩ := b
  obtain ⟨z1, z2, z3, _, z5, z6⟩ := chain_fresh_4096
  rcases buffer_tail_cases ⟨l, d⟩ with ⟨hnil, _⟩ | ⟨pre, c0, hcat, htl⟩
  · simp only at hnil
    subst hnil
    rw [buffer_add_fd_chain_nil]
    cases malloc_ok
    · refine ⟨⟨[], d⟩, none, rfl, hi, hr, rfl, rfl, fun h => h, fun _ => ⟨rfl, ?_⟩, by simp⟩
      intro c hc
      simp [buffer_tail] at hc
    · refine ⟨⟨[chain_fresh 4096], d⟩, some (chain_fresh 4096, true), rfl, ?_, ?_, ?_, rfl, ?_,
        by simp, ?_⟩
      · intro c hc; simp only [List.mem_singleton] at hc; rw [hc]; exact z1
      · intro c hc; simp only [List.mem_singleton] at hc; rw [hc]; exact z2
      · simp [buffer_stream, stream_of, z3]
      · intro _ c hc
        simp only [buffer_tail, List.getLast?_singleton, Option.some.injEq] at hc
        rw [← hc]
        exact z6
      · intro chain used h
        simp only [Option.some.injEq, Prod.mk.injEq] at h
        rw [← h.1]
        exact ⟨[], rfl, z5⟩
  · simp only at hcat
    subst hcat
    have hic0 := hi c0 (by simp)
    have hrc0 := hr c0 (by simp)
    obtain ⟨ai, ar, ae, ad, _, _, ac⟩ := chain_aligned_spec c0 len hic0 hrc0
    rw [buffer_add_fd_chain_concat]
    generalize chain_aligned c0 len = c at ai ar ae ad ac ⊢
    have hi1 : ∀ x ∈ pre ++ [c], chain_inv x := mem_concat_of_mem pre c0 c _ hi ai
    have hr1 : ∀ x ∈ pre ++ [c], chain_region x := mem_concat_of_mem pre c0 c _ hr ar
    have hst : stream_of (pre ++ [c]) = stream_of (pre ++ [c0]) := by
      simp [stream_of_append, stream_of, ac]
    have hsl : buffer_tail_slack ⟨pre ++ [c0], d⟩ → buffer_tail_slack ⟨pre ++ [c], d⟩ := by
      intro h x hx
      rw [buffer_tail_concat] at hx
      simp only [Option.some.injEq] at hx
      rw [← hx]
      have := h c0 (buffer_tail_concat pre c0 d)
      unfold chain_slack_small at this ⊢
      omega
    by_cases hroom : c.tail < c.end_
    · refine ⟨⟨pre ++ [c], d⟩, some (c, false), by simp [hroom], hi1, hr1, hst, rfl, hsl,
        by simp, ?_⟩
      intro chain used h
      simp only [Option.some.injEq, Prod.mk.injEq] at h
      rw [← h.1]
      exact ⟨pre, rfl, hroom⟩
    · cases malloc_ok
      · refine ⟨⟨pre ++ [c], d⟩, none, by simp [hroom], hi1, hr1, hst, rfl, hsl,
          fun _ => ⟨rfl, ?_⟩, by simp⟩
        intro x hx
        rw [buffer_tail_concat] at hx
        simp only [Option.some.injEq] at hx
        rw [← hx]
        have := ai.2.2
        omega
      · refine ⟨⟨pre ++ [c, chain_fresh 4096], d⟩, some (chain_fresh 4096, true),
          by simp [hroom], ?_, ?_, ?_, rfl, ?_, by simp, ?_⟩
        · have := mem_concat_of_mem (pre ++ [c]) c (chain_fresh 4096) _
            (by simpa using hi1) z1
          intro x hx
          exact this x (by simpa using hx)
        · have := mem_concat_of_mem (pre ++ [c]) c (chain_fresh 4096) _
            (by simpa using hr1) z2
          intro x hx
          exact this x (by simpa using hx)
        · show stream_of (pre ++ [c, chain_fresh 4096]) = stream_of (pre ++ [c0])
          rw [← hst]
          simp [stream_of_append, stream_of, z3]
        · intro _ x hx
          have e : pre ++ [c, chain_fresh 4096] = (pre ++ [c]) ++ [chain_fresh 4096] := by simp
          rw [e, buffer_tail_concat] at hx
          simp only [Option.some.injEq] at hx
          rw [← hx]
          exact z6
        · intro chain used h
          simp only [Option.some.injEq, Prod.mk.injEq] at h
          rw [← h.1]
          exact ⟨pre ++ [c], by simp, z5⟩

theorem fd_round_after_of (b b0 b1 : buffer) (call : fd_call)
    (h : fd_round_after b0 call b1) (hs : buffer_stream b0 = buffer_stream b)
    (hd : b0.data_len = b.data_len) (hsl : buffer_tail_slack b → buffer_tail_slack b0) :
    fd_round_after b call b1 := by
  obtain ⟨a1, a2, a3, a4, a5⟩ := h
  refine ⟨a1, a2, by rw [a3, hs], ?_, by rw [a5, hd]⟩
  intro h
  rcases h with h | h
  · exact a4 (Or.inl (hsl h))
  · exact a4 (Or.inr h)

/-- A round of the loop of `buffer_add_fd` on a buffer that satisfies the invariants: it ends the
call because `buffer_expand` returned `NULL`, or it makes one call of `read`, and then the outcome
of that call tells where the round leads. -/
theorem buffer_add_fd_round_spec (rd : Int → read_result) (malloc_ok : Bool) (b : buffer)
    (len remain : Int) (hi : buffer_inv b) (hr : buffer_region b) (h0 : 0 ≤ remain)
    (h1 : remain ≤ len) (h2 : len ≤ INT_MAX) :
    ∃ calls next, buffer_add_fd_round rd malloc_ok b len remain = some (calls, next) ∧
      ((calls = [] ∧ malloc_ok = false ∧
          ∃ b1, next = fd_next.stop fd_stop.alloc_failed (-1) false b1 ∧
            buffer_inv b1 ∧ buffer_region b1 ∧ buffer_stream b1 = buffer_stream b ∧
            b1.data_len = b.data_len ∧ (buffer_tail_slack b → buffer_tail_slack b1) ∧
            ∀ c, buffer_tail b1 = some c → c.tail = c.end_) ∨
        ∃ call, calls = [call] ∧ call.remain = remain ∧ 0 < call.free ∧
          call.free ≤ 2147483648 ∧ (buffer_tail_slack b → call.free ≤ INT_MAX) ∧
          call.result = rd call.count ∧
          call.count =
            (if call.free ≤ INT_MAX then min remain call.free else 18446744071562067968) ∧
          (fd_admissible call →
            byte_len (fd_delivered [call]) ≤ remain ∧
            (fd_call_stop call = none →
              0 < remain - byte_len (fd_delivered [call]) ∧
              ∃ used b1,
                next = fd_next.again used b1 (remain - byte_len (fd_delivered [call])) ∧
                fd_round_after b call b1) ∧
            (∀ s, fd_call_stop call = some s →
              s ≠ fd_stop.alloc_failed ∧
              ∃ b1, next = fd_next.stop s
                  (if s = fd_stop.read_failed then -1
                    else len - remain + byte_len (fd_delivered [call]))
                  (decide (s = fd_stop.end_of_file)) b1 ∧
                fd_round_after b call b1))) := by
  obtain ⟨b0, res, e0, i0, r0, s0, d0, sl0, n0, t0⟩ := buffer_add_fd_chain_inv b len malloc_ok hi hr
  unfold buffer_add_fd_round
  rw [e0]
  cases res with
  | none =>
    obtain ⟨m, f⟩ := n0 rfl
    exact ⟨[], _, rfl, Or.inl ⟨rfl, m, b0, rfl, i0, r0, s0, d0, sl0, f⟩⟩
  | some cu =>
    obtain ⟨chain, used⟩ := cu
    obtain ⟨pre, hpre, hroom⟩ := t0 chain used rfl
    obtain ⟨l0, d⟩ := b0
    simp only at hpre
    subst hpre
    obtain ⟨call, next, g1, g2, g3, g4, g5, g6⟩ :=
      buffer_add_fd_begin_spec rd pre chain d used len remain i0 r0 hroom h0 h1 h2
    have hic := i0 chain (by simp)
    have hrc := r0 chain (by simp)
    refine ⟨[call], next, by simp only [g1], Or.inr ⟨call, rfl, g2, ?_, ?_, ?_, g4, g5, ?_⟩⟩
    · rw [g3]; omega
    · rw [g3]
      have := hic.1
      have := hic.2.1
      have := hrc.2
      omega
    · intro hs
      have := sl0 hs chain (buffer_tail_concat pre chain d)
      rw [g3]
      unfold chain_slack_small at this
      have := hic.1
      omega
    · intro hadm
      obtain ⟨k1, k2, k3⟩ := g6 hadm
      refine ⟨k1, ?_, ?_⟩
      · intro hcs
        obtain ⟨p1, b1, p2, p3⟩ := k2 hcs
        exact ⟨p1, used, b1, p2, fd_round_after_of b _ b1 call p3 s0 d0 sl0⟩
      · intro s hcs
        obtain ⟨p1, b1, p2, p3⟩ := k3 s hcs
        exact ⟨p1, b1, p2, fd_round_after_of b _ b1 call p3 s0 d0 sl0⟩

theorem buffer_add_fd_run_cons_stop (rd : Int → read_result) (reads : List (Int → read_result))
    (malloc_ok : Nat → Bool) (k : Nat) (b : buffer) (len remain : Int) (calls : List fd_call)
    (s : fd_stop) (r : Int) (eof : Bool) (b1 : buffer)
    (h : buffer_add_fd_round rd (malloc_ok k) b len remain
      = some (calls, fd_next.stop s r eof b1)) :
    buffer_add_fd_run (rd :: reads) malloc_ok k b len remain = (calls, some (s, r, eof, b1)) := by
  unfold buffer_add_fd_run
  rw [h]

theorem buffer_add_fd_run_cons_again (rd : Int → read_result)
    (reads : List (Int → read_result)) (malloc_ok : Nat → Bool) (k : Nat) (b : buffer)
    (len remain : Int) (calls : List fd_call) (used : Bool) (b1 : buffer) (remain1 : Int)
    (h : buffer_add_fd_round rd (malloc_ok k) b len remain
      = some (calls, fd_next.again used b1 remain1)) :
    buffer_add_fd_run (rd :: reads) malloc_ok k b len remain =
      (calls ++ (buffer_add_fd_run reads malloc_ok (if used then k + 1 else k) b1 len remain1).1,
        (buffer_add_fd_run reads malloc_ok (if used then k + 1 else k) b1 len remain1).2) := by
  conv => lhs; unfold buffer_add_fd_run
  rw [h]

theorem buffer_add_fd_run_cons_calls (rd : Int → read_result)
    (reads : List (Int → read_result)) (malloc_ok : Nat → Bool) (k : Nat) (b : buffer)
    (len remain : Int) (calls : List fd_call) (next : fd_next)
    (h : buffer_add_fd_round rd (malloc_ok k) b len remain = some (calls, next)) :
    ∃ rest, (buffer_add_fd_run (rd :: reads) malloc_ok k b len remain).1 = calls ++ rest := by
  cases next with
  | stop s r eof b1 =>
    rw [buffer_add_fd_run_cons_stop rd reads malloc_ok k b len remain calls s r eof b1 h]
    exact ⟨[], by simp⟩
  | again used b1 remain1 =>
    rw [buffer_add_fd_run_cons_again rd reads malloc_ok k b len remain calls used b1 remain1 h]
    exact ⟨_, rfl⟩

/-- One round of the loop of `buffer_add_fd` under the conditions `fd_run_ok`: the call ends
because `buffer_expand` returned `NULL`, or the round makes a call of `read` and the call ends
there, or the loop goes on under the same conditions. -/
theorem buffer_add_fd_run_step (rd : Int → read_result) (reads : List (Int → read_result))
    (malloc_ok : Nat → Bool) (k : Nat) (b : buffer) (len remain : Int)
    (h : fd_run_ok (rd :: reads) malloc_ok k b len remain) :
    (∃ b1, buffer_add_fd_run (rd :: reads) malloc_ok k b len remain
          = ([], some (fd_stop.alloc_failed, -1, false, b1)) ∧
        malloc_ok k = false ∧ buffer_inv b1 ∧ buffer_region b1 ∧
        buffer_stream b1 = buffer_stream b ∧ b1.data_len = b.data_len ∧
        (buffer_tail_slack b → buffer_tail_slack b1) ∧
        ∀ c, buffer_tail b1 = some c → c.tail = c.end_) ∨
    ∃ call, fd_call_ok b remain call ∧
      ((∃ s b1, fd_call_stop call = some s ∧ s ≠ fd_stop.alloc_failed ∧
          buffer_add_fd_run (rd :: reads) malloc_ok k b len remain
            = ([call], some (s,
                (if s = fd_stop.read_failed then -1
                  else len - remain + byte_len (fd_delivered [call])),
                decide (s = fd_stop.end_of_file), b1)) ∧
          fd_round_after b call b1) ∨
        ∃ (used : Bool) (b1 : buffer), fd_call_stop call = none ∧
          0 < remain - byte_len (fd_delivered [call]) ∧
          buffer_add_fd_run (rd :: reads) malloc_ok k b len remain
            = (call :: (buffer_add_fd_run reads malloc_ok (if used then k + 1 else k) b1 len
                  (remain - byte_len (fd_delivered [call]))).1,
                (buffer_add_fd_run reads malloc_ok (if used then k + 1 else k) b1 len
                  (remain - byte_len (fd_delivered [call]))).2) ∧
          fd_round_after b call b1 ∧
          fd_run_ok reads malloc_ok (if used then k + 1 else k) b1 len
            (remain - byte_len (fd_delivered [call]))) := by
  obtain ⟨hi, hr, h0, h1, h2, H1, H2⟩ := h
  obtain ⟨calls, next, e, hcase⟩ :=
    buffer_add_fd_round_spec rd (malloc_ok k) b len remain hi hr h0 h1 h2
  rcases hcase with ⟨hc, hm, b1, hn, q1, q2, q3, q4, q5, q6⟩ | ⟨call, hc, g1, g2, g3, g4, g5, g6, g7⟩
  · left
    subst hc hn
    exact ⟨b1, buffer_add_fd_run_cons_stop rd reads malloc_ok k b len remain _ _ _ _ _ e,
      hm, q1, q2, q3, q4, q5, q6⟩
  · right
    subst hc
    obtain ⟨rest, hrest⟩ := buffer_add_fd_run_cons_calls rd reads malloc_ok k b len remain _ _ e
    have hmem : call ∈ (buffer_add_fd_run (rd :: reads) malloc_ok k b len remain).1 := by
      rw [hrest]; simp
    have hadm : fd_admissible call := by
      refine ⟨H1 call hmem, ?_⟩
      intro hbig
      rcases H2 with hs | hbigs
      · exfalso
        have hf := g4 hs
        rw [if_pos hf] at g6
        have := min_le_right remain call.free
        unfold SSIZE_MAX at hbig
        unfold INT_MAX at hf
        omega
      · rw [g1]
        exact hbigs call hmem hbig
    obtain ⟨k1, k2, k3⟩ := g7 hadm
    refine ⟨call, ⟨g1, g2, g3, g4, g6, hadm, k1⟩, ?_⟩
    cases hcs : fd_call_stop call with
    | some s =>
      left
      obtain ⟨p1, b1, p2, p3⟩ := k3 s hcs
      subst p2
      exact ⟨s, b1, rfl, p1,
        buffer_add_fd_run_cons_stop rd reads malloc_ok k b len remain _ _ _ _ _ e, p3⟩
    | none =>
      right
      obtain ⟨p1, used, b1, p2, p3⟩ := k2 hcs
      subst p2
      have hrun := buffer_add_fd_run_cons_again rd reads malloc_ok k b len remain _ _ _ _ e
      refine ⟨used, b1, rfl, p1, by rw [hrun]; rfl, p3, ?_⟩
      obtain ⟨a1, a2, _, a4, _⟩ := p3
      have hd0 := byte_len_nonneg (fd_delivered [call])
      have hsub : ∀ c ∈ (buffer_add_fd_run reads malloc_ok (if used then k + 1 else k) b1 len
          (remain - byte_len (fd_delivered [call]))).1,
          c ∈ (buffer_add_fd_run (rd :: reads) malloc_ok k b len remain).1 := by
        intro c hcm
        rw [hrun]
        exact List.mem_append_right _ hcm
      refine ⟨a1, a2, by omega, by omega, h2, fun c hcm => H1 c (hsub c hcm), ?_⟩
      rcases H2 with hs | hbigs
      · exact Or.inl (a4 (Or.inl hs))
      · by_cases hp : 0 < call.result.ret
        · exact Or.inl (a4 (Or.inr hp))
        · right
          intro c hcm hbig
          have := hbigs c (hsub c hcm) hbig
          have hd : fd_delivered [call] = [] := by simp [fd_delivered_one, hp]
          rw [hd]
          simpa [byte_len] using this

/-- The calls of `read` that the loop of `buffer_add_fd` makes: each is asked with the value of
`remain` that the bytes delivered before leave, into a segment with free space, for the smaller
of `remain` and the free space (unless the free space is `2 ^ 31` bytes), and every call but the
last is one after which the loop goes on. -/
theorem buffer_add_fd_run_calls (reads : List (Int → read_result)) :
    ∀ (malloc_ok : Nat → Bool) (k : Nat) (b : buffer) (len remain : Int),
      fd_run_ok reads malloc_ok k b len remain →
      byte_len (fd_delivered (buffer_add_fd_run reads malloc_ok k b len remain).1) ≤ remain ∧
      ∀ pre call post, (buffer_add_fd_run reads malloc_ok k b len remain).1
          = pre ++ call :: post →
        call.remain = remain - byte_len (fd_delivered pre) ∧ 0 < call.free ∧
        call.free ≤ 2147483648 ∧ (buffer_tail_slack b → call.free ≤ INT_MAX) ∧
        call.count =
          (if call.free ≤ INT_MAX then min call.remain call.free
            else 18446744071562067968) ∧
        fd_admissible call ∧ (post ≠ [] → fd_call_stop call = none) := by
  induction reads with
  | nil =>
    intro malloc_ok k b len remain h
    obtain ⟨_, _, h0, _⟩ := h
    refine ⟨by simpa [buffer_add_fd_run, fd_delivered, byte_len] using h0, ?_⟩
    intro pre call post e
    simp [buffer_add_fd_run] at e
  | cons rd reads ih =>
    intro malloc_ok k b len remain h
    have h0 := h.2.2.1
    rcases buffer_add_fd_run_step rd reads malloc_ok k b len remain h with
      ⟨b1, e, _⟩ | ⟨call0, ⟨c1, c2, c3, c4, c5, c6, c7⟩, hcase⟩
    · rw [e]
      refine ⟨by simpa [fd_delivered, byte_len] using h0, ?_⟩
      intro pre call post e2
      simp at e2
    · have hfirst : call0.remain = remain - byte_len (fd_delivered []) ∧ 0 < call0.free ∧
          call0.free ≤ 2147483648 ∧ (buffer_tail_slack b → call0.free ≤ INT_MAX) ∧
          call0.count =
            (if call0.free ≤ INT_MAX then min call0.remain call0.free
              else 18446744071562067968) ∧
          fd_admissible call0 := by
        refine ⟨by simpa [fd_delivered, byte_len] using c1, c2, c3, c4, ?_, c6⟩
        rw [c1]; exact c5
      rcases hcase with ⟨s, b1, hcs, _, e, _⟩ | ⟨used, b1, hcs, hpos, e, haft, hok⟩
      · rw [e]
        refine ⟨c7, ?_⟩
        intro pre call post e2
        have hpre : pre = [] ∧ call = call0 ∧ post = [] := by
          cases pre with
          | nil => simpa [eq_comm] using e2
          | cons p ps => simp at e2
        obtain ⟨hp1, hp2, hp3⟩ := hpre
        subst hp1 hp2 hp3
        obtain ⟨f1, f2, f3, f4, f5, f6⟩ := hfirst
        exact ⟨f1, f2, f3, f4, f5, f6, fun hne => absurd rfl hne⟩
      · obtain ⟨i1, i2⟩ := ih malloc_ok _ b1 len _ hok
        rw [e]
        simp only
        refine ⟨?_, ?_⟩
        · have : fd_delivered (call0 :: (buffer_add_fd_run reads malloc_ok
              (if used then k + 1 else k) b1 len
              (remain - byte_len (fd_delivered [call0]))).1)
              = fd_delivered [call0] ++ fd_delivered (buffer_add_fd_run reads malloc_ok
              (if used then k + 1 else k) b1 len
              (remain - byte_len (fd_delivered [call0]))).1 := by
            simp [fd_delivered]
          rw [this, byte_len_append]
          omega
        · intro pre call post e2
          cases pre with
          | nil =>
            simp only [List.nil_append, List.cons.injEq] at e2
            obtain ⟨e3, _⟩ := e2
            subst e3
            obtain ⟨f1, f2, f3, f4, f5, f6⟩ := hfirst
            exact ⟨f1, f2, f3, f4, f5, f6, fun _ => hcs⟩
          | cons p ps =>
            simp only [List.cons_append, List.cons.injEq] at e2
            obtain ⟨e3, e4⟩ := e2
            subst e3
            obtain ⟨j1, j2, j3, j4, j5, j6, j7⟩ := i2 ps call post e4
            refine ⟨?_, j2, j3, ?_, j5, j6, j7⟩
            · rw [j1]
              have : fd_delivered (call0 :: ps) = fd_delivered [call0] ++ fd_delivered ps := by
                simp [fd_delivered]
              rw [this, byte_len_append]
              omega
            · intro hs
              exact j4 (haft.2.2.2.1 (Or.inl hs))

/-- The result of the loop of `buffer_add_fd`: the invariants hold afterwards however the call
ends, the bytes delivered are appended to the byte stream, the flag `*eof` is set exactly when
the call ends at a `read` that returned `0`, the value returned is `-1` when the call ends at a
failed allocation or a failed `read` and the number of bytes delivered otherwise, and the call
ends at the first call of `read` whose outcome ends the loop. -/
theorem buffer_add_fd_run_spec (reads : List (Int → read_result)) :
    ∀ (malloc_ok : Nat → Bool) (k : Nat) (b : buffer) (len remain : Int),
      fd_run_ok reads malloc_ok k b len remain →
      ∀ s r eof b1, (buffer_add_fd_run reads malloc_ok k b len remain).2 = some (s, r, eof, b1) →
        buffer_inv b1 ∧ buffer_region b1 ∧ (buffer_tail_slack b → buffer_tail_slack b1) ∧
        b1.data_len = b.data_len ∧
        buffer_stream b1 = buffer_stream b ++
          fd_delivered (buffer_add_fd_run reads malloc_ok k b len remain).1 ∧
        eof = decide (s = fd_stop.end_of_file) ∧
        r = (if s = fd_stop.alloc_failed ∨ s = fd_stop.read_failed then -1
          else len - remain +
            byte_len (fd_delivered (buffer_add_fd_run reads malloc_ok k b len remain).1)) ∧
        (s = fd_stop.alloc_failed →
          (∃ j, malloc_ok j = false) ∧ (∀ c, buffer_tail b1 = some c → c.tail = c.end_) ∧
          ∀ call ∈ (buffer_add_fd_run reads malloc_ok k b len remain).1,
            fd_call_stop call = none) ∧
        (s ≠ fd_stop.alloc_failed →
          ∃ pre call, (buffer_add_fd_run reads malloc_ok k b len remain).1 = pre ++ [call] ∧
            fd_call_stop call = some s ∧ ∀ c ∈ pre, fd_call_stop c = none) := by
  induction reads with
  | nil =>
    intro malloc_ok k b len remain _ s r eof b1 e
    simp [buffer_add_fd_run] at e
  | cons rd reads ih =>
    intro malloc_ok k b len remain h s r eof b1 hres
    rcases buffer_add_fd_run_step rd reads malloc_ok k b len remain h with
      ⟨b2, e, hm, q1, q2, q3, q4, q5, q6⟩ | ⟨call0, _, hcase⟩
    · rw [e] at hres ⊢
      simp only [Option.some.injEq, Prod.mk.injEq] at hres
      obtain ⟨hs, hr, he, hb⟩ := hres
      subst hs hr he hb
      refine ⟨q1, q2, q5, q4, by simpa [fd_delivered] using q3, by decide, by simp,
        fun _ => ⟨⟨k, hm⟩, q6, by simp⟩, fun hne => absurd rfl hne⟩
    · rcases hcase with ⟨s2, b2, hcs, hne, e, haft⟩ | ⟨used, b2, hcs, hpos, e, haft, hok⟩
      · rw [e] at hres ⊢
        simp only [Option.some.injEq, Prod.mk.injEq] at hres
        obtain ⟨hs, hr, he, hb⟩ := hres
        subst hs hb
        obtain ⟨a1, a2, a3, a4, a5⟩ := haft
        refine ⟨a1, a2, fun hsl => a4 (Or.inl hsl), a5, a3, he.symm, ?_,
          fun h0 => absurd h0 hne, fun _ => ⟨[], call0, rfl, hcs, by simp⟩⟩
        rw [← hr]
        by_cases hrf : s2 = fd_stop.read_failed
        · simp [hrf]
        · simp [hrf, hne]
      · rw [e] at hres ⊢
        simp only at hres ⊢
        obtain ⟨i1, i2, i3, i4, i5, i6, i7, i8, i9⟩ := ih malloc_ok _ b2 len _ hok s r eof b1 hres
        obtain ⟨a1, a2, a3, a4, a5⟩ := haft
        generalize buffer_add_fd_run reads malloc_ok (if used then k + 1 else k) b2 len
          (remain - byte_len (fd_delivered [call0])) = rest at i5 i7 i8 i9 ⊢
        have hdel : fd_delivered (call0 :: rest.1)
            = fd_delivered [call0] ++ fd_delivered rest.1 := by
          simp [fd_delivered]
        refine ⟨i1, i2, fun hsl => i3 (a4 (Or.inl hsl)), by rw [i4, a5], ?_, i6, ?_, ?_, ?_⟩
        · rw [i5, a3, hdel, List.append_assoc]
        · rw [i7, hdel, byte_len_append]
          by_cases hc : s = fd_stop.alloc_failed ∨ s = fd_stop.read_failed
          · simp [hc]
          · simp only [hc, if_false]
            omega
        · intro hs
          obtain ⟨p1, p2, p3⟩ := i8 hs
          refine ⟨p1, p2, ?_⟩
          intro c hc
          simp only [List.mem_cons] at hc
          rcases hc with hc | hc
          · rw [hc]; exact hcs
          · exact p3 c hc
        · intro hs
          obtain ⟨pre, call, p1, p2, p3⟩ := i9 hs
          refine ⟨call0 :: pre, call, by rw [p1]; rfl, p2, ?_⟩
          intro c hc
          simp only [List.mem_cons] at hc
          rcases hc with hc | hc
          · rw [hc]; exact hcs
          · exact p3 c hc

/-- The first part of a round of `buffer_add_fd` always comes to an end. -/
theorem buffer_add_fd_chain_some (b : buffer) (len : Int) (malloc_ok : Bool) :
    ∃ p, buffer_add_fd_chain b len malloc_ok = some p := by
  obtain ⟨l, d⟩ := b
  rcases buffer_tail_cases ⟨l, d⟩ with ⟨hnil, _⟩ | ⟨pre, c0, hcat, _⟩
  · simp only at hnil
    subst hnil
    exact ⟨_, buffer_add_fd_chain_nil d len malloc_ok⟩
  · simp only at hcat
    subst hcat
    exact ⟨_, buffer_add_fd_chain_concat pre c0 d len malloc_ok⟩

/-- Every call of `read` recorded for the loop is answered by an entry of the script, from the
count recorded. -/
theorem buffer_add_fd_run_results (reads : List (Int → read_result)) :
    ∀ (malloc_ok : Nat → Bool) (k : Nat) (b : buffer) (len remain : Int),
      ∀ call ∈ (buffer_add_fd_run reads malloc_ok k b len remain).1,
        ∃ rd ∈ reads, call.result = rd call.count := by
  induction reads with
  | nil =>
    intro malloc_ok k b len remain call hc
    simp [buffer_add_fd_run] at hc
  | cons rd reads ih =>
    intro malloc_ok k b len remain call hc
    obtain ⟨⟨b0, res⟩, e0⟩ := buffer_add_fd_chain_some b len (malloc_ok k)
    cases res with
    | none =>
      have e : buffer_add_fd_round rd (malloc_ok k) b len remain
          = some ([], fd_next.stop fd_stop.alloc_failed (-1) false b0) := by
        unfold buffer_add_fd_round; rw [e0]
      rw [buffer_add_fd_run_cons_stop rd reads malloc_ok k b len remain _ _ _ _ _ e] at hc
      simp at hc
    | some cu =>
      obtain ⟨chain, used⟩ := cu
      have e : buffer_add_fd_round rd (malloc_ok k) b len remain
          = some (buffer_add_fd_begin rd b0 chain used len remain) := by
        unfold buffer_add_fd_round; rw [e0]
      have hcall := buffer_add_fd_begin_call rd b0 chain used len remain
      generalize buffer_add_fd_begin rd b0 chain used len remain = p at e hcall
      obtain ⟨calls, next⟩ := p
      simp only at hcall
      subst hcall
      cases next with
      | stop s r eof b1 =>
        rw [buffer_add_fd_run_cons_stop rd reads malloc_ok k b len remain _ _ _ _ _ e] at hc
        simp only [List.mem_singleton] at hc
        subst hc
        exact ⟨rd, by simp, rfl⟩
      | again used1 b1 remain1 =>
        rw [buffer_add_fd_run_cons_again rd reads malloc_ok k b len remain _ _ _ _ e] at hc
        simp only [List.singleton_append, List.mem_cons] at hc
        rcases hc with hc | hc
        · subst hc
          exact ⟨rd, by simp, rfl⟩
        · obtain ⟨rd1, m1, m2⟩ := ih malloc_ok _ b1 len remain1 call hc
          exact ⟨rd1, by simp [m1], m2⟩

/-- A call of `buffer_add_fd` comes to an end when the script of the descriptor ends with a
call of `read` that returns `0` or fails with a value of `errno` other than `EINTR`. -/
theorem buffer_add_fd_loop_total (final : Int → read_result) (hf : read_final final)
    (reads : List (Int → read_result)) :
    ∀ (malloc_ok : Nat → Bool) (k : Nat) (b : buffer) (len remain : Int),
      ∃ res, buffer_add_fd_loop (reads ++ [final]) malloc_ok k b len remain = some res := by
  induction reads with
  | nil =>
    intro malloc_ok k b len remain
    obtain ⟨⟨b0, res⟩, e0⟩ := buffer_add_fd_chain_some b len (malloc_ok k)
    simp only [List.nil_append]
    unfold buffer_add_fd_loop
    rw [e0]
    cases res with
    | none => exact ⟨_, rfl⟩
    | some cu =>
      obtain ⟨chain, used⟩ := cu
      simp only
      generalize (if remain < int_of (chain.end_ - chain.tail) then remain
        else int_of (chain.end_ - chain.tail)) = av
      have hfa := hf (size_t_of av)
      generalize final (size_t_of av) = r at hfa
      rcases hfa with hz | ⟨hm, he⟩
      · have e : int_of r.ret = 0 := by rw [hz]; decide
        simp [e]
      · have e : int_of r.ret = -1 := by rw [hm]; decide
        simp only [e, Int.reduceNeg, Int.reduceLT, if_true]
        cases herr : r.errno
        · exact absurd herr he
        all_goals exact ⟨_, rfl⟩
  | cons rd reads ih =>
    intro malloc_ok k b len remain
    obtain ⟨⟨b0, res⟩, e0⟩ := buffer_add_fd_chain_some b len (malloc_ok k)
    simp only [List.cons_append]
    unfold buffer_add_fd_loop
    rw [e0]
    cases res with
    | none => exact ⟨_, rfl⟩
    | some cu =>
      obtain ⟨chain, used⟩ := cu
      simp only
      generalize (if remain < int_of (chain.end_ - chain.tail) then remain
        else int_of (chain.end_ - chain.tail)) = av
      generalize rd (size_t_of av) = r
      by_cases h1 : int_of r.ret < 0
      · simp only [h1, if_true]
        cases r.errno
        · by_cases h2 : remain = 0
          · simp [h2]
          · simp only [h2, ne_eq, not_false_eq_true, if_true]
            exact ih malloc_ok _ _ len remain
        all_goals exact ⟨_, rfl⟩
      · simp only [h1, if_false]
        by_cases h3 : int_of r.ret = 0
        · simp [h3]
        · simp only [h3, if_false]
          by_cases h4 : int_of (remain - int_of r.ret) = 0
          · simp [h4]
          · simp only [h4, ne_eq, not_false_eq_true, if_true]
            exact ih malloc_ok _ _ len _

/-- The result of `buffer_add_fd` is the result of its loop followed round by round. -/
theorem buffer_add_fd_eq_run (b : buffer) (len : Int) (malloc_ok : Nat → Bool)
    (reads : List (Int → read_result)) :
    buffer_add_fd b len malloc_ok reads =
      (buffer_add_fd_run reads malloc_ok 0 b (if len < 0 then INT_MAX else len)
        (if len < 0 then INT_MAX else len)).2.map (fun x => x.2) := by
  unfold buffer_add_fd
  exact buffer_add_fd_run_result reads malloc_ok 0 b _ _

/-- The value of `len` after the statement `if (len < 0) len = INT_MAX;`. -/
theorem fd_len_bounds (len : Int) (hl : len ≤ INT_MAX) :
    0 ≤ (if len < 0 then INT_MAX else len) ∧ (if len < 0 then INT_MAX else len) ≤ INT_MAX := by
  unfold INT_MAX at *
  split <;> omega

/-- The conditions `fd_run_ok` hold when the tail segment has at most `INT_MAX` bytes outside
its content and the outcome of every call of `read` keeps to the count requested. -/
theorem fd_run_ok_of_within (reads : List (Int → read_result)) (malloc_ok : Nat → Bool)
    (k : Nat) (b : buffer) (len remain : Int) (hfd : buffer_fd_inv b) (h0 : 0 ≤ remain)
    (h1 : remain ≤ len) (h2 : len ≤ INT_MAX)
    (hrd : ∀ call ∈ (buffer_add_fd_run reads malloc_ok k b len remain).1,
      read_within call.count call.result) :
    fd_run_ok reads malloc_ok k b len remain :=
  ⟨hfd.1, hfd.2.1, h0, h1, h2, hrd, Or.inl hfd.2.2⟩

/-- The conditions `fd_run_ok` hold when the outcome of every call of `read` is as POSIX and
Linux have it. -/
theorem fd_run_ok_of_conforming (reads : List (Int → read_result)) (malloc_ok : Nat → Bool)
    (k : Nat) (b : buffer) (len remain : Int) (hi : buffer_inv b) (hr : buffer_region b)
    (h0 : 0 ≤ remain) (h1 : remain ≤ len) (h2 : len ≤ INT_MAX)
    (hrd : ∀ call ∈ (buffer_add_fd_run reads malloc_ok k b len remain).1,
      read_conforming call.count call.result) :
    fd_run_ok reads malloc_ok k b len remain := by
  refine ⟨hi, hr, h0, h1, h2, ?_, Or.inr ?_⟩
  · intro call hc
    rcases hrd call hc with h | ⟨a1, a2, _, a4⟩
    · exact Or.inl h
    · exact Or.inr ⟨a1, a2, a4⟩
  · intro call hc hbig
    rcases hrd call hc with h | ⟨_, _, a3, _⟩
    · omega
    · omega

theorem fd_call_stop_eof (call : fd_call) :
    fd_call_stop call = some fd_stop.end_of_file ↔ call.result.ret = 0 := by
  unfold fd_call_stop
  by_cases h : call.result.ret = 0
  · simp [h]
  · simp only [h, if_false, iff_false]
    by_cases h2 : call.result.ret < 0
    · simp only [h2, if_true]
      cases call.result.errno <;> simp
    · simp only [h2, if_false]
      split <;> simp

theorem fd_call_stop_failed (call : fd_call) :
    fd_call_stop call = some fd_stop.read_failed ↔
      call.result.ret < 0 ∧ call.result.errno = errno_t.other := by
  unfold fd_call_stop
  by_cases h : call.result.ret = 0
  · simp [h]
  · simp only [h, if_false]
    by_cases h2 : call.result.ret < 0
    · simp only [h2, if_true, true_and]
      cases call.result.errno <;> simp
    · simp only [h2, if_false, false_and, iff_false]
      split <;> simp

theorem fd_script_nil (e : read_result) : fd_script [] e = [fun _ => e] := rfl

theorem fd_script_cons (r : read_result) (rs : List read_result) (e : read_result) :
    fd_script (r :: rs) e = (fun _ => r) :: fd_script rs e := rfl

/-- The loop of `buffer_add_fd` on a descriptor that delivers the outcomes `rs`, each with at
least one byte and no more bytes than asked for, fewer than `remain` bytes in all, and then
fails with `EAGAIN`, when every allocation succeeds: the loop ends at the failed call, and all
the bytes are appended. -/
theorem buffer_add_fd_script_run (e : read_result) (he1 : e.ret = -1)
    (he2 : e.errno = errno_t.EAGAIN) (malloc_ok : Nat → Bool) (hok : ∀ j, malloc_ok j = true)
    (len : Int) (hl : len ≤ INT_MAX) (rs : List read_result) :
    ∀ (k : Nat) (b : buffer) (remain : Int), buffer_inv b → buffer_region b → 0 ≤ remain →
      remain ≤ len → (∀ r ∈ rs, 0 < r.ret ∧ ((r.bytes.length : Nat) : Int) = r.ret) →
      byte_len (fd_bytes rs) < remain →
      fd_fits rs (buffer_add_fd_run (fd_script rs e) malloc_ok k b len remain).1 →
      ∃ b1, (buffer_add_fd_run (fd_script rs e) malloc_ok k b len remain).2
          = some (fd_stop.would_block, len - remain + byte_len (fd_bytes rs), false, b1) ∧
        buffer_stream b1 = buffer_stream b ++ fd_bytes rs ∧ buffer_inv b1 ∧
        buffer_region b1 := by
  induction rs with
  | nil =>
    intro k b remain hi hr h0 h1 _ _ _
    rw [fd_script_nil]
    obtain ⟨calls, next, e0, hcase⟩ :=
      buffer_add_fd_round_spec (fun _ => e) (malloc_ok k) b len remain hi hr h0 h1 hl
    rcases hcase with ⟨_, hm, _⟩ | ⟨call, hc, g1, g2, g3, g4, g5, g6, g7⟩
    · rw [hok k] at hm
      exact absurd hm (by simp)
    · subst hc
      have hadm : fd_admissible call := by
        refine ⟨Or.inl (by rw [g5]; exact he1), ?_⟩
        intro _
        rw [g5, he1, g1]
        omega
      obtain ⟨_, _, k3⟩ := g7 hadm
      have hcs : fd_call_stop call = some fd_stop.would_block := by
        simp [fd_call_stop, g5, he1, he2]
      obtain ⟨_, b1, p2, a1, a2, a3, _⟩ := k3 _ hcs
      subst p2
      have hdel : fd_delivered [call] = [] := by
        simp [fd_delivered_one, g5, he1]
      rw [buffer_add_fd_run_cons_stop (fun _ => e) [] malloc_ok k b len remain _ _ _ _ _ e0]
      refine ⟨b1, ?_, ?_, a1, a2⟩
      · simp [hdel, fd_bytes]
      · rw [a3, hdel]; rfl
  | cons r rs ih =>
    intro k b remain hi hr h0 h1 hrs hsum hfit
    rw [fd_script_cons] at hfit ⊢
    obtain ⟨hr0, hrb⟩ := hrs r (by simp)
    have hbl : byte_len r.bytes = r.ret := by rw [byte_len_eq]; exact hrb
    have hsum2 : byte_len (fd_bytes (r :: rs)) = r.ret + byte_len (fd_bytes rs) := by
      simp only [fd_bytes]
      rw [byte_len_append, hbl]
    have hnn := byte_len_nonneg (fd_bytes rs)
    obtain ⟨calls, next, e0, hcase⟩ :=
      buffer_add_fd_round_spec (fun _ => r) (malloc_ok k) b len remain hi hr h0 h1 hl
    rcases hcase with ⟨_, hm, _⟩ | ⟨call, hc, g1, g2, g3, g4, g5, g6, g7⟩
    · rw [hok k] at hm
      exact absurd hm (by simp)
    · subst hc
      obtain ⟨rest, hrest⟩ :=
        buffer_add_fd_run_cons_calls (fun _ => r) (fd_script rs e) malloc_ok k b len remain _ _ e0
      have hfit0 : r.ret ≤ call.count := by
        rw [hrest] at hfit
        exact hfit.1
      have hadm : fd_admissible call := by
        refine ⟨Or.inr ⟨by rw [g5]; omega, by rw [g5]; exact hfit0, by rw [g5]; exact hrb⟩, ?_⟩
        intro _
        rw [g5, g1]
        omega
      obtain ⟨_, k2, _⟩ := g7 hadm
      have hcs : fd_call_stop call = none := by
        have n1 : ¬ r.ret = 0 := by omega
        have n2 : ¬ r.ret < 0 := by omega
        have n3 : ¬ r.ret = remain := by omega
        simp [fd_call_stop, g5, g1, n1, n2, n3]
      have hdel : fd_delivered [call] = r.bytes := by
        simp [fd_delivered_one, g5, hr0]
      obtain ⟨_, used, b1, p2, a1, a2, a3, _⟩ := k2 hcs
      subst p2
      rw [hdel, hbl] at e0
      have hrun := buffer_add_fd_run_cons_again (fun _ => r) (fd_script rs e) malloc_ok k b len
        remain _ _ _ _ e0
      rw [hrun] at hfit ⊢
      obtain ⟨b2, i1, i2, i3, i4⟩ := ih (if used then k + 1 else k) b1 (remain - r.ret) a1 a2
        (by omega) (by omega) (fun x hx => hrs x (by simp [hx])) (by omega) hfit.2
      refine ⟨b2, ?_, ?_, i3, i4⟩
      · simp only
        rw [i1, hsum2]
        have : len - (remain - r.ret) + byte_len (fd_bytes rs)
            = len - remain + (r.ret + byte_len (fd_bytes rs)) := by omega
        rw [this]
      · rw [i2, a3, hdel]
        simp [fd_bytes]

/-- The result of `buffer_add_fd` under the conditions `fd_run_ok`, in terms of the calls of
`read` it makes and the way it ends. -/
theorem buffer_add_fd_spec (b : buffer) (len : Int) (malloc_ok : Nat → Bool)
    (reads : List (Int → read_result)) (r : Int) (eof : Bool) (b1 : buffer)
    (hok : fd_run_ok reads malloc_ok 0 b (if len < 0 then INT_MAX else len)
      (if len < 0 then INT_MAX else len))
    (h : buffer_add_fd b len malloc_ok reads = some (r, eof, b1)) :
    ∃ s, buffer_add_fd_stop b len malloc_ok reads = some s ∧
      buffer_inv b1 ∧ buffer_region b1 ∧ (buffer_tail_slack b → buffer_tail_slack b1) ∧
      b1.data_len = b.data_len ∧
      buffer_stream b1 = buffer_stream b ++
        fd_delivered (buffer_add_fd_calls b len malloc_ok reads) ∧
      eof = decide (s = fd_stop.end_of_file) ∧
      r = (if s = fd_stop.alloc_failed ∨ s = fd_stop.read_failed then -1
        else byte_len (fd_delivered (buffer_add_fd_calls b len malloc_ok reads))) ∧
      byte_len (fd_delivered (buffer_add_fd_calls b len malloc_ok reads))
        ≤ (if len < 0 then INT_MAX else len) ∧
      (s = fd_stop.alloc_failed →
        (∃ j, malloc_ok j = false) ∧ (∀ c, buffer_tail b1 = some c → c.tail = c.end_) ∧
        ∀ call ∈ buffer_add_fd_calls b len malloc_ok reads, fd_call_stop call = none) ∧
      (s ≠ fd_stop.alloc_failed →
        ∃ pre call, buffer_add_fd_calls b len malloc_ok reads = pre ++ [call] ∧
          fd_call_stop call = some s ∧ ∀ c ∈ pre, fd_call_stop c = none) := by
  rw [buffer_add_fd_eq_run] at h
  unfold buffer_add_fd_stop buffer_add_fd_calls
  simp only
  generalize (if len < 0 then INT_MAX else len) = len1 at h hok ⊢
  cases hrun : (buffer_add_fd_run reads malloc_ok 0 b len1 len1).2 with
  | none => rw [hrun] at h; simp at h
  | some x =>
    obtain ⟨s, r2, eof2, b2⟩ := x
    rw [hrun] at h
    simp only [Option.map_some', Option.some.injEq, Prod.mk.injEq] at h
    obtain ⟨h1, h2, h3⟩ := h
    subst h1 h2 h3
    obtain ⟨a1, a2, a3, a4, a5, a6, a7, a8, a9⟩ :=
      buffer_add_fd_run_spec reads malloc_ok 0 b len1 len1 hok s r2 eof2 b2 hrun
    obtain ⟨c1, _⟩ := buffer_add_fd_run_calls reads malloc_ok 0 b len1 len1 hok
    refine ⟨s, rfl, a1, a2, a3, a4, a5, a6, ?_, c1, a8, a9⟩
    rw [a7]
    simp

/-! ## States with a segment of `2 ^ 31` bytes, continued -/

theorem buffer_run_append (l1 l2 : List stream_op) :
    ∀ b b1, buffer_run b l1 = some b1 → buffer_run b (l1 ++ l2) = buffer_run b1 l2 := by
  induction l1 with
  | nil =>
    intro b b1 h
    simp only [buffer_run, Option.some.injEq] at h
    subst h
    rfl
  | cons op l ih =>
    intro b b1 h
    cases op with
    | add source =>
      simp only [List.cons_append, buffer_run] at h ⊢
      cases hadd : buffer_add b source (byte_len source) true with
      | none => rw [hadd] at h; simp at h
      | some p =>
        rw [hadd] at h
        simp only at h ⊢
        exact ih _ _ h
    | drain n =>
      simp only [List.cons_append, buffer_run] at h ⊢
      exact ih _ _ h

/-- On a segment that holds `2 ^ 31` bytes `buffer_drain` of `2 ^ 31` bytes moves `data` to
`tail` and keeps the segment. -/
theorem buffer_drain_2g_all (c : buffer_chain) (d : Nat) (hd : c.data = 0)
    (ht : c.tail = 2147483648) :
    buffer_drain ⟨[c], d⟩ 2147483648 = ⟨[{ c with data := 2147483648 }], d⟩ := by
  simp [buffer_drain, buffer_drain_loop, buffer_set_head, hd, ht, int_of, size_t_of]

/-- Two calls of `buffer_add`, with `2 ^ 30 + 1` and with `2 ^ 30 - 1` bytes, and a call of
`buffer_drain` with `2 ^ 31` bytes leave a segment of `2 ^ 31` bytes with `data = tail = end`. -/
theorem buffer_reach_2g_drained :
    ∃ c, buffer_run ⟨[], 0⟩
        [stream_op.add (zero_bytes 1073741825), stream_op.add (zero_bytes 1073741823),
          stream_op.drain 2147483648] = some ⟨[c], 0⟩ ∧
      buffer_reach (fun _ => True) ⟨[c], 0⟩ ∧ c.data = 2147483648 ∧ c.tail = 2147483648 ∧
      c.end_ = 2147483648 ∧ chain_region c := by
  obtain ⟨c0, hrun, hreach, hd, ht, he, hr⟩ := buffer_reach_2g
  have hdr := buffer_drain_2g_all c0 0 hd ht
  refine ⟨{ c0 with data := 2147483648 }, ?_, ?_, rfl, ht, he, hr⟩
  · have := buffer_run_append _ [stream_op.drain 2147483648] _ _ hrun
    simp only [List.cons_append, List.nil_append] at this
    rw [this]
    simp only [buffer_run, hdr]
  · rw [← hdr]
    exact buffer_reach.drain _ _ hreach (by omega) (by omega) trivial

/-- The compaction step of an append of at least one byte on a segment of `2 ^ 31` bytes with
`data = tail = end`: the segment is compacted, and it is empty with `2 ^ 31` bytes free. -/
theorem chain_aligned_2g_drained (c : buffer_chain) (len : Int) (hlen : 0 < len)
    (hd : c.data = 2147483648) (ht : c.tail = 2147483648) (he : c.end_ = 2147483648) :
    (chain_aligned c len).data = 0 ∧ (chain_aligned c len).tail = 0 ∧
      (chain_aligned c len).end_ = 2147483648 := by
  have hs : buffer_chain_should_align c len = true := by
    unfold buffer_chain_should_align
    simp only [hd, ht, he, int_of]
    norm_num
    omega
  unfold chain_aligned
  rw [hs]
  simp only [if_true]
  unfold buffer_chain_align
  simp only [hd, ht, he, int_of]
  norm_num

/-- On a buffer whose one segment has `2 ^ 31` free bytes after the compaction step, the first
call of `read` that `buffer_add_fd` makes asks for `2 ^ 64 - 2 ^ 31` bytes. -/
theorem buffer_add_fd_calls_free_2g (c : buffer_chain) (d : Nat) (len : Int)
    (malloc_ok : Nat → Bool) (rd : Int → read_result) (rest : List (Int → read_result))
    (hlen : 0 ≤ len) (hl : len ≤ INT_MAX) (a2 : (chain_aligned c len).tail = 0)
    (a3 : (chain_aligned c len).end_ = 2147483648) :
    ∃ calls, buffer_add_fd_calls ⟨[c], d⟩ len malloc_ok (rd :: rest) =
      { remain := len, free := 2147483648, count := 18446744071562067968,
        result := rd 18446744071562067968 } :: calls := by
  have hch := buffer_add_fd_chain_concat [] c d len (malloc_ok 0)
  simp only [List.nil_append, a2, a3] at hch
  norm_num at hch
  have hround : buffer_add_fd_round rd (malloc_ok 0) ⟨[c], d⟩ len len
      = some (buffer_add_fd_begin rd ⟨[chain_aligned c len], d⟩ (chain_aligned c len) false
        len len) := by
    unfold buffer_add_fd_round
    rw [hch]
  have hcall := buffer_add_fd_begin_call rd ⟨[chain_aligned c len], d⟩ (chain_aligned c len)
    false len len
  have hcnt := fd_count_eq len ((chain_aligned c len).end_ - (chain_aligned c len).tail)
    hlen hl (by omega) (by omega)
  rw [hcnt] at hcall
  simp only [a2, a3] at hcall
  norm_num [INT_MAX] at hcall
  generalize buffer_add_fd_begin rd ⟨[chain_aligned c len], d⟩ (chain_aligned c len) false
    len len = p at hround hcall
  obtain ⟨calls0, next⟩ := p
  simp only at hcall
  subst hcall
  obtain ⟨calls, hcalls⟩ :=
    buffer_add_fd_run_cons_calls rd rest malloc_ok 0 ⟨[c], d⟩ len len _ _ hround
  refine ⟨calls, ?_⟩
  unfold buffer_add_fd_calls
  have hneg : ¬ len < 0 := by omega
  simp only [hneg, if_false]
  rw [hcalls]
  rfl

/-- On a buffer whose one segment has `2 ^ 31` bytes and `data = tail = end`, `buffer_add_fd`
for a request of one byte, with a descriptor that fails with `EAGAIN`, returns `0` and leaves
the segment compacted: empty, with `2 ^ 31` bytes free. -/
theorem buffer_add_fd_2g_would_block (c : buffer_chain) (d : Nat) (malloc_ok : Nat → Bool)
    (hd : c.data = 2147483648) (ht : c.tail = 2147483648) (he : c.end_ = 2147483648) :
    buffer_add_fd ⟨[c], d⟩ 1 malloc_ok [fun _ => ⟨-1, errno_t.EAGAIN, []⟩]
      = some (0, false, ⟨[chain_aligned c 1], d⟩) := by
  obtain ⟨_, a2, a3⟩ := chain_aligned_2g_drained c 1 (by omega) hd ht he
  have hch := buffer_add_fd_chain_concat [] c d 1 (malloc_ok 0)
  simp only [List.nil_append, a2, a3] at hch
  norm_num at hch
  unfold buffer_add_fd
  have hneg : ¬ (1 : Int) < 0 := by omega
  simp only [hneg, if_false]
  unfold buffer_add_fd_loop
  rw [hch]
  have e1 : int_of (-1) = -1 := by decide
  have e0 : int_of (1 - 1) = 0 := by decide
  have hst : buffer_set_tail ⟨[chain_aligned c 1], d⟩ (chain_aligned c 1)
      = ⟨[chain_aligned c 1], d⟩ := buffer_set_tail_concat [] _ _ d
  simp only [e1, e0, Int.reduceNeg, Int.reduceLT, if_true, if_false, hst]

/-- A state reached from a buffer without segments whose one segment is empty and has `2 ^ 31`
bytes free. -/
theorem buffer_reach_2g_free :
    ∃ c, buffer_reach (fun _ => True) ⟨[c], 0⟩ ∧ c.data = 0 ∧ c.tail = 0 ∧
      c.end_ = 2147483648 ∧ chain_inv c ∧ chain_region c := by
  obtain ⟨c, _, hreach, hd, ht, he, hr⟩ := buffer_reach_2g_drained
  have hic : chain_inv c := by unfold chain_inv; omega
  obtain ⟨a1, a2, a3⟩ := chain_aligned_2g_drained c 1 (by omega) hd ht he
  obtain ⟨b1, b2, _⟩ := chain_aligned_spec c 1 hic hr
  refine ⟨chain_aligned c 1, ?_, a1, a2, a3, b1, b2⟩
  exact buffer_reach.add_fd ⟨[c], 0⟩ 1 (fun _ => true) [fun _ => ⟨-1, errno_t.EAGAIN, []⟩]
    0 false _ hreach (by decide)
    (fun rd hrd count => by
      simp only [List.mem_singleton] at hrd
      subst hrd
      exact Or.inl rfl)
    (buffer_add_fd_2g_would_block c 0 (fun _ => true) hd ht he) trivial

/-! ## Interrupted calls of `read` -/

/-- The compaction step changes nothing when it is made a second time. -/
theorem chain_aligned_idem (c : buffer_chain) (len : Int) :
    chain_aligned (chain_aligned c len) len = chain_aligned c len := by
  by_cases h : buffer_chain_should_align c len = true
  · have e : chain_aligned c len = buffer_chain_align c := by simp [chain_aligned, h]
    rw [e]
    exact chain_aligned_data_zero _ len rfl
  · have e : chain_aligned c len = c := by simp [chain_aligned, h]
    rw [e, e]

/-- The first part of a round of `buffer_add_fd` changes nothing when it is made a second time,
and it does not call `malloc` then. -/
theorem buffer_add_fd_chain_again (b : buffer) (len : Int) (malloc_ok : Bool) (b0 : buffer)
    (chain : buffer_chain) (used : Bool)
    (h : buffer_add_fd_chain b len malloc_ok = some (b0, some (chain, used)))
    (malloc_ok1 : Bool) :
    buffer_add_fd_chain b0 len malloc_ok1 = some (b0, some (chain, false)) ∧
      buffer_set_tail b0 chain = b0 := by
  obtain ⟨l, d⟩ := b
  obtain ⟨_, _, _, _, z5, _⟩ := chain_fresh_4096
  have hfresh : ∀ pre : List buffer_chain,
      buffer_add_fd_chain ⟨pre ++ [chain_fresh 4096], d⟩ len malloc_ok1
        = some (⟨pre ++ [chain_fresh 4096], d⟩, some (chain_fresh 4096, false)) := by
    intro pre
    rw [buffer_add_fd_chain_concat, chain_aligned_data_zero _ len rfl, if_pos z5]
  rcases buffer_tail_cases ⟨l, d⟩ with ⟨hnil, _⟩ | ⟨pre, c0, hcat, _⟩
  · simp only at hnil
    subst hnil
    rw [buffer_add_fd_chain_nil] at h
    cases malloc_ok <;> simp at h
    obtain ⟨h1, h2, _⟩ := h
    subst h1 h2
    exact ⟨hfresh [], buffer_set_tail_concat [] _ _ d⟩
  · simp only at hcat
    subst hcat
    rw [buffer_add_fd_chain_concat] at h
    by_cases hroom : (chain_aligned c0 len).tail < (chain_aligned c0 len).end_
    · simp only [hroom, if_true, Option.some.injEq, Prod.mk.injEq] at h
      obtain ⟨h1, h2, _⟩ := h
      subst h1 h2
      refine ⟨?_, buffer_set_tail_concat pre _ _ d⟩
      rw [buffer_add_fd_chain_concat, chain_aligned_idem, if_pos hroom]
    · cases malloc_ok <;> simp [hroom] at h
      obtain ⟨h1, h2, _⟩ := h
      subst h1 h2
      have e : pre ++ [chain_aligned c0 len, chain_fresh 4096]
          = (pre ++ [chain_aligned c0 len]) ++ [chain_fresh 4096] := by simp
      rw [e]
      exact ⟨hfresh _, buffer_set_tail_concat _ _ _ d⟩

/-- A failure `EINTR` put before the script does not change the result of the loop of
`buffer_add_fd` when `remain` is not `0`. -/
theorem buffer_add_fd_loop_eintr (reads : List (Int → read_result)) (malloc_ok : Nat → Bool)
    (k : Nat) (b : buffer) (len remain : Int) (res : Int × Bool × buffer) (hrem : remain ≠ 0)
    (h : buffer_add_fd_loop reads malloc_ok k b len remain = some res) :
    buffer_add_fd_loop (read_eintr :: reads) malloc_ok k b len remain = some res := by
  cases reads with
  | nil => simp [buffer_add_fd_loop] at h
  | cons rd rest =>
    obtain ⟨⟨b0, cu⟩, e0⟩ := buffer_add_fd_chain_some b len (malloc_ok k)
    cases cu with
    | none =>
      unfold buffer_add_fd_loop at h ⊢
      rw [e0] at h ⊢
      exact h
    | some cu =>
      obtain ⟨chain, used⟩ := cu
      obtain ⟨e1, e2⟩ := buffer_add_fd_chain_again b len (malloc_ok k) b0 chain used e0
        (malloc_ok (if used then k + 1 else k))
      have hfirst : buffer_add_fd_loop (read_eintr :: rd :: rest) malloc_ok k b len remain
          = buffer_add_fd_loop (rd :: rest) malloc_ok (if used then k + 1 else k) b0 len
            remain := by
        conv => lhs; unfold buffer_add_fd_loop
        rw [e0]
        have e : int_of (-1) = -1 := by decide
        simp only [read_eintr, e, Int.reduceNeg, Int.reduceLT, if_true, if_false, e2, hrem,
          ne_eq, not_false_eq_true]
      have hsecond : buffer_add_fd_loop (rd :: rest) malloc_ok (if used then k + 1 else k) b0
          len remain = buffer_add_fd_loop (rd :: rest) malloc_ok k b len remain := by
        conv => lhs; unfold buffer_add_fd_loop
        conv => rhs; unfold buffer_add_fd_loop
        rw [e0, e1]
        simp only [Bool.false_eq_true, if_false]
      rw [hfirst, hsecond]
      exact h

/-- The result of the loop of `buffer_add_fd` is kept when the script behind its first entry is
replaced by one that gives the same result from every state with `remain` other than `0`. -/
theorem buffer_add_fd_loop_congr (rd : Int → read_result)
    (reads reads1 : List (Int → read_result)) (malloc_ok : Nat → Bool) (len : Int)
    (res : Int × Bool × buffer)
    (hrest : ∀ (k : Nat) (b : buffer) (remain : Int), remain ≠ 0 →
      buffer_add_fd_loop reads malloc_ok k b len remain = some res →
      buffer_add_fd_loop reads1 malloc_ok k b len remain = some res)
    (k : Nat) (b : buffer) (remain : Int)
    (h : buffer_add_fd_loop (rd :: reads) malloc_ok k b len remain = some res) :
    buffer_add_fd_loop (rd :: reads1) malloc_ok k b len remain = some res := by
  unfold buffer_add_fd_loop at h ⊢
  cases hc : buffer_add_fd_chain b len (malloc_ok k) with
  | none => rw [hc] at h; simp at h
  | some p =>
    obtain ⟨b0, cu⟩ := p
    rw [hc] at h
    cases cu with
    | none => exact h
    | some cu =>
      obtain ⟨chain, used⟩ := cu
      simp only at h ⊢
      generalize (if remain < int_of (chain.end_ - chain.tail) then remain
        else int_of (chain.end_ - chain.tail)) = av at h ⊢
      generalize rd (size_t_of av) = r at h ⊢
      by_cases h1 : int_of r.ret < 0
      · simp only [h1, if_true] at h ⊢
        cases herr : r.errno <;> rw [herr] at h <;> simp only at h ⊢
        · by_cases h2 : remain = 0
          · simp only [h2, ne_eq, not_true_eq_false, if_false] at h ⊢
            exact h
          · simp only [h2, ne_eq, not_false_eq_true, if_true] at h ⊢
            exact hrest _ _ _ h2 h
        all_goals exact h
      · simp only [h1, if_false] at h ⊢
        by_cases h3 : int_of r.ret = 0
        · simp only [h3, if_true] at h ⊢
          exact h
        · simp only [h3, if_false] at h ⊢
          by_cases h4 : int_of (remain - int_of r.ret) = 0
          · simp only [h4, ne_eq, not_true_eq_false, if_false] at h ⊢
            exact h
          · simp only [h4, ne_eq, not_false_eq_true, if_true] at h ⊢
            exact hrest _ _ _ h4 h

/-- Failures `EINTR` put into the script do not change the result of the loop of
`buffer_add_fd` when `remain` is not `0`. -/
theorem buffer_add_fd_loop_with_eintr (malloc_ok : Nat → Bool) (len : Int)
    (res : Int × Bool × buffer) (ns : List Nat) :
    ∀ (reads : List (Int → read_result)) (k : Nat) (b : buffer) (remain : Int), remain ≠ 0 →
      buffer_add_fd_loop reads malloc_ok k b len remain = some res →
      buffer_add_fd_loop (with_eintr ns reads) malloc_ok k b len remain = some res := by
  induction ns with
  | nil =>
    intro reads k b remain _ h
    exact h
  | cons n ns ih =>
    intro reads k b remain hrem h
    cases reads with
    | nil => simp [buffer_add_fd_loop] at h
    | cons rd reads =>
      have hstep : buffer_add_fd_loop (rd :: with_eintr ns reads) malloc_ok k b len remain
          = some res :=
        buffer_add_fd_loop_congr rd reads (with_eintr ns reads) malloc_ok len res
          (fun k1 b1 remain1 hr1 h1 => ih reads k1 b1 remain1 hr1 h1) k b remain h
      show buffer_add_fd_loop (List.replicate n read_eintr ++ rd :: with_eintr ns reads)
        malloc_ok k b len remain = some res
      induction n with
      | zero => exact hstep
      | succ m ihm =>
        rw [List.replicate_succ, List.cons_append]
        exact buffer_add_fd_loop_eintr _ malloc_ok k b len remain res hrem ihm

/-! ## Compaction -/

theorem buffer_run_add_drain (b b1 : buffer) (s1 : List UInt8) (n r1 : Int)
    (e1 : buffer_add b s1 (byte_len s1) true = some (r1, b1)) :
    buffer_run b [stream_op.add s1, stream_op.drain n] = some (buffer_drain b1 n) := by
  simp only [buffer_run, e1]

/-- A call of `buffer_add` with `2 ^ 30 + 1` bytes on a buffer without segments and a call of
`buffer_drain` with one byte leave a segment of `2 ^ 31` bytes with one byte drained. -/
theorem buffer_reach_1g_drained :
    ∃ c, buffer_run ⟨[], 0⟩ [stream_op.add (zero_bytes 1073741825), stream_op.drain 1]
        = some ⟨[c], 0⟩ ∧
      buffer_reach (fun _ => True) ⟨[c], 0⟩ ∧ c.data = 1 ∧ c.tail = 1073741825 ∧
      c.end_ = 2147483648 ∧ chain_region c := by
  have hs1 : (1073741825 : Int) ≤ ((zero_bytes 1073741825).length : Nat) := by
    rw [zero_bytes_length]; omega
  have hb1 : (((List.take (1073741825 : Int).toNat (zero_bytes 1073741825)).length : Nat) : Int)
      = 1073741825 := by
    rw [List.length_take, zero_bytes_length]; omega
  have e1 := buffer_add_nil_eq 0 (zero_bytes 1073741825) 1073741825 (by omega)
    (by unfold INT_MAX; omega) hs1 true
  rw [if_pos rfl] at e1
  obtain ⟨_, s2, _, _, s5, s6, s7⟩ := chain_store_fresh_spec 1073741825
    (List.take (1073741825 : Int).toNat (zero_bytes 1073741825)) (by omega) (by omega) hb1
  have hcap : ((chain_cap (1073741825 : Int).toNat : Nat) : Int) = 2147483648 := by
    rw [show (1073741825 : Int).toNat = 1073741825 from rfl, chain_cap_2g]
    rfl
  rw [hcap] at s7
  generalize chain_store (chain_fresh 1073741825)
    (List.take (1073741825 : Int).toNat (zero_bytes 1073741825)) = c1 at e1 s2 s5 s6 s7
  have l1 : byte_len (zero_bytes 1073741825) = 1073741825 := by
    rw [byte_len_eq, zero_bytes_length]; rfl
  have hdr : buffer_drain ⟨[c1], 0⟩ 1 = ⟨[{ c1 with data := 1 }], 0⟩ := by
    simp [buffer_drain, buffer_drain_loop, buffer_set_head, s5, s6, int_of, size_t_of]
  refine ⟨{ c1 with data := 1 }, ?_, ?_, rfl, s6, s7, s2⟩
  · rw [← hdr]
    exact buffer_run_add_drain _ _ _ _ _ (by rw [l1]; exact e1)
  · rw [← hdr]
    exact buffer_reach.drain _ _
      (buffer_reach.add _ _ _ _ _ _ (buffer_reach.init 0 trivial) (by omega)
        (by unfold INT_MAX; omega) hs1 e1 trivial)
      (by omega) (by omega) trivial

/-- After the compaction step of an append at most half of the capacity of the segment is
drained, when fewer than `2 ^ 31` bytes are drained before. -/
theorem chain_aligned_half (c : buffer_chain) (len : Int) (hi : chain_inv c)
    (hr : chain_region c) (hd : c.data ≤ INT_MAX) :
    (chain_aligned c len).data ≤ (chain_aligned c len).end_ / 2 := by
  obtain ⟨h0, h1, h2⟩ := hi
  obtain ⟨_, hcap⟩ := hr
  unfold INT_MAX at hd
  by_cases hs : buffer_chain_should_align c len = true
  · have e : chain_aligned c len = buffer_chain_align c := by simp [chain_aligned, hs]
    rw [e]
    show (0 : Int) ≤ c.end_ / 2
    omega
  · have e : chain_aligned c len = c := by simp [chain_aligned, hs]
    rw [e]
    by_cases hz : c.data = 0
    · rw [hz]; omega
    · unfold buffer_chain_should_align at hs
      simp only [hz, if_false, sub_zero] at hs
      rw [int_of_eq c.data (by omega) (by omega)] at hs
      by_cases he : c.end_ = 2147483648
      · exfalso
        rw [he] at hs
        have e1 : int_of 2147483648 = -2147483648 := by decide
        have e2 : Int.tdiv (-2147483648) 2 = -1073741824 := by decide
        rw [e1, e2] at hs
        have : c.data > -1073741824 := by omega
        simp [this] at hs
      · rw [int_of_eq c.end_ (by omega) (by omega),
          Int.tdiv_eq_ediv (by omega) (by omega)] at hs
        by_contra hgt
        have : c.data > c.end_ / 2 := by omega
        simp [this] at hs

/-- In a chain of the shape `chain_shape` every segment with a successor is filled up and not
empty, and the last segment is a `seg_last`. -/
theorem chain_shape_at (pre : List buffer_chain) (c : buffer_chain) (post : List buffer_chain)
    (h : chain_shape (pre ++ c :: post)) :
    (post ≠ [] → seg_mid c) ∧ (post = [] → seg_last c) := by
  induction pre with
  | nil =>
    obtain ⟨_, h2, h3⟩ := chain_shape_cons c post h
    exact ⟨h2, h3⟩
  | cons p ps ih =>
    exact ih (chain_shape_cons p (ps ++ c :: post) h).1

/-! ## A request of no bytes -/

/-- The chain after the first part of a round of `buffer_add_fd` when `malloc` succeeds: a
segment of 4096 bytes is linked when there is no tail segment or the tail segment, compacted if
need be, has no free space. -/
theorem buffer_add_fd_chain_head (b : buffer) (len : Int) (b0 : buffer)
    (res : Option (buffer_chain × Bool))
    (h : buffer_add_fd_chain b len true = some (b0, res)) :
    (buffer_tail b = none → b0.head = [chain_fresh 4096]) ∧
    (∀ pre c, b.head = pre ++ [c] →
      b0.head = if (chain_aligned c len).tail < (chain_aligned c len).end_ then
          pre ++ [chain_aligned c len]
        else pre ++ [chain_aligned c len, chain_fresh 4096]) := by
  obtain ⟨l, d⟩ := b
  rcases buffer_tail_cases ⟨l, d⟩ with ⟨hnil, _⟩ | ⟨pre0, c0, hcat, htl⟩
  · simp only at hnil
    subst hnil
    rw [buffer_add_fd_chain_nil] at h
    simp only [if_true, Option.some.injEq, Prod.mk.injEq] at h
    refine ⟨fun _ => by rw [← h.1], ?_⟩
    intro pre c e
    simp at e
  · simp only at hcat
    subst hcat
    rw [buffer_add_fd_chain_concat] at h
    refine ⟨fun hn => (by rw [htl] at hn; cases hn), ?_⟩
    intro pre c e
    simp only at e
    obtain ⟨e1, e2⟩ := List.append_inj' e rfl
    simp only [List.cons.injEq, and_true] at e2
    subst e1 e2
    by_cases hroom : (chain_aligned c0 len).tail < (chain_aligned c0 len).end_
    · simp only [hroom, if_true, Option.some.injEq, Prod.mk.injEq] at h ⊢
      rw [← h.1]
    · simp only [hroom, if_false, if_true, Option.some.injEq, Prod.mk.injEq] at h ⊢
      rw [← h.1]

/-- On a buffer whose one segment has `2 ^ 31` free bytes after the compaction step,
`buffer_add_fd` for a request of `len` bytes, with a descriptor that delivers `n > len` bytes
to the first call of `read` (which asks for `2 ^ 64 - 2 ^ 31` bytes) and then fails with
`EAGAIN`, returns `n`. -/
theorem buffer_add_fd_free_2g_large (c : buffer_chain) (d : Nat) (len n : Int)
    (malloc_ok : Nat → Bool) (bytes : List UInt8) (hlen : 0 ≤ len) (hn : len < n)
    (hn2 : n ≤ INT_MAX) (a1 : (chain_aligned c len).data = 0)
    (a2 : (chain_aligned c len).tail = 0) (a3 : (chain_aligned c len).end_ = 2147483648) :
    ∃ b1, buffer_add_fd ⟨[c], d⟩ len malloc_ok
        [fun _ => ⟨n, errno_t.other, bytes⟩, fun _ => ⟨-1, errno_t.EAGAIN, []⟩]
        = some (n, false, b1) := by
  unfold INT_MAX at hn2
  have hch := buffer_add_fd_chain_concat [] c d len (malloc_ok 0)
  simp only [List.nil_append, a2, a3] at hch
  norm_num at hch
  generalize chain_aligned c len = ca at a1 a2 a3 hch
  -- the segment after the first call of `read`
  have hc2 : ∀ m : List UInt8, chain_aligned
      ({ data := ca.data, tail := ca.tail + n, end_ := ca.end_, head := m } : buffer_chain) len
      = { data := ca.data, tail := ca.tail + n, end_ := ca.end_, head := m } :=
    fun m => chain_aligned_data_zero _ len a1
  have hch2 : ∀ (m : List UInt8) (ok : Bool), buffer_add_fd_chain
      ⟨[{ data := ca.data, tail := ca.tail + n, end_ := ca.end_, head := m }], d⟩ len ok
      = some (⟨[{ data := ca.data, tail := ca.tail + n, end_ := ca.end_, head := m }], d⟩,
          some ({ data := ca.data, tail := ca.tail + n, end_ := ca.end_, head := m }, false)) := by
    intro m ok
    have := buffer_add_fd_chain_concat []
      { data := ca.data, tail := ca.tail + n, end_ := ca.end_, head := m } d len ok
    simp only [List.nil_append, hc2] at this
    rw [this, if_pos (by show ca.tail + n < ca.end_; omega)]
  have hst : ∀ x y : buffer_chain, buffer_set_tail ⟨[x], d⟩ y = ⟨[y], d⟩ :=
    fun x y => buffer_set_tail_concat [] x y d
  have hneg : ¬ len < 0 := by omega
  have e1 : int_of (ca.end_ - ca.tail) = -2147483648 := by
    rw [a2, a3]; decide
  have e2 : int_of n = n := int_of_eq _ (by omega) (by omega)
  have e3 : int_of (len - n) = len - n := int_of_eq _ (by omega) (by omega)
  have e4 : int_of (-1) = -1 := by decide
  have e5 : int_of (len - (len - n)) = n := by
    rw [show len - (len - n) = n by omega]
    exact e2
  have h1 : ¬ len < -2147483648 := by omega
  have h2 : ¬ n < 0 := by omega
  have h3 : ¬ n = 0 := by omega
  have h4 : (0 : Int) < n := by omega
  have h5 : ¬ len - n = 0 := by omega
  refine ⟨⟨[{ data := ca.data, tail := ca.tail + n, end_ := ca.end_,
               head := mem_write ca.head ca.tail bytes }], d⟩, ?_⟩
  unfold buffer_add_fd
  simp only [hneg, if_false]
  unfold buffer_add_fd_loop
  rw [hch]
  simp only [e1, h1, if_false, e2, h2, h3, h4, if_true, e3, h5, ne_eq, not_false_eq_true, hst]
  unfold buffer_add_fd_loop
  simp only [hst, hch2, e4, e5, Int.reduceNeg, Int.reduceLT, if_true, if_false,
    Bool.false_eq_true]

/-! ## Compaction: the content of the segment -/

/-- The first part of a round of `buffer_add_fd` ends with `NULL` from `buffer_expand` exactly
when the buffer needs a new segment and `malloc` fails. -/
theorem buffer_add_fd_chain_null (b : buffer) (len : Int) (malloc_ok : Bool) :
    (∃ b0, buffer_add_fd_chain b len malloc_ok = some (b0, none)) ↔
      buffer_needs_segment b len ∧ malloc_ok = false := by
  obtain ⟨l, d⟩ := b
  rcases buffer_tail_cases ⟨l, d⟩ with ⟨hnil, ht⟩ | ⟨pre, c0, hcat, ht⟩
  · simp only at hnil
    subst hnil
    rw [buffer_add_fd_chain_nil]
    unfold buffer_needs_segment
    rw [ht]
    cases malloc_ok <;> simp
  · simp only at hcat
    subst hcat
    rw [buffer_add_fd_chain_concat]
    unfold buffer_needs_segment
    rw [ht]
    by_cases hroom : (chain_aligned c0 len).tail < (chain_aligned c0 len).end_
    · simp [hroom]
    · cases malloc_ok
      · simp only [hroom, if_false, Bool.false_eq_true, Option.some.injEq, Prod.mk.injEq,
          and_true, exists_eq', not_false_eq_true, forall_eq']
      · simp [hroom]

/-- A round of `buffer_add_fd` that has reached the label `begin` does not end for a failed
allocation. -/
theorem buffer_add_fd_begin_stop (rd : Int → read_result) (b0 : buffer) (chain : buffer_chain)
    (used : Bool) (len remain : Int) (r : Int) (eof : Bool) (b1 : buffer) :
    (buffer_add_fd_begin rd b0 chain used len remain).2
      ≠ fd_next.stop fd_stop.alloc_failed r eof b1 := by
  unfold buffer_add_fd_begin
  simp only
  generalize (if remain < int_of (chain.end_ - chain.tail) then remain
    else int_of (chain.end_ - chain.tail)) = av
  generalize rd (size_t_of av) = rr
  obtain ⟨ret, errno, bytes⟩ := rr
  simp only
  by_cases h1 : int_of ret < 0
  · cases errno <;> by_cases h0 : remain = 0 <;> simp [h1, h0]
  · by_cases h2 : int_of ret = 0
    · simp [h1, h2]
    · by_cases h3 : int_of (remain - int_of ret) = 0 <;> simp [h1, h2, h3]

/-- A round of `buffer_add_fd` ends for a failed allocation exactly when the buffer needs a new
segment and `malloc` fails; it then returns `-1` without a call of `read`. -/
theorem buffer_add_fd_round_alloc (rd : Int → read_result) (malloc_ok : Bool) (b : buffer)
    (len remain : Int) :
    ((∃ calls r eof b1, buffer_add_fd_round rd malloc_ok b len remain
        = some (calls, fd_next.stop fd_stop.alloc_failed r eof b1)) ↔
      buffer_needs_segment b len ∧ malloc_ok = false) ∧
    (buffer_needs_segment b len ∧ malloc_ok = false →
      ∃ b1, buffer_add_fd_round rd malloc_ok b len remain
        = some ([], fd_next.stop fd_stop.alloc_failed (-1) false b1)) := by
  have hnull := buffer_add_fd_chain_null b len malloc_ok
  obtain ⟨⟨b0, res⟩, e0⟩ := buffer_add_fd_chain_some b len malloc_ok
  cases res with
  | none =>
    have e : buffer_add_fd_round rd malloc_ok b len remain
        = some ([], fd_next.stop fd_stop.alloc_failed (-1) false b0) := by
      unfold buffer_add_fd_round; rw [e0]
    have hn := hnull.mp ⟨b0, e0⟩
    exact ⟨⟨fun _ => hn, fun _ => ⟨_, _, _, _, e⟩⟩, fun _ => ⟨b0, e⟩⟩
  | some cu =>
    obtain ⟨chain, used⟩ := cu
    have e : buffer_add_fd_round rd malloc_ok b len remain
        = some (buffer_add_fd_begin rd b0 chain used len remain) := by
      unfold buffer_add_fd_round; rw [e0]
    have hno : ¬ (buffer_needs_segment b len ∧ malloc_ok = false) := by
      intro hn
      obtain ⟨b2, e2⟩ := hnull.mpr hn
      rw [e0] at e2
      simp at e2
    refine ⟨⟨?_, fun hn => absurd hn hno⟩, fun hn => absurd hn hno⟩
    rintro ⟨calls, r, eof, b1, h⟩
    rw [e] at h
    simp only [Option.some.injEq] at h
    have := buffer_add_fd_begin_stop rd b0 chain used len remain r eof b1
    rw [h] at this
    exact absurd rfl this

/-- The loop of `buffer_add_fd` ends for a failed allocation exactly when one of its rounds
starts from a buffer that needs a new segment and the call of `malloc` of that round fails; it
then returns `-1`, with the flag `*eof` false. -/
theorem buffer_add_fd_run_alloc (reads : List (Int → read_result)) :
    ∀ (malloc_ok : Nat → Bool) (k : Nat) (b : buffer) (len remain : Int),
      ((∃ r eof b1, (buffer_add_fd_run reads malloc_ok k b len remain).2
          = some (fd_stop.alloc_failed, r, eof, b1)) ↔
        ∃ st ∈ buffer_add_fd_starts_from reads malloc_ok k b len remain,
          buffer_needs_segment st.buf len ∧ malloc_ok st.mallocs = false) ∧
      ((∃ st ∈ buffer_add_fd_starts_from reads malloc_ok k b len remain,
          buffer_needs_segment st.buf len ∧ malloc_ok st.mallocs = false) →
        ∃ b1, (buffer_add_fd_run reads malloc_ok k b len remain).2
          = some (fd_stop.alloc_failed, -1, false, b1)) := by
  induction reads with
  | nil =>
    intro malloc_ok k b len remain
    simp [buffer_add_fd_run, buffer_add_fd_starts_from]
  | cons rd reads ih =>
    intro malloc_ok k b len remain
    obtain ⟨hiff, hfail⟩ := buffer_add_fd_round_alloc rd (malloc_ok k) b len remain
    cases hround : buffer_add_fd_round rd (malloc_ok k) b len remain with
    | none =>
      have hno : ¬ (buffer_needs_segment b len ∧ malloc_ok k = false) := by
        intro hn
        obtain ⟨b1, e1⟩ := hfail hn
        rw [hround] at e1
        cases e1
      unfold buffer_add_fd_run buffer_add_fd_starts_from
      rw [hround]
      simp only [List.mem_singleton]
      refine ⟨⟨?_, ?_⟩, ?_⟩
      · rintro ⟨r, eof, b1, h⟩
        cases h
      · rintro ⟨st, hst, hn⟩
        subst hst
        exact absurd hn hno
      · rintro ⟨st, hst, hn⟩
        subst hst
        exact absurd hn hno
    | some p =>
      obtain ⟨calls, next⟩ := p
      cases next with
      | stop s r eof b1 =>
        rw [buffer_add_fd_run_cons_stop rd reads malloc_ok k b len remain _ _ _ _ _ hround]
        unfold buffer_add_fd_starts_from
        rw [hround]
        simp only [List.mem_singleton]
        have hback : (∃ st : fd_start, st = { mallocs := k, buf := b, remain := remain } ∧
            buffer_needs_segment st.buf len ∧ malloc_ok st.mallocs = false) →
            s = fd_stop.alloc_failed ∧ r = -1 ∧ eof = false := by
          rintro ⟨st, hst, hn⟩
          subst hst
          obtain ⟨b2, e2⟩ := hfail hn
          rw [hround] at e2
          simp only [Option.some.injEq, Prod.mk.injEq, fd_next.stop.injEq] at e2
          exact ⟨e2.2.1, e2.2.2.1, e2.2.2.2.1⟩
        refine ⟨⟨?_, ?_⟩, ?_⟩
        · rintro ⟨r2, eof2, b2, h⟩
          simp only [Option.some.injEq, Prod.mk.injEq] at h
          obtain ⟨hs, _, _, _⟩ := h
          subst hs
          exact ⟨_, rfl, hiff.mp ⟨_, _, _, _, hround⟩⟩
        · intro h
          obtain ⟨hs, _, _⟩ := hback h
          subst hs
          exact ⟨_, _, _, rfl⟩
        · intro h
          obtain ⟨hs, hr, he⟩ := hback h
          subst hs hr he
          exact ⟨_, rfl⟩
      | again used b1 remain1 =>
        have hno : ¬ (buffer_needs_segment b len ∧ malloc_ok k = false) := by
          intro hn
          obtain ⟨b2, e2⟩ := hfail hn
          rw [hround] at e2
          simp at e2
        rw [buffer_add_fd_run_cons_again rd reads malloc_ok k b len remain _ _ _ _ hround]
        have hst : buffer_add_fd_starts_from (rd :: reads) malloc_ok k b len remain
            = { mallocs := k, buf := b, remain := remain } ::
              buffer_add_fd_starts_from reads malloc_ok (if used then k + 1 else k) b1 len
                remain1 := by
          conv => lhs; unfold buffer_add_fd_starts_from
          rw [hround]
        rw [hst]
        obtain ⟨ih1, ih2⟩ := ih malloc_ok (if used then k + 1 else k) b1 len remain1
        have hmem : (∃ st ∈ ({ mallocs := k, buf := b, remain := remain } : fd_start) ::
              buffer_add_fd_starts_from reads malloc_ok (if used then k + 1 else k) b1 len
                remain1,
            buffer_needs_segment st.buf len ∧ malloc_ok st.mallocs = false) ↔
            ∃ st ∈ buffer_add_fd_starts_from reads malloc_ok (if used then k + 1 else k) b1
                len remain1,
              buffer_needs_segment st.buf len ∧ malloc_ok st.mallocs = false := by
          constructor
          · rintro ⟨st, hm, hn⟩
            simp only [List.mem_cons] at hm
            rcases hm with hm | hm
            · subst hm
              exact absurd hn hno
            · exact ⟨st, hm, hn⟩
          · rintro ⟨st, hm, hn⟩
            exact ⟨st, by simp [hm], hn⟩
        simp only
        rw [hmem]
        exact ⟨ih1, ih2⟩

/-- A call of `buffer_add_fd` ends at the statement `return -1` after `buffer_expand` returned
`NULL` exactly when a needed allocation fails, and when a needed allocation fails it
returns `-1`. -/
theorem buffer_add_fd_alloc_fails (b : buffer) (len : Int) (malloc_ok : Nat → Bool)
    (reads : List (Int → read_result)) :
    (buffer_add_fd_stop b len malloc_ok reads = some fd_stop.alloc_failed ↔
      fd_alloc_fails b len malloc_ok reads) ∧
    (fd_alloc_fails b len malloc_ok reads →
      ∃ b1, buffer_add_fd b len malloc_ok reads = some (-1, false, b1)) := by
  obtain ⟨h1, h2⟩ := buffer_add_fd_run_alloc reads malloc_ok 0 b
    (if len < 0 then INT_MAX else len) (if len < 0 then INT_MAX else len)
  rw [buffer_add_fd_eq_run]
  unfold buffer_add_fd_stop fd_alloc_fails buffer_add_fd_starts
  simp only
  refine ⟨?_, ?_⟩
  · rw [← h1]
    constructor
    · intro h
      cases hrun : (buffer_add_fd_run reads malloc_ok 0 b (if len < 0 then INT_MAX else len)
          (if len < 0 then INT_MAX else len)).2 with
      | none => rw [hrun] at h; simp at h
      | some x =>
        obtain ⟨s, r, eof, b1⟩ := x
        rw [hrun] at h
        simp only [Option.map_some', Option.some.injEq] at h
        subst h
        exact ⟨r, eof, b1, rfl⟩
    · rintro ⟨r, eof, b1, h⟩
      rw [h]
      rfl
  · intro h
    obtain ⟨b1, e⟩ := h2 h
    rw [e]
    exact ⟨b1, rfl⟩

/-- The starts of the rounds are states of the loop of `buffer_add_fd`: from the start of the
round number `i`, with the rest of the script, the loop ends as the whole run does. -/
theorem buffer_add_fd_starts_run (reads : List (Int → read_result)) :
    ∀ (malloc_ok : Nat → Bool) (k : Nat) (b : buffer) (len remain : Int) (i : Nat)
      (st : fd_start),
      (buffer_add_fd_starts_from reads malloc_ok k b len remain)[i]? = some st →
      (buffer_add_fd_run (reads.drop i) malloc_ok st.mallocs st.buf len st.remain).2
        = (buffer_add_fd_run reads malloc_ok k b len remain).2 := by
  induction reads with
  | nil =>
    intro malloc_ok k b len remain i st h
    simp [buffer_add_fd_starts_from] at h
  | cons rd reads ih =>
    intro malloc_ok k b len remain i st h
    cases i with
    | zero =>
      unfold buffer_add_fd_starts_from at h
      simp only [List.getElem?_cons_zero, Option.some.injEq] at h
      subst h
      rfl
    | succ i =>
      unfold buffer_add_fd_starts_from at h
      simp only [List.getElem?_cons_succ] at h
      cases hround : buffer_add_fd_round rd (malloc_ok k) b len remain with
      | none =>
        rw [hround] at h
        simp at h
      | some p =>
        obtain ⟨calls, next⟩ := p
        cases next with
        | stop s r eof b1 =>
          rw [hround] at h
          simp at h
        | again used b1 remain1 =>
          rw [hround] at h
          simp only at h
          rw [buffer_add_fd_run_cons_again rd reads malloc_ok k b len remain _ _ _ _ hround]
          simp only [List.drop_succ_cons]
          exact ih malloc_ok _ b1 len remain1 i st h

/-- The starts of the rounds of a call of `buffer_add_fd` are states of its loop: the first is
the buffer the call is made on, with `remain = len` and no call of `malloc` made, and from
each of them the loop, with the rest of the script, has the result of the call. -/
theorem buffer_add_fd_starts_loop (b : buffer) (len : Int) (malloc_ok : Nat → Bool)
    (reads : List (Int → read_result)) :
    (reads ≠ [] → (buffer_add_fd_starts b len malloc_ok reads)[0]?
      = some { mallocs := 0, buf := b, remain := if len < 0 then INT_MAX else len }) ∧
    ∀ (i : Nat) (st : fd_start), (buffer_add_fd_starts b len malloc_ok reads)[i]? = some st →
      buffer_add_fd_loop (reads.drop i) malloc_ok st.mallocs st.buf
        (if len < 0 then INT_MAX else len) st.remain
        = buffer_add_fd b len malloc_ok reads := by
  refine ⟨?_, ?_⟩
  · intro hne
    cases reads with
    | nil => exact absurd rfl hne
    | cons rd reads =>
      unfold buffer_add_fd_starts buffer_add_fd_starts_from
      simp
  · intro i st h
    unfold buffer_add_fd_starts at h
    simp only at h
    rw [buffer_add_fd_run_result, buffer_add_fd_eq_run,
      buffer_add_fd_starts_run reads malloc_ok 0 b _ _ i st h]

/-! ## Reading from a descriptor -/

/-- C11: on a buffer whose segments satisfy the segment invariant (each with a storage region of
`end - head` bytes, at most `2 ^ 31`), `buffer_add_fd` with a negative `len` (no bound), every
allocation succeeding, on a descriptor that answers the calls of `read` with the outcomes `rs`
and then fails with `EAGAIN`, where every outcome of `rs` delivers at least one byte and no more
bytes than the call asked for (`fd_fits`) and the bytes `fd_bytes rs` delivered in all are fewer
than `INT_MAX`: the call returns, the value returned is the number of bytes delivered, the flag
`*eof` is false, and the logical byte stream afterwards is the stream before followed by the
bytes delivered. -/
theorem buffer_add_fd_until_would_block (b : buffer) (len : Int) (rs : List read_result)
    (e : read_result) (hi : buffer_inv b) (hr : buffer_region b) (hl : len < 0)
    (hrs : ∀ r ∈ rs, 0 < r.ret ∧ ((r.bytes.length : Nat) : Int) = r.ret)
    (hd : byte_len (fd_bytes rs) < INT_MAX)
    (hfit : fd_fits rs (buffer_add_fd_calls b len (fun _ => true) (fd_script rs e)))
    (he : e.ret = -1 ∧ e.errno = errno_t.EAGAIN) :
    ∃ b1, buffer_add_fd b len (fun _ => true) (fd_script rs e)
        = some (byte_len (fd_bytes rs), false, b1) ∧
      buffer_stream b1 = buffer_stream b ++ fd_bytes rs := by
  unfold buffer_add_fd_calls at hfit
  rw [buffer_add_fd_eq_run]
  simp only [hl, if_true] at hfit ⊢
  obtain ⟨b1, e1, e2, _, _⟩ := buffer_add_fd_script_run e he.1 he.2 (fun _ => true)
    (fun _ => rfl) INT_MAX (le_refl _) rs 0 b INT_MAX hi hr (by decide) (le_refl _) hrs hd hfit
  refine ⟨b1, ?_, e2⟩
  rw [e1]
  simp

/-- Witness of C11: a buffer without segments and a descriptor that delivers three bytes, then
two bytes, and then fails with `EAGAIN`. -/
theorem buffer_add_fd_until_would_block_witness :
    buffer_inv ⟨[], 0⟩ ∧ buffer_region ⟨[], 0⟩ ∧ (-1 : Int) < 0 ∧
    (∀ r ∈ [(⟨3, errno_t.other, [1, 2, 3]⟩ : read_result), ⟨2, errno_t.other, [4, 5]⟩],
      0 < r.ret ∧ ((r.bytes.length : Nat) : Int) = r.ret) ∧
    byte_len (fd_bytes [⟨3, errno_t.other, [1, 2, 3]⟩, ⟨2, errno_t.other, [4, 5]⟩]) < INT_MAX ∧
    fd_fits [⟨3, errno_t.other, [1, 2, 3]⟩, ⟨2, errno_t.other, [4, 5]⟩]
      (buffer_add_fd_calls ⟨[], 0⟩ (-1) (fun _ => true)
        (fd_script [⟨3, errno_t.other, [1, 2, 3]⟩, ⟨2, errno_t.other, [4, 5]⟩]
          ⟨-1, errno_t.EAGAIN, []⟩)) ∧
    ((⟨-1, errno_t.EAGAIN, []⟩ : read_result).ret = -1 ∧
      (⟨-1, errno_t.EAGAIN, []⟩ : read_result).errno = errno_t.EAGAIN) ∧
    ∃ b1, buffer_add_fd ⟨[], 0⟩ (-1) (fun _ => true)
        (fd_script [⟨3, errno_t.other, [1, 2, 3]⟩, ⟨2, errno_t.other, [4, 5]⟩]
          ⟨-1, errno_t.EAGAIN, []⟩)
        = some (byte_len (fd_bytes [⟨3, errno_t.other, [1, 2, 3]⟩, ⟨2, errno_t.other, [4, 5]⟩]),
            false, b1) ∧
      buffer_stream b1 = buffer_stream ⟨[], 0⟩ ++
        fd_bytes [⟨3, errno_t.other, [1, 2, 3]⟩, ⟨2, errno_t.other, [4, 5]⟩] :=
  ⟨by decide, by decide, by decide, by decide, by decide, by decide, by decide,
    buffer_add_fd_until_would_block ⟨[], 0⟩ (-1) _ _ (by decide) (by decide) (by decide)
      (by decide) (by decide) (by decide) (by decide)⟩

/-- C12: on a buffer whose segments satisfy the segment invariant (each with a storage region of
`end - head` bytes, at most `2 ^ 31`), for every `len` and every script of the descriptor
whose answers are as POSIX and Linux have `read` (`read_conforming`): when `buffer_add_fd`
returns, the flag `*eof` is true exactly when the call ended at the `break` after `read`
returned `0`, which is so exactly when one of its calls of `read` returned `0`; the value
returned is then the number of bytes delivered before, not a negative value; whatever else ends
the call (`EAGAIN`, `ENOTCONN`, the requested length, a failure) leaves the flag false.  When
the first call of `read` returns `0` the call returns `0` with the flag true and the byte stream
as it was.  The call returns whenever the script ends with a call of `read` that returns `0` or
fails with a value of `errno` other than `EINTR`. -/
theorem buffer_add_fd_eof (b : buffer) (len : Int) (malloc_ok : Nat → Bool)
    (reads : List (Int → read_result)) (hi : buffer_inv b) (hr : buffer_region b)
    (hl : len ≤ INT_MAX)
    (hrd : ∀ call ∈ buffer_add_fd_calls b len malloc_ok reads,
      read_conforming call.count call.result) :
    (∀ r eof b1, buffer_add_fd b len malloc_ok reads = some (r, eof, b1) →
      (eof = true ↔ buffer_add_fd_stop b len malloc_ok reads = some fd_stop.end_of_file) ∧
      (buffer_add_fd_stop b len malloc_ok reads = some fd_stop.end_of_file ↔
        ∃ call ∈ buffer_add_fd_calls b len malloc_ok reads, call.result.ret = 0) ∧
      (eof = true →
        r = byte_len (fd_delivered (buffer_add_fd_calls b len malloc_ok reads)) ∧ 0 ≤ r)) ∧
    (∀ call rest, buffer_add_fd_calls b len malloc_ok reads = call :: rest →
      call.result.ret = 0 →
      ∃ b1, buffer_add_fd b len malloc_ok reads = some (0, true, b1) ∧
        buffer_stream b1 = buffer_stream b) ∧
    (∀ pre final, reads = pre ++ [final] → read_final final →
      ∃ res, buffer_add_fd b len malloc_ok reads = some res) := by
  obtain ⟨l0, l1⟩ := fd_len_bounds len hl
  have hok := fd_run_ok_of_conforming reads malloc_ok 0 b _ _ hi hr l0 (le_refl _) l1 hrd
  refine ⟨?_, ?_, ?_⟩
  · intro r eof b1 h
    obtain ⟨s, e, _, _, _, _, _, a6, a7, _, a9, a10⟩ :=
      buffer_add_fd_spec b len malloc_ok reads r eof b1 hok h
    rw [e]
    refine ⟨?_, ?_, ?_⟩
    · rw [a6]; simp
    · constructor
      · intro hs
        simp only [Option.some.injEq] at hs
        subst hs
        obtain ⟨pre, call, p1, p2, _⟩ := a10 (by decide)
        exact ⟨call, by rw [p1]; simp, (fd_call_stop_eof call).mp p2⟩
      · rintro ⟨call, hc, hz⟩
        have hcs := (fd_call_stop_eof call).mpr hz
        by_cases hs : s = fd_stop.alloc_failed
        · have := (a9 hs).2.2 call hc
          rw [this] at hcs
          exact absurd hcs (by simp)
        · obtain ⟨pre, last, p1, p2, p3⟩ := a10 hs
          rw [p1] at hc
          simp only [List.mem_append, List.mem_singleton] at hc
          rcases hc with hc | hc
          · have := p3 call hc
            rw [this] at hcs
            exact absurd hcs (by simp)
          · subst hc
            rw [p2] at hcs
            exact hcs
    · intro he
      rw [a6] at he
      simp only [decide_eq_true_eq] at he
      subst he
      rw [a7]
      simp only [reduceCtorEq, or_self, if_false, true_and]
      exact byte_len_nonneg _
  · intro call rest hc hz
    cases reads with
    | nil => simp [buffer_add_fd_calls, buffer_add_fd_run] at hc
    | cons rd reads =>
      unfold buffer_add_fd_calls at hc
      rw [buffer_add_fd_eq_run]
      simp only at hc
      generalize (if len < 0 then INT_MAX else len) = len1 at hok hc ⊢
      rcases buffer_add_fd_run_step rd reads malloc_ok 0 b len1 len1 hok with
        ⟨b1, e, _⟩ | ⟨call0, _, hcase⟩
      · rw [e] at hc
        simp at hc
      · rcases hcase with ⟨s, b1, hcs, _, e, haft⟩ | ⟨used, b1, hcs, _, e, _⟩
        · rw [e] at hc ⊢
          simp only [List.cons.injEq] at hc
          obtain ⟨hc0, _⟩ := hc
          subst hc0
          have hs := (fd_call_stop_eof call0).mpr hz
          rw [hcs] at hs
          simp only [Option.some.injEq] at hs
          subst hs
          have hdel : fd_delivered [call0] = [] := by simp [fd_delivered_one, hz]
          refine ⟨b1, ?_, ?_⟩
          · simp [hdel, byte_len]
          · rw [haft.2.2.1, hdel]; simp
        · rw [e] at hc
          simp only [List.cons.injEq] at hc
          obtain ⟨hc0, _⟩ := hc
          subst hc0
          have hs := (fd_call_stop_eof call0).mpr hz
          rw [hcs] at hs
          exact absurd hs (by simp)
  · intro pre final hreads hf
    subst hreads
    unfold buffer_add_fd
    exact buffer_add_fd_loop_total final hf pre malloc_ok 0 b _ _

/-- Witness of C12: a buffer without segments and a descriptor that returns `0` at once
(scenario D). -/
theorem buffer_add_fd_eof_witness :
    buffer_inv ⟨[], 0⟩ ∧ buffer_region ⟨[], 0⟩ ∧ (10 : Int) ≤ INT_MAX ∧
    (∀ call ∈ buffer_add_fd_calls ⟨[], 0⟩ 10 (fun _ => true)
        [fun _ => ⟨0, errno_t.other, []⟩],
      read_conforming call.count call.result) ∧
    ((∀ r eof b1, buffer_add_fd ⟨[], 0⟩ 10 (fun _ => true) [fun _ => ⟨0, errno_t.other, []⟩]
        = some (r, eof, b1) →
      (eof = true ↔ buffer_add_fd_stop ⟨[], 0⟩ 10 (fun _ => true)
        [fun _ => ⟨0, errno_t.other, []⟩] = some fd_stop.end_of_file) ∧
      (buffer_add_fd_stop ⟨[], 0⟩ 10 (fun _ => true) [fun _ => ⟨0, errno_t.other, []⟩]
          = some fd_stop.end_of_file ↔
        ∃ call ∈ buffer_add_fd_calls ⟨[], 0⟩ 10 (fun _ => true)
          [fun _ => ⟨0, errno_t.other, []⟩], call.result.ret = 0) ∧
      (eof = true →
        r = byte_len (fd_delivered (buffer_add_fd_calls ⟨[], 0⟩ 10 (fun _ => true)
          [fun _ => ⟨0, errno_t.other, []⟩])) ∧ 0 ≤ r)) ∧
    (∀ call rest, buffer_add_fd_calls ⟨[], 0⟩ 10 (fun _ => true)
        [fun _ => ⟨0, errno_t.other, []⟩] = call :: rest →
      call.result.ret = 0 →
      ∃ b1, buffer_add_fd ⟨[], 0⟩ 10 (fun _ => true) [fun _ => ⟨0, errno_t.other, []⟩]
          = some (0, true, b1) ∧
        buffer_stream b1 = buffer_stream ⟨[], 0⟩) ∧
    (∀ pre final, [fun _ => (⟨0, errno_t.other, []⟩ : read_result)] = pre ++ [final] →
      read_final final →
      ∃ res, buffer_add_fd ⟨[], 0⟩ 10 (fun _ => true) [fun _ => ⟨0, errno_t.other, []⟩]
        = some res)) :=
  ⟨by decide, by decide, by decide, by decide,
    buffer_add_fd_eof ⟨[], 0⟩ 10 (fun _ => true) [fun _ => ⟨0, errno_t.other, []⟩]
      (by decide) (by decide) (by decide) (by decide)⟩

/-- C13, counterexample: after `buffer_add` of `2 ^ 30 + 1` bytes and of `2 ^ 30 - 1` bytes and
`buffer_drain` of `2 ^ 31` bytes, the one segment of the buffer satisfies the segment invariant,
and the first call of `read` that `buffer_add_fd` makes for a request of 10 bytes asks for
`2 ^ 64 - 2 ^ 31` bytes, where `remain` is 10 and the free space of the segment is `2 ^ 31`
bytes; when that call delivers 11 bytes and the next one fails with `EAGAIN`, `buffer_add_fd`
returns 11, more than the 10 bytes requested. -/
theorem buffer_add_fd_2g_asks_too_much :
    ∃ b, buffer_run ⟨[], 0⟩
        [stream_op.add (zero_bytes 1073741825), stream_op.add (zero_bytes 1073741823),
          stream_op.drain 2147483648] = some b ∧
      buffer_reach (fun _ => True) b ∧ buffer_inv b ∧ buffer_region b ∧
      ∀ (malloc_ok : Nat → Bool) (rd : Int → read_result) (rest : List (Int → read_result)),
        ∃ call calls, buffer_add_fd_calls b 10 malloc_ok (rd :: rest) = call :: calls ∧
          call.remain = 10 ∧ call.free = 2147483648 ∧ call.count = 18446744071562067968 ∧
          call.count ≠ min call.remain call.free ∧
          ∃ b1, buffer_add_fd b 10 malloc_ok
            [fun _ => ⟨11, errno_t.other, zero_bytes 11⟩, fun _ => ⟨-1, errno_t.EAGAIN, []⟩]
            = some (11, false, b1) := by
  obtain ⟨c, hrun, hreach, hd, ht, he, hr⟩ := buffer_reach_2g_drained
  refine ⟨⟨[c], 0⟩, hrun, hreach, ?_, ?_, ?_⟩
  · intro x hx
    simp only [List.mem_singleton] at hx
    rw [hx]
    unfold chain_inv
    omega
  · intro x hx
    simp only [List.mem_singleton] at hx
    rw [hx]
    exact hr
  · intro malloc_ok rd rest
    obtain ⟨a1, a2, a3⟩ := chain_aligned_2g_drained c 10 (by omega) hd ht he
    obtain ⟨calls, hc⟩ := buffer_add_fd_calls_free_2g c 0 10 malloc_ok rd rest (by omega)
      (by decide) a2 a3
    refine ⟨_, calls, hc, rfl, rfl, rfl, ?_, ?_⟩
    · simp only
      decide
    · exact buffer_add_fd_free_2g_large c 0 10 11 malloc_ok (zero_bytes 11) (by omega)
        (by omega) (by decide) a1 a2 a3

/-- C13, amended: on a buffer whose segments satisfy the segment invariant (each with a storage
region of `end - head` bytes, at most `2 ^ 31`) and whose tail segment, if any, has at most
`INT_MAX` bytes outside its content, for every `len` with `0 ≤ len ≤ INT_MAX` and every script
of the descriptor whose answers have no more bytes than asked for: each call of `read` that
`buffer_add_fd` makes is made with `remain` equal to `len` less the bytes delivered before, into
a segment with free space, and asks for the smaller of `remain` and that free space, which is
more than `0` when `remain` is; when the call returns a value `r` other than `-1`, then
`0 ≤ r ≤ len`, `r` is the number of bytes that the calls of `read` delivered, and the logical
byte stream is the stream before followed by those bytes in order.  The call returns whenever
the script ends with a call of `read` that returns `0` or fails with a value of `errno` other
than `EINTR`. -/
theorem buffer_add_fd_reads (b : buffer) (len : Int) (malloc_ok : Nat → Bool)
    (reads : List (Int → read_result)) (hi : buffer_inv b) (hr : buffer_region b)
    (hs : buffer_tail_slack b) (h0 : 0 ≤ len) (hl : len ≤ INT_MAX)
    (hrd : ∀ call ∈ buffer_add_fd_calls b len malloc_ok reads,
      read_within call.count call.result) :
    (∀ pre call post, buffer_add_fd_calls b len malloc_ok reads = pre ++ call :: post →
      call.remain = len - byte_len (fd_delivered pre) ∧ 0 < call.free ∧
      call.count = min call.remain call.free ∧ (0 < call.remain → 0 < call.count)) ∧
    (∀ r eof b1, buffer_add_fd b len malloc_ok reads = some (r, eof, b1) → r ≠ -1 →
      0 ≤ r ∧ r ≤ len ∧
      r = byte_len (fd_delivered (buffer_add_fd_calls b len malloc_ok reads)) ∧
      buffer_stream b1 = buffer_stream b ++
        fd_delivered (buffer_add_fd_calls b len malloc_ok reads)) ∧
    (∀ pre final, reads = pre ++ [final] → read_final final →
      ∃ res, buffer_add_fd b len malloc_ok reads = some res) := by
  have hneg : ¬ len < 0 := by omega
  have hlen : (if len < 0 then INT_MAX else len) = len := by simp [hneg]
  have hok : fd_run_ok reads malloc_ok 0 b (if len < 0 then INT_MAX else len)
      (if len < 0 then INT_MAX else len) := by
    rw [hlen]
    refine fd_run_ok_of_within reads malloc_ok 0 b len len ⟨hi, hr, hs⟩ h0 (le_refl _) hl ?_
    unfold buffer_add_fd_calls at hrd
    rw [hlen] at hrd
    exact hrd
  refine ⟨?_, ?_, ?_⟩
  · intro pre call post hc
    unfold buffer_add_fd_calls at hc
    simp only at hc
    obtain ⟨_, hcalls⟩ := buffer_add_fd_run_calls reads malloc_ok 0 b _ _ hok
    obtain ⟨j1, j2, _, j4, j5, _, _⟩ := hcalls pre call post hc
    rw [hlen] at j1
    have hf := j4 hs
    rw [if_pos hf] at j5
    refine ⟨j1, j2, j5, ?_⟩
    intro hp
    rw [j5]
    exact lt_min hp j2
  · intro r eof b1 h hne
    obtain ⟨s, _, _, _, _, _, a5, _, a7, a8, _, _⟩ :=
      buffer_add_fd_spec b len malloc_ok reads r eof b1 hok h
    have hnn := byte_len_nonneg (fd_delivered (buffer_add_fd_calls b len malloc_ok reads))
    rw [hlen] at a8
    by_cases hc : s = fd_stop.alloc_failed ∨ s = fd_stop.read_failed
    · rw [if_pos hc] at a7
      exact absurd a7 hne
    · rw [if_neg hc] at a7
      exact ⟨by omega, by omega, a7, a5⟩
  · intro pre final hreads hf
    subst hreads
    unfold buffer_add_fd
    exact buffer_add_fd_loop_total final hf pre malloc_ok 0 b _ _

/-- Witness of C13 (amended): a buffer without segments, a request of four bytes, and a
descriptor that delivers three bytes and then one byte. -/
theorem buffer_add_fd_reads_witness :
    buffer_inv ⟨[], 0⟩ ∧ buffer_region ⟨[], 0⟩ ∧ buffer_tail_slack ⟨[], 0⟩ ∧
    (0 : Int) ≤ 4 ∧ (4 : Int) ≤ INT_MAX ∧
    (∀ call ∈ buffer_add_fd_calls ⟨[], 0⟩ 4 (fun _ => true)
        [fun _ => ⟨3, errno_t.other, [1, 2, 3]⟩, fun _ => ⟨1, errno_t.other, [4]⟩],
      read_within call.count call.result) ∧
    ((∀ pre call post, buffer_add_fd_calls ⟨[], 0⟩ 4 (fun _ => true)
        [fun _ => ⟨3, errno_t.other, [1, 2, 3]⟩, fun _ => ⟨1, errno_t.other, [4]⟩]
        = pre ++ call :: post →
      call.remain = 4 - byte_len (fd_delivered pre) ∧ 0 < call.free ∧
      call.count = min call.remain call.free ∧ (0 < call.remain → 0 < call.count)) ∧
    (∀ r eof b1, buffer_add_fd ⟨[], 0⟩ 4 (fun _ => true)
        [fun _ => ⟨3, errno_t.other, [1, 2, 3]⟩, fun _ => ⟨1, errno_t.other, [4]⟩]
        = some (r, eof, b1) → r ≠ -1 →
      0 ≤ r ∧ r ≤ 4 ∧
      r = byte_len (fd_delivered (buffer_add_fd_calls ⟨[], 0⟩ 4 (fun _ => true)
        [fun _ => ⟨3, errno_t.other, [1, 2, 3]⟩, fun _ => ⟨1, errno_t.other, [4]⟩])) ∧
      buffer_stream b1 = buffer_stream ⟨[], 0⟩ ++
        fd_delivered (buffer_add_fd_calls ⟨[], 0⟩ 4 (fun _ => true)
          [fun _ => ⟨3, errno_t.other, [1, 2, 3]⟩, fun _ => ⟨1, errno_t.other, [4]⟩])) ∧
    (∀ pre final,
      [fun _ => (⟨3, errno_t.other, [1, 2, 3]⟩ : read_result),
        fun _ => ⟨1, errno_t.other, [4]⟩] = pre ++ [final] →
      read_final final →
      ∃ res, buffer_add_fd ⟨[], 0⟩ 4 (fun _ => true)
        [fun _ => ⟨3, errno_t.other, [1, 2, 3]⟩, fun _ => ⟨1, errno_t.other, [4]⟩]
        = some res)) :=
  ⟨by decide, by decide, by decide, by decide, by decide, by decide,
    buffer_add_fd_reads ⟨[], 0⟩ 4 (fun _ => true)
      [fun _ => ⟨3, errno_t.other, [1, 2, 3]⟩, fun _ => ⟨1, errno_t.other, [4]⟩]
      (by decide) (by decide) (by decide) (by decide) (by decide) (by decide)⟩

/-- C14: on a buffer whose segments satisfy the segment invariant (each with a storage region of
`end - head` bytes, at most `2 ^ 31`), for every `len` and every script of the descriptor
whose answers are as POSIX and Linux have `read` (`read_conforming`): when `buffer_add_fd`
returns, the value returned is `-1` exactly when one of the calls of `read` failed with a value
of `errno` other than `EINTR`, `EAGAIN` and `ENOTCONN`, or a needed allocation failed (a round
started from a buffer without a tail segment, or with a tail segment without free space after
the compaction step, and the call of `malloc` of that round failed); these are the two
statements `return -1` of the loop.  A call that ends at `EAGAIN`, `ENOTCONN` or at the end of
the file does not return `-1`.  However the call ends, the segment invariant holds afterwards
and the logical byte stream is the stream before followed by the bytes that the calls of `read`
delivered.  When a needed allocation fails the call does return, with `-1`; and the call
returns whenever the script ends with a call of `read` that returns `0` or fails with a value
of `errno` other than `EINTR`.  The rounds are rounds of the loop of the code: from the start
of each of them `buffer_add_fd_loop`, with the rest of the script, has the result of the
call. -/
theorem buffer_add_fd_failure (b : buffer) (len : Int) (malloc_ok : Nat → Bool)
    (reads : List (Int → read_result)) (hi : buffer_inv b) (hr : buffer_region b)
    (hl : len ≤ INT_MAX)
    (hrd : ∀ call ∈ buffer_add_fd_calls b len malloc_ok reads,
      read_conforming call.count call.result) :
    (∀ r eof b1, buffer_add_fd b len malloc_ok reads = some (r, eof, b1) →
      (r = -1 ↔ fd_read_fails b len malloc_ok reads ∨ fd_alloc_fails b len malloc_ok reads) ∧
      (r = -1 ↔ buffer_add_fd_stop b len malloc_ok reads = some fd_stop.read_failed ∨
        buffer_add_fd_stop b len malloc_ok reads = some fd_stop.alloc_failed) ∧
      (buffer_add_fd_stop b len malloc_ok reads = some fd_stop.read_failed ↔
        ∃ call ∈ buffer_add_fd_calls b len malloc_ok reads,
          call.result.ret = -1 ∧ call.result.errno = errno_t.other) ∧
      (buffer_add_fd_stop b len malloc_ok reads = some fd_stop.alloc_failed ↔
        fd_alloc_fails b len malloc_ok reads) ∧
      (buffer_add_fd_stop b len malloc_ok reads = some fd_stop.alloc_failed →
        (∃ j, malloc_ok j = false) ∧ ∀ c, buffer_tail b1 = some c → c.tail = c.end_) ∧
      (buffer_add_fd_stop b len malloc_ok reads = some fd_stop.would_block ∨
        buffer_add_fd_stop b len malloc_ok reads = some fd_stop.end_of_file → 0 ≤ r) ∧
      (eof = true → 0 ≤ r) ∧
      (∀ call ∈ buffer_add_fd_calls b len malloc_ok reads, call.result.ret = -1 →
        call.result.errno = errno_t.EAGAIN ∨ call.result.errno = errno_t.ENOTCONN → 0 ≤ r) ∧
      buffer_inv b1 ∧ buffer_region b1 ∧
      buffer_stream b1 = buffer_stream b ++
        fd_delivered (buffer_add_fd_calls b len malloc_ok reads)) ∧
    (fd_alloc_fails b len malloc_ok reads →
      ∃ b1, buffer_add_fd b len malloc_ok reads = some (-1, false, b1) ∧ buffer_inv b1 ∧
        buffer_region b1 ∧
        buffer_stream b1 = buffer_stream b ++
          fd_delivered (buffer_add_fd_calls b len malloc_ok reads)) ∧
    (∀ pre final, reads = pre ++ [final] → read_final final →
      ∃ res, buffer_add_fd b len malloc_ok reads = some res) ∧
    (∀ (i : Nat) (st : fd_start),
      (buffer_add_fd_starts b len malloc_ok reads)[i]? = some st →
      buffer_add_fd_loop (reads.drop i) malloc_ok st.mallocs st.buf
        (if len < 0 then INT_MAX else len) st.remain
        = buffer_add_fd b len malloc_ok reads) := by
  obtain ⟨l0, l1⟩ := fd_len_bounds len hl
  have hok := fd_run_ok_of_conforming reads malloc_ok 0 b _ _ hi hr l0 (le_refl _) l1 hrd
  obtain ⟨hal1, hal2⟩ := buffer_add_fd_alloc_fails b len malloc_ok reads
  have main : ∀ r eof b1, buffer_add_fd b len malloc_ok reads = some (r, eof, b1) →
      (r = -1 ↔ buffer_add_fd_stop b len malloc_ok reads = some fd_stop.read_failed ∨
        buffer_add_fd_stop b len malloc_ok reads = some fd_stop.alloc_failed) ∧
      (buffer_add_fd_stop b len malloc_ok reads = some fd_stop.read_failed ↔
        ∃ call ∈ buffer_add_fd_calls b len malloc_ok reads,
          call.result.ret = -1 ∧ call.result.errno = errno_t.other) ∧
      (buffer_add_fd_stop b len malloc_ok reads = some fd_stop.alloc_failed →
        (∃ j, malloc_ok j = false) ∧ ∀ c, buffer_tail b1 = some c → c.tail = c.end_) ∧
      (buffer_add_fd_stop b len malloc_ok reads = some fd_stop.would_block ∨
        buffer_add_fd_stop b len malloc_ok reads = some fd_stop.end_of_file → 0 ≤ r) ∧
      (eof = true → 0 ≤ r) ∧
      (∀ call ∈ buffer_add_fd_calls b len malloc_ok reads, call.result.ret = -1 →
        call.result.errno = errno_t.EAGAIN ∨ call.result.errno = errno_t.ENOTCONN → 0 ≤ r) ∧
      buffer_inv b1 ∧ buffer_region b1 ∧
      buffer_stream b1 = buffer_stream b ++
        fd_delivered (buffer_add_fd_calls b len malloc_ok reads) := by
    intro r eof b1 h
    obtain ⟨s, e, a1, a2, _, _, a5, a6, a7, _, a9, a10⟩ :=
      buffer_add_fd_spec b len malloc_ok reads r eof b1 hok h
    have hnn := byte_len_nonneg (fd_delivered (buffer_add_fd_calls b len malloc_ok reads))
    have hwb : s = fd_stop.would_block ∨ s = fd_stop.end_of_file → 0 ≤ r := by
      intro hs
      rw [a7]
      rcases hs with hs | hs <;> subst hs <;> simpa using hnn
    rw [e]
    refine ⟨?_, ?_, ?_, ?_, ?_, ?_, a1, a2, a5⟩
    · rw [a7]
      constructor
      · intro hm
        by_cases hc : s = fd_stop.alloc_failed ∨ s = fd_stop.read_failed
        · rcases hc with hc | hc
          · exact Or.inr (by rw [hc])
          · exact Or.inl (by rw [hc])
        · rw [if_neg hc] at hm
          omega
      · intro hc
        simp only [Option.some.injEq] at hc
        rw [if_pos (by tauto)]
    · constructor
      · intro hs
        simp only [Option.some.injEq] at hs
        subst hs
        obtain ⟨pre, call, p1, p2, _⟩ := a10 (by decide)
        obtain ⟨q1, q2⟩ := (fd_call_stop_failed call).mp p2
        refine ⟨call, by rw [p1]; simp, ?_, q2⟩
        rcases hrd call (by rw [p1]; simp) with hm | ⟨hm, _⟩
        · exact hm
        · omega
      · rintro ⟨call, hc, hz, he⟩
        have hcs := (fd_call_stop_failed call).mpr ⟨by omega, he⟩
        by_cases hs : s = fd_stop.alloc_failed
        · have := (a9 hs).2.2 call hc
          rw [this] at hcs
          exact absurd hcs (by simp)
        · obtain ⟨pre, last, p1, p2, p3⟩ := a10 hs
          rw [p1] at hc
          simp only [List.mem_append, List.mem_singleton] at hc
          rcases hc with hc | hc
          · have := p3 call hc
            rw [this] at hcs
            exact absurd hcs (by simp)
          · subst hc
            rw [p2] at hcs
            exact hcs
    · intro hs
      simp only [Option.some.injEq] at hs
      exact ⟨(a9 hs).1, (a9 hs).2.1⟩
    · intro hs
      simp only [Option.some.injEq] at hs
      exact hwb hs
    · intro he
      rw [a6] at he
      exact hwb (Or.inr (by simpa using he))
    · intro call hc hz he
      have hcs : fd_call_stop call = some fd_stop.would_block := by
        unfold fd_call_stop
        rw [if_neg (by omega), if_pos (by omega)]
        rcases he with he | he <;> rw [he]
      by_cases hs : s = fd_stop.alloc_failed
      · have := (a9 hs).2.2 call hc
        rw [this] at hcs
        exact absurd hcs (by simp)
      · obtain ⟨pre, last, p1, p2, p3⟩ := a10 hs
        rw [p1] at hc
        simp only [List.mem_append, List.mem_singleton] at hc
        rcases hc with hc | hc
        · have := p3 call hc
          rw [this] at hcs
          exact absurd hcs (by simp)
        · subst hc
          rw [p2] at hcs
          simp only [Option.some.injEq] at hcs
          exact hwb (Or.inl hcs)
  refine ⟨?_, ?_, ?_, (buffer_add_fd_starts_loop b len malloc_ok reads).2⟩
  · intro r eof b1 h
    obtain ⟨m1, m2, m3, m4, m5, m6, m7, m8, m9⟩ := main r eof b1 h
    refine ⟨?_, m1, m2, hal1, m3, m4, m5, m6, m7, m8, m9⟩
    unfold fd_read_fails
    rw [m1, m2, hal1]
  · intro hf
    obtain ⟨b1, h⟩ := hal2 hf
    obtain ⟨_, _, _, _, _, _, m7, m8, m9⟩ := main (-1) false b1 h
    exact ⟨b1, h, m7, m8, m9⟩
  · intro pre final hreads hf
    subst hreads
    unfold buffer_add_fd
    exact buffer_add_fd_loop_total final hf pre malloc_ok 0 b _ _

set_option maxRecDepth 100000 in
/-- Witness of C14: a buffer whose one segment has three bytes free, a request of ten bytes, a
descriptor that delivers three bytes, and an allocation that fails: the first round reads the
three bytes, the second round needs a new segment, `malloc` fails, and the call returns `-1`
with the three bytes appended. -/
theorem buffer_add_fd_failure_witness :
    buffer_inv buffer_three_free ∧ buffer_region buffer_three_free ∧ (10 : Int) ≤ INT_MAX ∧
    (∀ call ∈ buffer_add_fd_calls buffer_three_free 10 (fun _ => false) reads_three_one,
      read_conforming call.count call.result) ∧
    buffer_add_fd_calls buffer_three_free 10 (fun _ => false) reads_three_one
      = [⟨10, 3, 3, ⟨3, errno_t.other, [1, 2, 3]⟩⟩] ∧
    buffer_add_fd_starts buffer_three_free 10 (fun _ => false) reads_three_one
      = [⟨0, buffer_three_free, 10⟩,
          ⟨0, ⟨[chain_store ⟨0, 509, 512, zero_bytes 512⟩ [1, 2, 3]], 0⟩, 7⟩] ∧
    fd_alloc_fails buffer_three_free 10 (fun _ => false) reads_three_one ∧
    ¬ fd_read_fails buffer_three_free 10 (fun _ => false) reads_three_one ∧
    buffer_add_fd buffer_three_free 10 (fun _ => false) reads_three_one
      = some (-1, false, ⟨[chain_store ⟨0, 509, 512, zero_bytes 512⟩ [1, 2, 3]], 0⟩) ∧
    ((∀ r eof b1,
      buffer_add_fd buffer_three_free 10 (fun _ => false) reads_three_one = some (r, eof, b1) →
      (r = -1 ↔
        fd_read_fails buffer_three_free 10 (fun _ => false) reads_three_one ∨
        fd_alloc_fails buffer_three_free 10 (fun _ => false) reads_three_one) ∧
      (r = -1 ↔
        buffer_add_fd_stop buffer_three_free 10 (fun _ => false) reads_three_one
          = some fd_stop.read_failed ∨
        buffer_add_fd_stop buffer_three_free 10 (fun _ => false) reads_three_one
          = some fd_stop.alloc_failed) ∧
      (buffer_add_fd_stop buffer_three_free 10 (fun _ => false) reads_three_one
          = some fd_stop.read_failed ↔
        ∃ call ∈ buffer_add_fd_calls buffer_three_free 10 (fun _ => false) reads_three_one,
          call.result.ret = -1 ∧ call.result.errno = errno_t.other) ∧
      (buffer_add_fd_stop buffer_three_free 10 (fun _ => false) reads_three_one
          = some fd_stop.alloc_failed ↔
        fd_alloc_fails buffer_three_free 10 (fun _ => false) reads_three_one) ∧
      (buffer_add_fd_stop buffer_three_free 10 (fun _ => false) reads_three_one
          = some fd_stop.alloc_failed →
        (∃ j : Nat, (fun _ : Nat => false) j = false) ∧
          ∀ c, buffer_tail b1 = some c → c.tail = c.end_) ∧
      (buffer_add_fd_stop buffer_three_free 10 (fun _ => false) reads_three_one
          = some fd_stop.would_block ∨
        buffer_add_fd_stop buffer_three_free 10 (fun _ => false) reads_three_one
          = some fd_stop.end_of_file → 0 ≤ r) ∧
      (eof = true → 0 ≤ r) ∧
      (∀ call ∈ buffer_add_fd_calls buffer_three_free 10 (fun _ => false) reads_three_one,
        call.result.ret = -1 →
        call.result.errno = errno_t.EAGAIN ∨ call.result.errno = errno_t.ENOTCONN → 0 ≤ r) ∧
      buffer_inv b1 ∧ buffer_region b1 ∧
      buffer_stream b1 = buffer_stream buffer_three_free ++
        fd_delivered
          (buffer_add_fd_calls buffer_three_free 10 (fun _ => false) reads_three_one)) ∧
    (fd_alloc_fails buffer_three_free 10 (fun _ => false) reads_three_one →
      ∃ b1, buffer_add_fd buffer_three_free 10 (fun _ => false) reads_three_one
          = some (-1, false, b1) ∧
        buffer_inv b1 ∧ buffer_region b1 ∧
        buffer_stream b1 = buffer_stream buffer_three_free ++
          fd_delivered
          (buffer_add_fd_calls buffer_three_free 10 (fun _ => false) reads_three_one)) ∧
    (∀ pre final, reads_three_one = pre ++ [final] → read_final final →
      ∃ res, buffer_add_fd buffer_three_free 10 (fun _ => false) reads_three_one = some res) ∧
    (∀ (i : Nat) (st : fd_start),
      (buffer_add_fd_starts buffer_three_free 10 (fun _ => false) reads_three_one)[i]? = some st →
      buffer_add_fd_loop (reads_three_one.drop i) (fun _ => false) st.mallocs st.buf
        (if (10 : Int) < 0 then INT_MAX else 10) st.remain
        = buffer_add_fd buffer_three_free 10 (fun _ => false) reads_three_one)) :=
  ⟨by decide, by decide, by decide, by decide, by decide, by rfl, by decide, by decide, by rfl,
    buffer_add_fd_failure buffer_three_free 10 (fun _ => false) reads_three_one
      (by decide) (by decide) (by decide) (by decide)⟩

/-! ## Interrupted calls of `read`, the results -/

/-- C15, counterexample: on a buffer without segments and for `len = 0`, with a descriptor whose
call of `read` returns `0`, `buffer_add_fd` returns `0` with the flag `*eof` true; with one
failure `EINTR` put before that call it returns `0` with the flag false (the statement
`continue` leads to the loop condition, which is false for `remain = 0`). -/
theorem buffer_add_fd_eintr_clears_eof :
    buffer_add_fd ⟨[], 0⟩ 0 (fun _ => true) [fun _ => ⟨0, errno_t.other, []⟩]
      = some (0, true, ⟨[chain_fresh 4096], 0⟩) ∧
    buffer_add_fd ⟨[], 0⟩ 0 (fun _ => true)
      (with_eintr [1] [fun _ => ⟨0, errno_t.other, []⟩])
      = some (0, false, ⟨[chain_fresh 4096], 0⟩) :=
  ⟨rfl, rfl⟩

/-- C15, amended: for every buffer, every `len` other than `0`, every outcome of the
allocations and every script of the descriptor, when `buffer_add_fd` returns a value, a flag
`*eof` and a buffer, it returns the same value, flag and buffer with failures `EINTR` put into
the script, any number of them at any places (`with_eintr`). -/
theorem buffer_add_fd_interrupted (b : buffer) (len : Int) (malloc_ok : Nat → Bool)
    (reads : List (Int → read_result)) (ns : List Nat) (res : Int × Bool × buffer)
    (hlen : len ≠ 0) (h : buffer_add_fd b len malloc_ok reads = some res) :
    buffer_add_fd b len malloc_ok (with_eintr ns reads) = some res := by
  unfold buffer_add_fd at h ⊢
  refine buffer_add_fd_loop_with_eintr malloc_ok _ res ns reads 0 b _ ?_ h
  unfold INT_MAX
  split <;> omega

/-- Witness of C15 (amended): a buffer without segments, a request of four bytes, a descriptor
that delivers three bytes and then one byte, and three failures `EINTR`, one before the first
and two before the second call. -/
theorem buffer_add_fd_interrupted_witness :
    (4 : Int) ≠ 0 ∧
    buffer_add_fd ⟨[], 0⟩ 4 (fun _ => true)
      [fun _ => ⟨3, errno_t.other, [1, 2, 3]⟩, fun _ => ⟨1, errno_t.other, [4]⟩]
      = some (4, false, ⟨[chain_store (chain_store (chain_fresh 4096) [1, 2, 3]) [4]], 0⟩) ∧
    buffer_add_fd ⟨[], 0⟩ 4 (fun _ => true)
      (with_eintr [1, 2]
        [fun _ => ⟨3, errno_t.other, [1, 2, 3]⟩, fun _ => ⟨1, errno_t.other, [4]⟩])
      = some (4, false, ⟨[chain_store (chain_store (chain_fresh 4096) [1, 2, 3]) [4]], 0⟩) :=
  ⟨by decide, by rfl,
    buffer_add_fd_interrupted ⟨[], 0⟩ 4 (fun _ => true)
      [fun _ => ⟨3, errno_t.other, [1, 2, 3]⟩, fun _ => ⟨1, errno_t.other, [4]⟩] [1, 2]
      (4, false, ⟨[chain_store (chain_store (chain_fresh 4096) [1, 2, 3]) [4]], 0⟩)
      (by decide) (by rfl)⟩

/-- C16, counterexample: after `buffer_add` of `2 ^ 30 + 1` bytes and `buffer_drain` of one
byte the one segment of the buffer has a capacity of `2 ^ 31` bytes, it satisfies the segment
invariant, and `buffer_chain_should_align` returns true for it with `len = 0`, although one
byte is drained, `2 ^ 30` bytes are content and the free space is not less than `0` (the `int`
variable `maxlen` cannot hold the capacity). -/
theorem buffer_chain_should_align_2g :
    ∃ c, buffer_run ⟨[], 0⟩ [stream_op.add (zero_bytes 1073741825), stream_op.drain 1]
        = some ⟨[c], 0⟩ ∧
      chain_inv c ∧ c.end_ = 2 ^ 31 ∧ buffer_chain_should_align c 0 = true ∧
      ¬ (c.data ≠ 0 ∧ (c.data > c.end_ / 2 ∨ (c.tail - c.data < 32 ∧ c.data > c.end_ / 4) ∨
        c.end_ - c.tail < 0)) := by
  obtain ⟨c, hrun, _, hd, ht, he, _⟩ := buffer_reach_1g_drained
  refine ⟨c, hrun, ?_, by rw [he]; rfl, ?_, ?_⟩
  · unfold chain_inv; omega
  · unfold buffer_chain_should_align
    simp only [hd, ht, he, int_of]
    decide
  · rw [hd, ht, he]
    decide

/-- C16, amended: for every segment that satisfies `head ≤ data ≤ tail ≤ end` and has a
capacity `end - head` of at most `INT_MAX` bytes (every power of two from `512` to `2 ^ 30` is
one), and every `len`, `buffer_chain_should_align` returns true if and only if `data` is not
`head` and the drained size `data - head` is more than half the capacity, or the content size
`tail - data` is less than 32 and the drained size is more than a quarter of the capacity, or
the free size `end - tail` is less than `len`. -/
theorem buffer_chain_should_align_iff (c : buffer_chain) (len : Int) (hi : chain_inv c)
    (hcap : c.end_ ≤ INT_MAX) :
    buffer_chain_should_align c len = true ↔
      c.data ≠ 0 ∧ (c.data > c.end_ / 2 ∨ (c.tail - c.data < 32 ∧ c.data > c.end_ / 4) ∨
        c.end_ - c.tail < len) := by
  obtain ⟨h0, h1, h2⟩ := hi
  unfold INT_MAX at hcap
  unfold buffer_chain_should_align
  by_cases hd : c.data = 0
  · simp [hd]
  · simp only [hd, if_false, sub_zero, ne_eq, not_false_eq_true, true_and]
    rw [int_of_eq c.end_ (by omega) (by omega), int_of_eq c.data (by omega) (by omega),
      Int.tdiv_eq_ediv (by omega) (by omega), Int.tdiv_eq_ediv (by omega) (by omega)]
    by_cases a : c.data > c.end_ / 2
    · simp [a]
    · by_cases b : c.tail - c.data < 32 ∧ c.data > c.end_ / 4
      · simp [a, b]
      · simp [a, b]

/-- Witness of C16 (amended): a segment of 512 bytes with 300 bytes drained and 10 bytes of
content. -/
theorem buffer_chain_should_align_iff_witness :
    chain_inv ⟨300, 310, 512, zero_bytes 512⟩ ∧
    (⟨300, 310, 512, zero_bytes 512⟩ : buffer_chain).end_ ≤ INT_MAX ∧
    (buffer_chain_should_align ⟨300, 310, 512, zero_bytes 512⟩ 5 = true ↔
      (⟨300, 310, 512, zero_bytes 512⟩ : buffer_chain).data ≠ 0 ∧
        ((⟨300, 310, 512, zero_bytes 512⟩ : buffer_chain).data
            > (⟨300, 310, 512, zero_bytes 512⟩ : buffer_chain).end_ / 2 ∨
          ((⟨300, 310, 512, zero_bytes 512⟩ : buffer_chain).tail
              - (⟨300, 310, 512, zero_bytes 512⟩ : buffer_chain).data < 32 ∧
            (⟨300, 310, 512, zero_bytes 512⟩ : buffer_chain).data
              > (⟨300, 310, 512, zero_bytes 512⟩ : buffer_chain).end_ / 4) ∨
          (⟨300, 310, 512, zero_bytes 512⟩ : buffer_chain).end_
            - (⟨300, 310, 512, zero_bytes 512⟩ : buffer_chain).tail < 5)) :=
  ⟨by decide, by decide,
    buffer_chain_should_align_iff ⟨300, 310, 512, zero_bytes 512⟩ 5 (by decide) (by decide)⟩

/-- C18, counterexample: after `buffer_add` of `2 ^ 30 + 1` bytes and of `2 ^ 30 - 1` bytes and
`buffer_drain` of `2 ^ 31` bytes, the one segment of the buffer satisfies the segment invariant;
`buffer_add` of no bytes returns `0` and leaves a tail segment of `2 ^ 31` bytes with all
`2 ^ 31` bytes drained, more than half its capacity (the `int` variable `offset` cannot hold the
drained size). -/
theorem buffer_add_2g_tail_drained :
    ∃ b, buffer_run ⟨[], 0⟩
        [stream_op.add (zero_bytes 1073741825), stream_op.add (zero_bytes 1073741823),
          stream_op.drain 2147483648] = some b ∧
      buffer_inv b ∧
      ∃ b1 c, buffer_add b [] 0 true = some (0, b1) ∧ buffer_tail b1 = some c ∧
        c.data = 2147483648 ∧ c.end_ = 2147483648 ∧ ¬ c.data ≤ c.end_ / 2 := by
  obtain ⟨c, hrun, _, hd, ht, he, hr⟩ := buffer_reach_2g_drained
  have hic : chain_inv c := by unfold chain_inv; omega
  have hsa : buffer_chain_should_align c 0 = false := by
    unfold buffer_chain_should_align
    simp only [hd, ht, he, int_of]
    decide
  have hal : chain_aligned c 0 = c := by simp [chain_aligned, hsa]
  have hadd := buffer_add_concat_eq [] c 0 [] 0 hic hr (le_refl _) (by decide) (by simp) true
  simp only [hal, List.nil_append, ht, he, sub_self, le_refl, if_true, Int.toNat_zero,
    List.take_nil, chain_store_nil] at hadd
  refine ⟨⟨[c], 0⟩, hrun, ?_, ⟨[c], 0⟩, c, hadd, rfl, hd, he, ?_⟩
  · intro x hx
    simp only [List.mem_singleton] at hx
    rw [hx]
    exact hic
  · rw [hd, he]
    decide

/-- C18, amended: on a buffer whose segments satisfy the segment invariant (each with a storage
region of `end - head` bytes, at most `2 ^ 31`) and whose tail segment, if any, has at most
`INT_MAX` bytes drained, for every `len ≤ INT_MAX` and whether the allocation succeeds or
fails, `buffer_add` returns and the tail segment afterwards, if any, has a drained size
`data - head` of at most half its capacity `end - head`. -/
theorem buffer_add_tail_drained (b : buffer) (source : List UInt8) (len : Int)
    (malloc_ok : Bool) (hi : buffer_inv b) (hr : buffer_region b)
    (hd : ∀ c, buffer_tail b = some c → c.data ≤ INT_MAX) (h0 : 0 ≤ len)
    (hl : len ≤ INT_MAX) (hs : len ≤ source.length) :
    ∃ r b1, buffer_add b source len malloc_ok = some (r, b1) ∧
      ∀ c, buffer_tail b1 = some c → c.data ≤ c.end_ / 2 := by
  obtain ⟨l, d⟩ := b
  have hfresh : ∀ (n : Int) (bs : List UInt8),
      (chain_store (chain_fresh n) bs).data ≤ (chain_store (chain_fresh n) bs).end_ / 2 := by
    intro n bs
    rw [chain_store_data, chain_store_end]
    show (0 : Int) ≤ ((chain_cap n.toNat : Nat) : Int) / 2
    omega
  rcases buffer_tail_cases ⟨l, d⟩ with ⟨hnil, _⟩ | ⟨pre, c0, hcat, htl⟩
  · simp only at hnil
    subst hnil
    rw [buffer_add_nil_eq d source len h0 hl hs malloc_ok]
    cases malloc_ok
    · refine ⟨_, _, rfl, ?_⟩
      intro c hc
      simp [buffer_tail] at hc
    · refine ⟨_, _, rfl, ?_⟩
      intro c hc
      simp only [buffer_tail, List.getLast?_singleton, Option.some.injEq] at hc
      rw [← hc]
      exact hfresh _ _
  · simp only at hcat
    subst hcat
    have hic0 := hi c0 (by simp)
    have hrc0 := hr c0 (by simp)
    have hhalf := chain_aligned_half c0 len hic0 hrc0 (hd c0 htl)
    rw [buffer_add_concat_eq pre c0 d source len hic0 hrc0 h0 hl hs malloc_ok]
    simp only
    generalize chain_aligned c0 len = c at hhalf
    have hstore : ∀ bs : List UInt8,
        (chain_store c bs).data ≤ (chain_store c bs).end_ / 2 := by
      intro bs
      rw [chain_store_data, chain_store_end]
      exact hhalf
    by_cases hfit : len ≤ c.end_ - c.tail
    · simp only [hfit, if_true]
      refine ⟨_, _, rfl, ?_⟩
      intro x hx
      rw [buffer_tail_concat] at hx
      simp only [Option.some.injEq] at hx
      rw [← hx]
      exact hstore _
    · simp only [hfit, if_false]
      cases malloc_ok
      · simp only [Bool.false_eq_true, if_false]
        refine ⟨_, _, rfl, ?_⟩
        intro x hx
        rw [buffer_tail_concat] at hx
        simp only [Option.some.injEq] at hx
        rw [← hx]
        exact hstore _
      · simp only [if_true]
        refine ⟨_, _, rfl, ?_⟩
        intro x hx
        have e : ∀ a b : buffer_chain, pre ++ [a, b] = (pre ++ [a]) ++ [b] := by
          intro a b; simp
        rw [e, buffer_tail_concat] at hx
        simp only [Option.some.injEq] at hx
        rw [← hx]
        exact hfresh _ _

/-- Witness of C18 (amended): three bytes appended to a segment of eight bytes with five of them
drained and one byte of content. -/
theorem buffer_add_tail_drained_witness :
    buffer_inv ⟨[⟨5, 6, 8, [0, 0, 0, 0, 0, 7, 0, 0]⟩], 0⟩ ∧
    buffer_region ⟨[⟨5, 6, 8, [0, 0, 0, 0, 0, 7, 0, 0]⟩], 0⟩ ∧
    (∀ c, buffer_tail ⟨[⟨5, 6, 8, [0, 0, 0, 0, 0, 7, 0, 0]⟩], 0⟩ = some c → c.data ≤ INT_MAX) ∧
    (0 : Int) ≤ 3 ∧ (3 : Int) ≤ INT_MAX ∧ (3 : Int) ≤ ([1, 2, 3] : List UInt8).length ∧
    ∃ r b1, buffer_add ⟨[⟨5, 6, 8, [0, 0, 0, 0, 0, 7, 0, 0]⟩], 0⟩ [1, 2, 3] 3 true
        = some (r, b1) ∧
      ∀ c, buffer_tail b1 = some c → c.data ≤ c.end_ / 2 :=
  ⟨by decide, by decide, fun c h => by cases h; decide, by decide, by decide, by decide,
    buffer_add_tail_drained ⟨[⟨5, 6, 8, [0, 0, 0, 0, 0, 7, 0, 0]⟩], 0⟩ [1, 2, 3] 3 true
      (by decide) (by decide) (fun c h => by cases h; decide) (by decide) (by decide)
      (by decide)⟩

/-! ## The shape of the chain -/

/-- C19, counterexample: `buffer_add` of `2 ^ 30 + 1` bytes and of `2 ^ 30 - 1` bytes and
`buffer_drain` of `2 ^ 31` bytes, from a buffer without segments, leave a segment that is empty
(`data = tail`) and has `2 ^ 31` bytes drained (`data` is not `head`). -/
theorem buffer_reach_2g_empty_segment :
    ∃ b c, buffer_run ⟨[], 0⟩
        [stream_op.add (zero_bytes 1073741825), stream_op.add (zero_bytes 1073741823),
          stream_op.drain 2147483648] = some b ∧
      buffer_reach (fun _ => True) b ∧ b.head = [c] ∧ c.data = c.tail ∧ c.data ≠ 0 := by
  obtain ⟨c, hrun, hreach, hd, ht, _, _⟩ := buffer_reach_2g_drained
  exact ⟨⟨[c], 0⟩, c, hrun, hreach, rfl, by omega, by omega⟩

/-- C19, amended: in every state reached from a buffer without segments by `buffer_add`,
`buffer_drain`, `buffer_remove` and `buffer_add_fd` through states in which no segment holds
more than `INT_MAX` bytes, every segment other than the last is filled up (`tail = end`) and not
empty (`data < tail`), and a segment with an empty content region (`data = tail`) is the last
segment and has nothing drained (`data = head`); hence behind an empty head segment there is no
segment, and no byte. -/
theorem buffer_reach_shape (b : buffer) (h : buffer_reach buffer_small b) :
    (∀ pre c post, b.head = pre ++ c :: post →
      (post ≠ [] → c.tail = c.end_ ∧ c.data < c.tail) ∧
      (c.data = c.tail → post = [] ∧ c.data = 0)) ∧
    (∀ c cs, b.head = c :: cs → c.data = c.tail → cs = [] ∧ stream_of cs = []) := by
  have hshape := (buffer_reach_wf b h).1.2.2
  have key : ∀ pre c post, b.head = pre ++ c :: post →
      (post ≠ [] → c.tail = c.end_ ∧ c.data < c.tail) ∧
      (c.data = c.tail → post = [] ∧ c.data = 0) := by
    intro pre c post e
    rw [e] at hshape
    obtain ⟨h1, h2⟩ := chain_shape_at pre c post hshape
    refine ⟨h1, ?_⟩
    intro he
    have hp : post = [] := by
      by_contra hne
      have := (h1 hne).2
      omega
    exact ⟨hp, ((h2 hp).2 he).1⟩
  refine ⟨key, ?_⟩
  intro c cs e he
  have := ((key [] c cs (by simpa using e)).2 he).1
  subst this
  exact ⟨rfl, rfl⟩

set_option maxRecDepth 100000 in
/-- Witness of C19 (amended), at two states.  The first is reached by `buffer_add` of 512 bytes
and `buffer_add_fd` on a descriptor that fails with `EAGAIN`: a full segment of 512 bytes that
has a successor, and behind it an empty segment of 4096 bytes, which is the last and has nothing
drained.  The second is reached by that call of `buffer_add_fd` on a buffer without segments:
an empty head segment, with no segment behind it. -/
theorem buffer_reach_shape_witness :
    buffer_reach buffer_small buffer_full_empty ∧
    buffer_reach buffer_small buffer_one_empty ∧
    ((∀ pre c post, buffer_full_empty.head = pre ++ c :: post →
      (post ≠ [] → c.tail = c.end_ ∧ c.data < c.tail) ∧
      (c.data = c.tail → post = [] ∧ c.data = 0)) ∧
    (∀ c cs, buffer_full_empty.head = c :: cs → c.data = c.tail →
      cs = [] ∧ stream_of cs = [])) ∧
    ((∀ pre c post, buffer_one_empty.head = pre ++ c :: post →
      (post ≠ [] → c.tail = c.end_ ∧ c.data < c.tail) ∧
      (c.data = c.tail → post = [] ∧ c.data = 0)) ∧
    (∀ c cs, buffer_one_empty.head = c :: cs → c.data = c.tail →
      cs = [] ∧ stream_of cs = [])) :=
  have hread : ∀ rd ∈ [fun _ : Int => (⟨-1, errno_t.EAGAIN, []⟩ : read_result)],
      ∀ count, read_within count (rd count) :=
    fun rd h count => by
      simp only [List.mem_singleton] at h
      subst h
      exact Or.inl rfl
  have h1 : buffer_reach buffer_small buffer_full_empty :=
    buffer_reach.add_fd ⟨[⟨0, 512, 512, List.replicate 512 7⟩], 0⟩ 5 (fun _ => true)
      [fun _ => ⟨-1, errno_t.EAGAIN, []⟩] 0 false buffer_full_empty
      (buffer_reach.add ⟨[], 0⟩ (List.replicate 512 7) 512 true 0 _
        (buffer_reach.init 0 (by decide)) (by decide) (by decide) (by decide) (by rfl)
        (by decide))
      (by decide) hread (by rfl) (by decide)
  have h2 : buffer_reach buffer_small buffer_one_empty :=
    buffer_reach.add_fd ⟨[], 0⟩ 5 (fun _ => true)
      [fun _ => ⟨-1, errno_t.EAGAIN, []⟩] 0 false buffer_one_empty
      (buffer_reach.init 0 (by decide)) (by decide) hread (by rfl) (by decide)
  ⟨h1, h2, buffer_reach_shape buffer_full_empty h1, buffer_reach_shape buffer_one_empty h2⟩

/-- C20, counterexample: in a state reached from a buffer without segments (by `buffer_add` of
`2 ^ 30 + 1` and of `2 ^ 30 - 1` bytes, `buffer_drain` of `2 ^ 31` bytes and `buffer_add_fd` of
one byte on a descriptor that fails with `EAGAIN`) the one segment satisfies the segment
invariant and has `2 ^ 31` bytes free, and the first call of `read` that `buffer_add_fd` makes
for `len = 0` asks for `2 ^ 64 - 2 ^ 31` bytes, not for `0` bytes (the `int` variable
`avalible` cannot hold the free space); when that call delivers 5 bytes and the next one fails
with `EAGAIN`, `buffer_add_fd` returns 5. -/
theorem buffer_add_fd_2g_zero_request :
    ∃ b, buffer_reach (fun _ => True) b ∧ buffer_inv b ∧ buffer_region b ∧
      ∀ (malloc_ok : Nat → Bool) (rd : Int → read_result) (rest : List (Int → read_result)),
        ∃ call calls, buffer_add_fd_calls b 0 malloc_ok (rd :: rest) = call :: calls ∧
          call.remain = 0 ∧ call.free = 2147483648 ∧ call.count = 18446744071562067968 ∧
          ∃ b1, buffer_add_fd b 0 malloc_ok
            [fun _ => ⟨5, errno_t.other, zero_bytes 5⟩, fun _ => ⟨-1, errno_t.EAGAIN, []⟩]
            = some (5, false, b1) := by
  obtain ⟨c, hreach, hd, ht, he, hic, hrc⟩ := buffer_reach_2g_free
  refine ⟨⟨[c], 0⟩, hreach, ?_, ?_, ?_⟩
  · intro x hx
    simp only [List.mem_singleton] at hx
    rw [hx]
    exact hic
  · intro x hx
    simp only [List.mem_singleton] at hx
    rw [hx]
    exact hrc
  · intro malloc_ok rd rest
    have hal := chain_aligned_data_zero c 0 hd
    obtain ⟨calls, hc⟩ := buffer_add_fd_calls_free_2g c 0 0 malloc_ok rd rest (le_refl _)
      (by decide) (by rw [hal]; exact ht) (by rw [hal]; exact he)
    exact ⟨_, calls, hc, rfl, rfl, rfl,
      buffer_add_fd_free_2g_large c 0 0 5 malloc_ok (zero_bytes 5) (le_refl _) (by omega)
        (by decide) (by rw [hal]; exact hd) (by rw [hal]; exact ht) (by rw [hal]; exact he)⟩

/-- C20, amended: on a buffer whose segments satisfy the segment invariant (each with a storage
region of `end - head` bytes, at most `2 ^ 31`) and whose tail segment, if any, has at most
`INT_MAX` bytes outside its content, `buffer_add_fd` with `len = 0`, when the allocation
succeeds and `read` keeps to the count requested, runs the body of its loop once: it links a
fresh segment of 4096 bytes when there is no tail segment or the tail segment, compacted if
need be, has no free space, and no segment otherwise; it makes exactly one call of `read`, for
`0` bytes; it returns, with `0` and the flag `*eof` true when that call returns `0`; and the
logical byte stream is as before. -/
theorem buffer_add_fd_zero (b : buffer) (malloc_ok : Nat → Bool) (rd : Int → read_result)
    (rest : List (Int → read_result)) (hi : buffer_inv b) (hr : buffer_region b)
    (hs : buffer_tail_slack b) (hm : malloc_ok 0 = true) (hrd : read_within 0 (rd 0)) :
    ∃ r eof b1 free, buffer_add_fd b 0 malloc_ok (rd :: rest) = some (r, eof, b1) ∧
      buffer_add_fd_calls b 0 malloc_ok (rd :: rest)
        = [{ remain := 0, free := free, count := 0, result := rd 0 }] ∧
      buffer_stream b1 = buffer_stream b ∧
      ((rd 0).ret = 0 → r = 0 ∧ eof = true) ∧
      (buffer_tail b = none → b1.head = [chain_fresh 4096]) ∧
      (∀ pre c, b.head = pre ++ [c] →
        b1.head = if (chain_aligned c 0).tail < (chain_aligned c 0).end_ then
            pre ++ [chain_aligned c 0]
          else pre ++ [chain_aligned c 0, chain_fresh 4096]) ∧
      (chain_fresh 4096).data = 0 ∧ (chain_fresh 4096).tail = 0 ∧
      (chain_fresh 4096).end_ = 4096 := by
  obtain ⟨b0, res, e0, i0, r0, s0, _, sl0, n0, t0⟩ :=
    buffer_add_fd_chain_inv b 0 (malloc_ok 0) hi hr
  cases res with
  | none =>
    have := (n0 rfl).1
    rw [hm] at this
    exact absurd this (by simp)
  | some cu =>
    obtain ⟨chain, used⟩ := cu
    obtain ⟨pre, hpre, hroom⟩ := t0 chain used rfl
    have hheads := buffer_add_fd_chain_head b 0 b0 _ (by rw [← hm]; exact e0)
    obtain ⟨l0, d⟩ := b0
    simp only at hpre
    subst hpre
    have hic := i0 chain (by simp)
    have hrc := r0 chain (by simp)
    have hslc := sl0 hs chain (buffer_tail_concat pre chain d)
    unfold chain_slack_small INT_MAX at hslc
    have hcnt := fd_count_eq 0 (chain.end_ - chain.tail) (le_refl _) (by decide) (by omega)
      (by have := hrc.2; have := hic.1; have := hic.2.1; omega)
    have hfree : chain.end_ - chain.tail ≤ INT_MAX := by
      unfold INT_MAX; have := hic.1; omega
    rw [if_pos hfree, min_eq_left (by omega)] at hcnt
    have hround : buffer_add_fd_round rd (malloc_ok 0) b 0 0
        = some (buffer_add_fd_begin rd ⟨pre ++ [chain], d⟩ chain used 0 0) := by
      unfold buffer_add_fd_round
      rw [e0]
    have hcall := buffer_add_fd_begin_call rd ⟨pre ++ [chain], d⟩ chain used 0 0
    rw [hcnt] at hcall
    have e00 : int_of (0 - 0) = 0 := by decide
    have hcap : (chain_fresh 4096).end_ = 4096 := by
      show ((chain_cap (4096 : Int).toNat : Nat) : Int) = 4096
      rw [show (4096 : Int).toNat = 4096 from rfl, chain_cap_4096]
      rfl
    have hnext : ∃ s r eof, (buffer_add_fd_begin rd ⟨pre ++ [chain], d⟩ chain used 0 0).2
        = fd_next.stop s r eof ⟨pre ++ [chain], d⟩ ∧ ((rd 0).ret = 0 → r = 0 ∧ eof = true) := by
      rcases hrd with hneg | ⟨w0, w1, _⟩
      · rw [buffer_add_fd_begin_neg rd pre chain d used 0 0 0 hcnt hneg]
        have hnz : ¬ (rd 0).ret = 0 := by omega
        cases (rd 0).errno
        · exact ⟨fd_stop.interrupted, int_of (0 - 0), false, by simp, fun h => absurd h hnz⟩
        all_goals exact ⟨_, _, _, rfl, fun h => absurd h hnz⟩
      · have hz : (rd 0).ret = 0 := by omega
        rw [buffer_add_fd_begin_zero rd pre chain d used 0 0 0 hcnt hz]
        exact ⟨_, _, _, rfl, fun _ => ⟨e00, rfl⟩⟩
    obtain ⟨s, r, eof, hnx, hz⟩ := hnext
    generalize buffer_add_fd_begin rd ⟨pre ++ [chain], d⟩ chain used 0 0 = p at hround hcall hnx
    obtain ⟨calls0, next⟩ := p
    simp only at hcall hnx
    subst hcall hnx
    have hrun := buffer_add_fd_run_cons_stop rd rest malloc_ok 0 b 0 0 _ _ _ _ _ hround
    refine ⟨r, eof, ⟨pre ++ [chain], d⟩, chain.end_ - chain.tail, ?_, ?_, s0, hz, hheads.1,
      hheads.2, rfl, rfl, hcap⟩
    · rw [buffer_add_fd_eq_run]
      simp only [lt_self_iff_false, if_false]
      rw [hrun]
      rfl
    · unfold buffer_add_fd_calls
      simp only [lt_self_iff_false, if_false]
      rw [hrun]

/-- Witness of C20 (amended): a buffer without segments and a descriptor whose call of `read`
returns `0`. -/
theorem buffer_add_fd_zero_witness :
    buffer_inv ⟨[], 0⟩ ∧ buffer_region ⟨[], 0⟩ ∧ buffer_tail_slack ⟨[], 0⟩ ∧
    (fun _ : Nat => true) 0 = true ∧
    read_within 0 ((fun _ : Int => (⟨0, errno_t.other, []⟩ : read_result)) 0) ∧
    ∃ r eof b1 free, buffer_add_fd ⟨[], 0⟩ 0 (fun _ => true)
        ((fun _ => ⟨0, errno_t.other, []⟩) :: []) = some (r, eof, b1) ∧
      buffer_add_fd_calls ⟨[], 0⟩ 0 (fun _ => true) ((fun _ => ⟨0, errno_t.other, []⟩) :: [])
        = [{ remain := 0, free := free, count := 0,
             result := (fun _ : Int => (⟨0, errno_t.other, []⟩ : read_result)) 0 }] ∧
      buffer_stream b1 = buffer_stream ⟨[], 0⟩ ∧
      (((fun _ : Int => (⟨0, errno_t.other, []⟩ : read_result)) 0).ret = 0 →
        r = 0 ∧ eof = true) ∧
      (buffer_tail ⟨[], 0⟩ = none → b1.head = [chain_fresh 4096]) ∧
      (∀ pre c, (⟨[], 0⟩ : buffer).head = pre ++ [c] →
        b1.head = if (chain_aligned c 0).tail < (chain_aligned c 0).end_ then
            pre ++ [chain_aligned c 0]
          else pre ++ [chain_aligned c 0, chain_fresh 4096]) ∧
      (chain_fresh 4096).data = 0 ∧ (chain_fresh 4096).tail = 0 ∧
      (chain_fresh 4096).end_ = 4096 :=
  ⟨by decide, by decide, by decide, rfl, by decide,
    buffer_add_fd_zero ⟨[], 0⟩ (fun _ => true) (fun _ => ⟨0, errno_t.other, []⟩) []
      (by decide) (by decide) (by decide) rfl (by decide)⟩
